import Mathlib

/-!
Verification of the TPIE pipelining runtime core (src/tpie/pipelining/runtime.cpp)
and the block-level helpers (src/tpie/file_base.cpp) against their
natural-language specification.

The C++ code is shallowly embedded: machine integers (memory_size_type,
stream_size_type) are modelled as Nat (no arithmetic here comes near 2^64,
and the C++ quantities are sums and clamps of user-supplied sizes), C++
double is modelled as ℚ (every concrete computation checked below stays
within exact dyadic rationals, where IEEE double arithmetic is exact),
exceptions are modelled with Except, and unbounded while loops take an
explicit fuel argument.
-/

namespace TPIE

/-- Exception kinds raised by the embedded code (tpie exception classes). -/
inductive Err where
  | endOfStream
  | notADag
  | cannotSatisfyAllGreenEdges
  | noInitiatorNode
  | tpieError
  | assertFailed
  deriving DecidableEq, Repr

/-! ### file_base.cpp: get_block_check (C9) -/

/-- Embeds file_base_crtp::get_block_check (file_base.cpp lines 79-91):
`if (block * m_blockItems > self().size()) throw end_of_stream_exception();`. -/
def get_block_check (blockItems size block : Nat) : Except Err Unit :=
  if block * blockItems > size then .error .endOfStream else .ok ()

/-! ### file_base.cpp: get_block_size / set_block_size (C10) -/

/-- Embeds tpie::get_block_size (file_base.cpp lines 31-38). The process state
is the file-scoped global `the_block_size`; the environment is modelled as the
value of `(stream_size_type)atol(getenv("TPIE_BLOCK_SIZE"))`: `none` when the
variable is unset, `some v` for the parsed value (`some 0` for a string atol
cannot parse to a non-zero integer). Returns the result together with the new
value of `the_block_size`. -/
def get_block_size (env : Option Nat) (the_block_size : Nat) : Nat × Nat :=
  if the_block_size = 0 then
    let s1 := match env with
      | some v => v
      | none => the_block_size
    let s2 := if s1 = 0 then 1024 * 1024 * 2 else s1
    (s2, s2)
  else (the_block_size, the_block_size)

/-- Embeds tpie::set_block_size (file_base.cpp lines 40-42): unconditionally
overwrites the global `the_block_size` with its argument. -/
def set_block_size (block_size : Nat) : Nat := block_size

/-! ### runtime.cpp: resource_runtime and the factor searches (C4, C5) -/

/-- The resource declaration of one node for one fixed resource kind, as read
by resource_runtime (runtime.cpp lines 697-706): get_minimum_resource_usage,
get_maximum_resource_usage and get_resource_fraction. -/
structure NodeResource where
  minimum : Nat
  maximum : Nat
  fraction : ℚ
  deriving DecidableEq, Repr

/-- Embeds resource_runtime::clamp (runtime.cpp lines 746-751). The final
static_cast truncates the non-negative double toward zero, i.e. takes the
floor (v ≥ lo ≥ 0 in that branch). -/
def clamp (lo hi : Nat) (v : ℚ) : Nat :=
  if v < (lo : ℚ) then lo
  else if v > (hi : ℚ) then hi
  else (⌊v⌋).toNat

/-- Embeds resource_runtime::sum_minimum_usage, the sum m_minimumUsage
accumulated in the constructor (runtime.cpp lines 689-694). -/
def sum_minimum_usage (ns : List NodeResource) : Nat :=
  (ns.map (·.minimum)).sum

/-- Embeds resource_runtime::sum_fraction, the sum m_fraction accumulated in
the constructor (runtime.cpp lines 689-694). -/
def sum_fraction (ns : List NodeResource) : ℚ :=
  (ns.map (·.fraction)).sum

/-- Embeds resource_runtime::get_assigned_usage (runtime.cpp lines 742-744):
clamp(minimum_usage(i), maximum_usage(i), factor * fraction(i)). -/
def get_assigned_usage (n : NodeResource) (factor : ℚ) : Nat :=
  clamp n.minimum n.maximum (factor * n.fraction)

/-- Embeds resource_runtime::sum_assigned_usage (runtime.cpp lines 735-740). -/
def sum_assigned_usage (ns : List NodeResource) (factor : ℚ) : Nat :=
  (ns.map (get_assigned_usage · factor)).sum

/-- One entry of datastructure_runtime::m_datastructures
(runtime.cpp lines 847-863). -/
structure DsInfo where
  min : Nat
  max : Nat
  priority : ℚ
  left_most_phase : Nat
  right_most_phase : Nat
  factor : ℚ
  deriving DecidableEq, Repr

/-- The activity test `left_most_phase <= phase && phase <= right_most_phase`
used by every datastructure_runtime sum (runtime.cpp lines 1058-1108). -/
def ds_active (d : DsInfo) (phase : Nat) : Bool :=
  d.left_most_phase ≤ phase && phase ≤ d.right_most_phase

/-- Embeds datastructure_runtime::sum_minimum_memory
(runtime.cpp lines 1058-1067). -/
def sum_minimum_memory (ds : List DsInfo) (phase : Nat) : Nat :=
  ((ds.filter (ds_active · phase)).map (·.min)).sum

/-- Embeds datastructure_runtime::sum_fraction (runtime.cpp lines 1069-1078):
sums the priorities of the active datastructures. -/
def ds_sum_fraction (ds : List DsInfo) (phase : Nat) : ℚ :=
  ((ds.filter (ds_active · phase)).map (·.priority)).sum

/-- Embeds the two-argument datastructure_runtime::sum_assigned_memory
(runtime.cpp lines 1080-1089), used while the datastructure factors are not
yet locked. -/
def sum_assigned_memory_at (ds : List DsInfo) (factor : ℚ) (phase : Nat) : Nat :=
  ((ds.filter (ds_active · phase)).map
    (fun d => clamp d.min d.max (d.priority * factor))).sum

/-- Embeds the one-argument datastructure_runtime::sum_assigned_memory
(runtime.cpp lines 1099-1108), used after minimize_factor locked the stored
factors. -/
def sum_assigned_memory_locked (ds : List DsInfo) (phase : Nat) : Nat :=
  ((ds.filter (ds_active · phase)).map
    (fun d => clamp d.min d.max (d.priority * d.factor))).sum

/-- Embeds the exponential search loop shared by runtime::get_files_factor
(runtime.cpp lines 1777-1789) and runtime::get_memory_factor (lines
1863-1875); `A` is the total assigned usage as a function of the factor (for
files the node sum, for memory the node sum plus the datastructure sum), and
the unbounded while loop takes explicit fuel (it returns the current c_hi
when the fuel runs out, exactly as when the loop condition fails). -/
def exp_search (A : ℚ → Nat) (budget : Nat) (fraction_sum : ℚ) :
    Nat → ℚ → Nat → ℚ
  | 0, c_hi, _ => c_hi
  | fuel + 1, c_hi, oldAssigned =>
    let factor := budget * c_hi / fraction_sum
    let assigned := A factor
    if assigned < budget ∧ assigned ≠ oldAssigned then
      exp_search A budget fraction_sum fuel (c_hi * 2) assigned
    else c_hi

/-- Embeds the bisection loop shared by runtime::get_files_factor
(runtime.cpp lines 1791-1802) and runtime::get_memory_factor (lines
1877-1888); the tolerance 1e-6 is modelled by the exact rational 1/1000000.
The loop returns c_lo, also when the fuel runs out. -/
def bin_search (A : ℚ → Nat) (budget : Nat) (fraction_sum : ℚ) :
    Nat → ℚ → ℚ → ℚ
  | 0, c_lo, _ => c_lo
  | fuel + 1, c_lo, c_hi =>
    if c_hi - c_lo > 1 / 1000000 then
      let c := c_lo + (c_hi - c_lo) / 2
      let factor := budget * c / fraction_sum
      let assigned := A factor
      if assigned > budget then bin_search A budget fraction_sum fuel c_lo c
      else bin_search A budget fraction_sum fuel c c_hi
    else c_lo

/-- The common shape of runtime::get_files_factor (runtime.cpp lines
1762-1805) and runtime::get_memory_factor (lines 1848-1891): warn and return
factor 0 when the minima exceed the budget, return 0 when the fraction sum is
below 1e-9 (modelled by 1/1000000000), otherwise run the exponential search
from c_hi = 1 and the bisection from [0, c_hi] and return the factor
budget * c_lo / fraction_sum. -/
def get_factor (fuel : Nat) (A : ℚ → Nat) (minSum budget : Nat)
    (fraction_sum : ℚ) : ℚ :=
  if minSum > budget then 0
  else if fraction_sum < 1 / 1000000000 then 0
  else
    let c_hi := exp_search A budget fraction_sum fuel 1 0
    let c_lo := bin_search A budget fraction_sum fuel 0 c_hi
    budget * c_lo / fraction_sum

/-- Embeds runtime::get_files_factor (runtime.cpp lines 1762-1805). -/
def get_files_factor (fuel files : Nat) (ns : List NodeResource) : ℚ :=
  get_factor fuel (sum_assigned_usage ns) (sum_minimum_usage ns) files
    (sum_fraction ns)

/-- Embeds runtime::get_memory_factor (runtime.cpp lines 1848-1891): like the
files factor but the minima, fractions and assigned sums of the
datastructures active in the phase are added, the assigned datastructure
memory being taken at the current factor while unlocked and at the stored
factors when locked. -/
def get_memory_factor (fuel memory phase : Nat) (ns : List NodeResource)
    (ds : List DsInfo) (locked : Bool) : ℚ :=
  get_factor fuel
    (fun factor => sum_assigned_usage ns factor +
      (if locked then sum_assigned_memory_locked ds phase
       else sum_assigned_memory_at ds factor phase))
    (sum_minimum_usage ns + sum_minimum_memory ds phase)
    memory
    (sum_fraction ns + ds_sum_fraction ds phase)

/-! ### runtime.cpp: relations, initiators, evacuation, go (C3, C8) -/

/-- Relation kinds between nodes (the pipelining tokens,
bits::node_relation). -/
inductive RelKind where
  | pushes
  | pulls
  | depends
  | no_forward_depends
  | memory_share_depends
  deriving DecidableEq, Repr

/-- BEq instance mirroring the derived equality. -/
instance : BEq RelKind := ⟨fun a b => decide (a = b)⟩

instance : LawfulBEq RelKind :=
  ⟨fun {_ _} h => of_decide_eq_true h, fun {_} => decide_eq_true rfl⟩

/-- One entry of the node_map relation multimap m_relations: the key
`fst` (i->first), the target `snd` (i->second.first) and the kind
(i->second.second). For the three *depends kinds, fst depends on snd, so
snd's phase must run before fst's phase (see runtime.cpp lines 1464-1467). -/
structure Relation where
  fst : Nat
  snd : Nat
  kind : RelKind
  deriving DecidableEq, Repr

/-- The capabilities of one node consulted by the evacuation and go logic:
its stable id and can_evacuate(). -/
structure ExecNode where
  id : Nat
  can_evacuate : Bool
  deriving DecidableEq, Repr

/-- Modelled from the spec: node_map::in_degree(id, kind). The node_map
implementation (tpie/pipelining/tokens.h) is not under src/. Per the spec
(§4.4 and glossary: an initiator has "zero pushes and zero pulls in-edges"),
in_degree counts the relations of the given kind pointing to the node, i.e.
the entries (from, (to, kind)) with to = id. -/
def in_degree (rels : List Relation) (id : Nat) (kind : RelKind) : Nat :=
  (rels.filter (fun r => r.kind == kind && r.snd == id)).length

/-- Embeds runtime::is_initiator (runtime.cpp lines 1653-1657). -/
def is_initiator (rels : List Relation) (n : ExecNode) : Bool :=
  in_degree rels n.id .pushes == 0 && in_degree rels n.id .pulls == 0

/-- Embeds runtime::has_initiator (runtime.cpp lines 1659-1663). -/
def has_initiator (rels : List Relation) (phase : List ExecNode) : Bool :=
  phase.any (is_initiator rels)

/-- Embeds runtime::ensure_initiators (runtime.cpp lines 1665-1668). -/
def ensure_initiators (rels : List Relation)
    (phases : List (List ExecNode)) : Except Err Unit :=
  if phases.all (has_initiator rels) then .ok () else .error .noInitiatorNode

/-- The node ids marked for evacuation while get_phases scans one phase
(runtime.cpp lines 1600-1608): every memory_share_depends relation keyed by a
node of the phase names a producer (it->second.first), which is marked unless
it lies in the immediately preceding phase (`previousNodes`). -/
def phase_evacuates (rels : List Relation) (prev : List Nat)
    (phase : List ExecNode) : List Nat :=
  (phase.map (fun c =>
    (rels.filter (fun r => r.fst == c.id &&
        r.kind == RelKind.memory_share_depends && !prev.contains r.snd)).map
      (·.snd))).flatten

/-- The phase scan of the evacuateWhenDone computation in runtime::get_phases
(runtime.cpp lines 1598-1613), carrying the previous phase's node ids. The
resulting unordered_set is modelled as the list of inserted ids (only
membership in it is ever used). -/
def evacuate_scan (rels : List Relation) :
    List (List ExecNode) → List Nat → List Nat
  | [], _ => []
  | ph :: rest, prev =>
      phase_evacuates rels prev ph ++ evacuate_scan rels rest (ph.map (·.id))

/-- Embeds the evacuateWhenDone set of runtime::get_phases, scanned over the
phases in final order starting with an empty previousNodes. -/
def evacuate_when_done (rels : List Relation)
    (phases : List (List ExecNode)) : List Nat :=
  evacuate_scan rels phases []

/-- Observable executor events: an evacuate() call or a go() call on a node
id. The remaining per-phase steps of go_until (propagate, resource
reassignment, progress handling, begin, end, free_datastructures) call
neither evacuate() nor go() and are not events of this trace. -/
inductive Ev where
  | evac (id : Nat)
  | go (id : Nat)
  deriving DecidableEq, Repr

/-- Embeds runtime::evacuate_all (runtime.cpp lines 1683-1695): for each node
of the completed phase whose id was marked, call evacuate() when it can
evacuate (otherwise only a warning is logged). -/
def evacuate_all (phase : List ExecNode) (marked : List Nat) : List Ev :=
  phase.filterMap (fun n =>
    if marked.contains n.id && n.can_evacuate then some (.evac n.id)
    else none)

/-- Embeds runtime::go_initiators (runtime.cpp lines 1713-1722): go() is
called on the initiators of the phase in their order in the phase list. -/
def go_initiators (rels : List Relation) (phase : List ExecNode) : List Ev :=
  (phase.filter (is_initiator rels)).map (fun n => .go n.id)

/-- The evacuate()/go() trace of the phase loop of runtime::go_until
(runtime.cpp lines 1240-1284) from the second phase on: before running phase
i > 0, evacuate the marked nodes of phase i-1, then call go() on phase i's
initiators. -/
def go_until_rest (rels : List Relation) (marked : List Nat) :
    List ExecNode → List (List ExecNode) → List Ev
  | _, [] => []
  | prev, ph :: rest =>
      evacuate_all prev marked ++ go_initiators rels ph ++
        go_until_rest rels marked ph rest

/-- The evacuate()/go() trace of runtime::go_until over all phases (no
evacuation before the first phase). -/
def go_until_trace (rels : List Relation) (marked : List Nat) :
    List (List ExecNode) → List Ev
  | [] => []
  | ph :: rest => go_initiators rels ph ++ go_until_rest rels marked ph rest

/-- Embeds runtime::go (runtime.cpp lines 1289-1299) for a pipeline whose
final phase order (as produced by get_phases together with the
evacuateWhenDone set) is `phases`: ensure every phase has an initiator, then
run the phase loop. -/
def runtime_go (rels : List Relation) (phases : List (List ExecNode)) :
    Except Err (List Ev) :=
  match ensure_initiators rels phases with
  | .error e => .error e
  | .ok _ => .ok (go_until_trace rels (evacuate_when_done rels phases) phases)

/-- The index of the phase containing a node id in the final order (the
claims' notion of a node's phase position). -/
def phase_of (phases : List (List ExecNode)) (id : Nat) : Option Nat :=
  match phases with
  | [] => none
  | ph :: rest =>
      if ph.any (·.id == id) then some 0 else (phase_of rest id).map (· + 1)

/-- The claims' notion of a memory_share_depends edge whose endpoint phases
are non-adjacent in the final order: the source (producer, r.snd) phase does
not immediately precede the destination (consumer, r.fst) phase. -/
def msd_unsatisfied (phases : List (List ExecNode)) (r : Relation) : Bool :=
  r.kind == RelKind.memory_share_depends &&
    match phase_of phases r.snd, phase_of phases r.fst with
    | some p, some c => !(p + 1 == c)
    | _, _ => false

/-- Whether the source node of a relation can evacuate, looked up among the
pipeline's nodes. -/
def src_can_evacuate (phases : List (List ExecNode)) (r : Relation) : Bool :=
  match phases.flatten.find? (·.id == r.snd) with
  | some n => n.can_evacuate
  | none => false

/-- The number of evacuate() calls in a trace. -/
def evac_count (evs : List Ev) : Nat :=
  (evs.filter (fun e => match e with | .evac _ => true | .go _ => false)).length

/-- The go() calls of a trace, in order. -/
def go_calls (evs : List Ev) : List Nat :=
  evs.filterMap (fun e => match e with | .evac _ => none | .go i => some i)

/-- The number of memory_share_depends edges whose endpoint phases are
non-adjacent in the final order and whose source can evacuate — the quantity
the claim equates with the number of evacuate() calls. -/
def unsatisfied_msd_count (rels : List Relation)
    (phases : List (List ExecNode)) : Nat :=
  (rels.filter (fun r =>
    msd_unsatisfied phases r && src_can_evacuate phases r)).length

/-- The nodes outside the final phase that can evacuate and are the source of
at least one non-adjacent memory_share_depends edge. -/
def evacuated_nodes (rels : List Relation)
    (phases : List (List ExecNode)) : List ExecNode :=
  phases.dropLast.flatten.filter (fun n =>
    n.can_evacuate && rels.any (fun r =>
      msd_unsatisfied phases r && r.snd == n.id))

/-- The previousNodes list in effect at step k of the evacuateWhenDone scan:
the initial list at step 0, afterwards the ids of phase k-1. -/
def scan_prev (prev : List Nat) (phs : List (List ExecNode)) : Nat → List Nat
  | 0 => prev
  | k + 1 => (phs.getD k []).map (·.id)

/-! ### runtime.cpp: satisfiable_graph and preprocess (C6) -/

/-- The satisfiable-edge graph (runtime.cpp lines 265-305): the node set
m_nodes (a std::set, held as its ascending iteration order), the edge lists
m_edgeLists (empty off the node set) and the satisfiable-edge set
m_satisfiableEdges. -/
structure SGraph where
  nodes : List Nat
  edges : Nat → List Nat
  sat : List (Nat × Nat)

/-- Embeds satisfiable_graph::remove_edge (runtime.cpp lines 283-286), which
erases the first occurrence of v in u's edge list (graph::remove_edge, lines
60-66) and drops (u, v) from the satisfiable set. -/
def remove_edge (g : SGraph) (u v : Nat) : SGraph :=
  { g with
    edges := fun x => if x = u then (g.edges u).erase v else g.edges x
    sat := g.sat.erase (u, v) }

/-- The memo cache of satisfiable_graph::paths: per source node the counts
map, none when not yet computed. (The C++ cache-hit test is cache[u].size();
an entry is non-empty exactly when u had an outgoing edge when computed, or
after a caller probed it with operator[], and a recomputation of an
empty-or-probed entry returns the same all-zero counts, so marking every
computed entry is observationally equal.) -/
def PathCache : Type := Nat → Option (Nat → Nat)

mutual
/-- Embeds satisfiable_graph::paths (runtime.cpp lines 307-326): the number
of paths from u to every other node, memoized in the cache; the C++
recursion (bounded by the acyclicity of the graph) carries explicit fuel. -/
def paths (g : SGraph) : Nat → Nat → PathCache → PathCache × (Nat → Nat)
  | 0, _, cache => (cache, fun _ => 0)
  | fuel + 1, u, cache =>
    match cache u with
    | some m => (cache, m)
    | none =>
      let r := paths_fold g fuel (g.edges u) cache (fun _ => 0)
      (fun x => if x = u then some r.2 else r.1 x, r.2)

/-- The loop body of paths: for each edge (u, v), result[v]++ and then
result[w] += paths(v, cache)[w] for every node w. -/
def paths_fold (g : SGraph) :
    (fuel : Nat) → List Nat → PathCache → (Nat → Nat) →
      PathCache × (Nat → Nat)
  | _, [], cache, acc => (cache, acc)
  | fuel, v :: rest, cache, acc =>
    let r1 := fun w => if w = v then acc w + 1 else acc w
    let pv := paths g fuel v cache
    paths_fold g fuel rest pv.1
      (fun w => if w ∈ g.nodes then r1 w + pv.2 w else r1 w)
end

/-- The state of graph::depth_first_search (runtime.cpp lines 226-262):
the time counter and the finish-time map (0 = in progress). -/
structure DfsState where
  time : Nat
  finish : Nat → Option Nat

mutual
/-- Embeds depth_first_search::visit (runtime.cpp lines 236-249) with
explicit fuel; the BAD sentinel is modelled as none. -/
def dfs_visit (g : SGraph) : Nat → Nat → DfsState → DfsState × Option Nat
  | 0, _, s => (s, none)
  | fuel + 1, u, s =>
    match s.finish u with
    | some t => (s, if t = 0 then none else some t)
    | none =>
      let s1 : DfsState :=
        { time := s.time + 1
          finish := fun x => if x = u then some 0 else s.finish x }
      match dfs_visit_fold g fuel (g.edges u) s1 with
      | (s2, false) => (s2, none)
      | (s2, true) =>
        ({ time := s2.time + 1
           finish := fun x => if x = u then some s2.time else s2.finish x },
         some s2.time)

/-- The edge loop of visit: stop with BAD as soon as a child visit is BAD. -/
def dfs_visit_fold (g : SGraph) :
    Nat → List Nat → DfsState → DfsState × Bool
  | _, [], s => (s, true)
  | fuel, v :: rest, s =>
    match dfs_visit g fuel v s with
    | (s2, none) => (s2, false)
    | (s2, some _) => dfs_visit_fold g fuel rest s2
end

/-- The node loop of graph::check_acyclical (runtime.cpp lines 85-91). -/
def check_acyclical_go (g : SGraph) : List Nat → DfsState → Bool
  | [], _ => true
  | v :: rest, s =>
    match dfs_visit g (g.nodes.length + 2) v s with
    | (_, none) => false
    | (s2, some _) => check_acyclical_go g rest s2

/-- Embeds graph::check_acyclical (runtime.cpp lines 85-91). -/
def check_acyclical (g : SGraph) : Bool :=
  check_acyclical_go g g.nodes { time := 0, finish := fun _ => none }

/-- One iteration of the preprocess loop (runtime.cpp lines 338-349) for node
u: collect the unnecessary edges (u, v) with paths(u, cache)[v] > 1, then
remove them. When u has no outgoing edges the loop body never calls paths. -/
def preprocess_step (g : SGraph) (cache : PathCache) (u : Nat) :
    SGraph × PathCache :=
  if (g.edges u).isEmpty then (g, cache)
  else
    let pr := paths g (g.nodes.length + 1) u cache
    ((((g.edges u).filter (fun v => decide (pr.2 v > 1))).foldl
        (fun h v => remove_edge h u v) g),
     pr.1)

/-- The node loop of satisfiable_graph::preprocess (runtime.cpp lines
333-350), sharing the path-count cache across iterations. -/
def preprocess_go : SGraph → PathCache → List Nat → SGraph
  | g, _, [] => g
  | g, cache, u :: rest =>
    let s := preprocess_step g cache u
    preprocess_go s.1 s.2 rest

/-- Embeds satisfiable_graph::preprocess (runtime.cpp lines 333-350):
validate acyclicity (not_a_dag on failure), then remove every unnecessary
edge, memoizing path counts per source. -/
def sg_preprocess (g : SGraph) : Except Err SGraph :=
  if check_acyclical g then .ok (preprocess_go g (fun _ => none) g.nodes)
  else .error .notADag

/-! Mathematical walk layer used to state the preprocess claims. -/

/-- One step of a walk: an edge of the graph. -/
def IsStep (g : SGraph) (x y : Nat) : Prop := y ∈ g.edges x

/-- A walk is a vertex list whose consecutive pairs are edges. -/
def IsWalk (g : SGraph) (l : List Nat) : Prop := l.Chain' (IsStep g)

/-- A walk from u to v: at least one edge, head u, last v. -/
def WalkFT (g : SGraph) (u v : Nat) (l : List Nat) : Prop :=
  IsWalk g l ∧ 2 ≤ l.length ∧ l.head? = some u ∧ l.getLast? = some v

/-- Acyclicity: no walk from a node to itself. -/
def Acyclic (g : SGraph) : Prop := ∀ u l, ¬ WalkFT g u u l

/-- Two distinct u-to-v walks exist: the claim's "the number of distinct
u-to-v paths exceeds one". -/
def TwoWalks (g : SGraph) (u v : Nat) : Prop :=
  ∃ l1 l2, WalkFT g u v l1 ∧ WalkFT g u v l2 ∧ l1 ≠ l2

/-- Enumeration of all u-to-v walks with at most fuel edges. -/
def walksTo (g : SGraph) : Nat → Nat → Nat → List (List Nat)
  | 0, _, _ => []
  | fuel + 1, u, v =>
    (g.edges u).flatMap (fun w =>
      (if w = v then [[u, v]] else []) ++
        (walksTo g fuel w v).map (fun l => u :: l))

/-- Well-formedness of the std::set-backed graph: ascending node list, edge
lists supported on the node set, targets in the node set, and no parallel
edges (satisfiable_graph is built through node_map relation sets). -/
def SWF (g : SGraph) : Prop :=
  g.nodes.Sorted (· < ·) ∧
  (∀ x, x ∉ g.nodes → g.edges x = []) ∧
  (∀ x, ∀ y ∈ g.edges x, y ∈ g.nodes) ∧
  (∀ x, (g.edges x).Nodup)

/-- Invariant on the memo cache during preprocess, relative to the current
graph g and the original graph g0: every cached count sits between the walk
count in the current graph and the walk count in the original graph. -/
def CacheBounded (g g0 : SGraph) (c : PathCache) : Prop :=
  ∀ x m, c x = some m → ∀ v,
    (walksTo g g0.nodes.length x v).length ≤ m v ∧
    m v ≤ (walksTo g0 g0.nodes.length x v).length

/-- Fuel adequacy for the paths recursion: every walk out of u has at most
fuel vertices. -/
def FuelBound (g : SGraph) (u fuel : Nat) : Prop :=
  ∀ l, IsWalk g l → l.head? = some u → l.length ≤ fuel

/-- The per-edge walk-count sum appearing in the paths loop. -/
def edgeSum (g : SGraph) (f : Nat) (es : List Nat) (q : Nat) : Nat :=
  (es.map (fun w => (if w = q then 1 else 0) + (walksTo g f w q).length)).sum

/-- The invariant of the preprocess node loop, relating the current graph h
and cache to the original graph g: nodes are unchanged, edge lists only
shrink, cached counts are bounded, two-walk multiplicity of surviving edges
is preserved, and only redundant edges have been removed so far. -/
def PreInv (g h : SGraph) (c : PathCache) : Prop :=
  h.nodes = g.nodes ∧
  (∀ x, (h.edges x).Sublist (g.edges x)) ∧
  CacheBounded h g c ∧
  (∀ x y, y ∈ h.edges x → TwoWalks g x y → TwoWalks h x y) ∧
  (∀ x y, y ∈ g.edges x → y ∉ h.edges x → TwoWalks g x y)

/-- Concrete three-node instance for the preprocess theorem: edges 0→1, 0→2
and 1→2; the edge (0,2) is redundant via the walk 0,1,2. -/
def c6g : SGraph :=
  { nodes := [0, 1, 2]
    edges := fun x => if x = 0 then [1, 2] else if x = 1 then [2] else []
    sat := [(0, 1), (0, 2), (1, 2)] }

/-- The graph produced by preprocess on the concrete instance. -/
def c6g2 : SGraph := preprocess_go c6g (fun _ => none) c6g.nodes

/-! ### runtime.cpp: graph construction, topological orders, SCC, and the
phase ordering of get_phases (C1, C2, C7) -/

/-- Sorted insertion into a std::set-backed list of naturals. -/
def insertSorted (v : Nat) : List Nat → List Nat
  | [] => [v]
  | x :: xs =>
    if v < x then v :: x :: xs
    else if v = x then x :: xs
    else x :: insertSorted v xs

/-- Sorted insertion into a std::set-backed list of pairs (lexicographic). -/
def insertPairSorted (p : Nat × Nat) : List (Nat × Nat) → List (Nat × Nat)
  | [] => [p]
  | q :: qs =>
    if p.1 < q.1 ∨ (p.1 = q.1 ∧ p.2 < q.2) then p :: q :: qs
    else if p = q then q :: qs
    else q :: insertPairSorted p qs

/-- graph::add_node (runtime.cpp lines 49-52); m_edgeLists[v] only
materializes the edge-list entry, which the total edges function models
implicitly. -/
def add_node (g : SGraph) (v : Nat) : SGraph :=
  { g with nodes := insertSorted v g.nodes }

/-- graph::add_edge (runtime.cpp lines 54-58). -/
def add_edge (g : SGraph) (u v : Nat) : SGraph :=
  let g1 := add_node (add_node g u) v
  { g1 with edges := fun x => if x = u then g1.edges u ++ [v] else g1.edges x }

/-- The empty graph. -/
def emptyGraph : SGraph := { nodes := [], edges := fun _ => [], sat := [] }

/-- The visit loop of graph::topological_order (runtime.cpp lines 100-108):
visit every node with one shared depth_first_search, collecting (finish
time, node) pairs; a BAD visit aborts with not_a_dag_exception. For graphs
built through add_node/add_edge the keys of m_edgeLists are exactly the
nodes, so the iteration runs over the sorted node list; the fuel mirrors
the choice made for check_acyclical. -/
def topo_visit_fold (g : SGraph) : List Nat → DfsState →
    Except Err (DfsState × List (Nat × Nat))
  | [], s => .ok (s, [])
  | v :: rest, s =>
    match dfs_visit g (g.nodes.length + 2) v s with
    | (_, none) => .error .notADag
    | (s2, some t) =>
      match topo_visit_fold g rest s2 with
      | .error e => .error e
      | .ok (s3, ps) => .ok (s3, (t, v) :: ps)

/-- The descending lexicographic comparison of std::sort with
std::greater on (finish time, node) pairs (runtime.cpp line 109). -/
def pairGe (a b : Nat × Nat) : Bool :=
  decide (b.1 < a.1) || (decide (a.1 = b.1) && decide (b.2 ≤ a.2))

/-- graph::topological_order (runtime.cpp lines 98-112): sort the (finish,
node) pairs descending and keep the nodes. The N default-constructed (0,0)
pairs of the C++ nodes vector sort strictly after every real pair (finish
times are positive) and fall outside the first N slots kept by the final
loop, so they are dropped from the model. -/
def topological_order (g : SGraph) : Except Err (List Nat) :=
  match topo_visit_fold g g.nodes { time := 0, finish := fun _ => none } with
  | .error e => .error e
  | .ok (_, ps) => .ok ((ps.mergeSort pairGe).map (fun p => p.2))

/-- The re-visit loop of graph::rootfirst_topological_order (runtime.cpp
lines 119-122); a BAD visit yields the BAD sentinel (SIZE_MAX) as sort
key, as in the C++. -/
def rootfirst_fold (g : SGraph) : List Nat → DfsState →
    DfsState × List (Nat × Nat)
  | [], s => (s, [])
  | v :: rest, s =>
    match dfs_visit g (g.nodes.length + 2) v s with
    | (s2, r) =>
      let pr := rootfirst_fold g rest s2
      (pr.1, (r.getD (2 ^ 64 - 1), v) :: pr.2)

/-- graph::rootfirst_topological_order (runtime.cpp lines 114-126). -/
def rootfirst_topological_order (g : SGraph) : Except Err (List Nat) :=
  match topological_order g with
  | .error e => .error e
  | .ok topo =>
    let pr := rootfirst_fold g topo { time := 0, finish := fun _ => none }
    .ok ((pr.2.mergeSort pairGe).map (fun p => p.2))

/-- The state of Tarjan's algorithm (runtime.cpp SCC class, lines 159-224):
the running index, the stack (head = top), the indices/lowlinks maps (none =
not yet assigned), the on-stack flags and the components in pop order. -/
structure SccState where
  index : Nat
  S : List Nat
  indices : Nat → Option Nat
  lowlinks : Nat → Option Nat
  onStack : Nat → Bool
  components : List (List Nat)

mutual
/-- SCC::visit (runtime.cpp lines 178-205) with explicit fuel (each node is
visited at most once, so the number of nodes plus one is adequate). A popped
component is recorded in pop order; the C++ std::set holds the same nodes. -/
def scc_visit (g : SGraph) : Nat → Nat → SccState → SccState
  | 0, _, st => st
  | fuel + 1, u, st =>
    let st1 : SccState :=
      { st with
        indices := fun x => if x = u then some st.index else st.indices x
        lowlinks := fun x => if x = u then some st.index else st.lowlinks x
        index := st.index + 1
        S := u :: st.S
        onStack := fun x => if x = u then true else st.onStack x }
    let st2 := scc_visit_fold g fuel u (g.edges u) st1
    if st2.indices u = st2.lowlinks u then
      let comp := st2.S.takeWhile (fun v => v ≠ u) ++ [u]
      { st2 with
        S := (st2.S.dropWhile (fun v => v ≠ u)).tail
        onStack := fun x => if x ∈ comp then false else st2.onStack x
        components := st2.components ++ [comp] }
    else st2

/-- The edge loop of SCC::visit (runtime.cpp lines 185-192); the lowlink
accesses always hit assigned entries, so the getD default is never taken. -/
def scc_visit_fold (g : SGraph) : Nat → Nat → List Nat → SccState → SccState
  | _, _, [], st => st
  | fuel, u, v :: rest, st =>
    let st2 :=
      if (st.indices v).isNone then
        let stv := scc_visit g fuel v st
        { stv with
          lowlinks := fun x => if x = u then
              some (min ((stv.lowlinks u).getD 0) ((stv.lowlinks v).getD 0))
            else stv.lowlinks x }
      else if st.onStack v then
        { st with
          lowlinks := fun x => if x = u then
              some (min ((st.lowlinks u).getD 0) ((st.lowlinks v).getD 0))
            else st.lowlinks x }
      else st
    scc_visit_fold g fuel u rest st2
end

/-- SCC::get_components (runtime.cpp lines 166-175): visit the unvisited
nodes in sorted order. -/
def scc_components_go (g : SGraph) : List Nat → SccState → SccState
  | [], st => st
  | u :: rest, st =>
    scc_components_go g rest
      (if (st.indices u).isNone then scc_visit g (g.nodes.length + 1) u st
       else st)

/-- The initial SCC state. -/
def scc_initial : SccState :=
  { index := 0, S := [], indices := fun _ => none, lowlinks := fun _ => none
    onStack := fun _ => false, components := [] }

/-- graph::strongly_connected_components (runtime.cpp lines 136-142):
Tarjan's algorithm lists the components in reverse topological order, so the
result is reversed. -/
def strongly_connected_components (g : SGraph) : List (List Nat) :=
  (scc_components_go g g.nodes scc_initial).components.reverse

/-- Reflexive-transitive reachability along edges: the mathematical notion
underlying strong connectivity. -/
def Reach (g : SGraph) : Nat → Nat → Prop :=
  Relation.ReflTransGen (IsStep g)

/-- Two nodes lie in the same strongly connected component. -/
def SameSCC (g : SGraph) (u v : Nat) : Prop :=
  Reach g u v ∧ Reach g v u

/-- A node has been visited (assigned an index). -/
def svis (st : SccState) (x : Nat) : Prop := (st.indices x).isSome = true

/-- The index of a visited node. -/
def idxv (st : SccState) (x : Nat) : Nat := (st.indices x).getD 0

/-- The lowlink of a visited node. -/
def lowv (st : SccState) (x : Nat) : Nat := (st.lowlinks x).getD 0

/-- A node already emitted into a component. -/
def asn (st : SccState) (x : Nat) : Prop := x ∈ st.components.flatten

/-- The number of unvisited graph nodes, governing the fuel. -/
def unvisitedCount (g : SGraph) (st : SccState) : Nat :=
  (g.nodes.filter (fun x => (st.indices x).isNone)).length

/-- The invariant of Tarjan's algorithm, relative to the gray path gs (the
chain of currently active visits, innermost first). -/
structure SccWF (g : SGraph) (gs : List Nat) (st : SccState) : Prop where
  visS : ∀ x ∈ st.S, svis st x
  visAsn : ∀ x, asn st x → svis st x
  visCases : ∀ x, svis st x → x ∈ st.S ∨ asn st x
  nodup : (st.components.flatten ++ st.S).Nodup
  onstack : ∀ x, st.onStack x = true ↔ x ∈ st.S
  visNodes : ∀ x, svis st x → x ∈ g.nodes
  lowSome : ∀ x, (st.lowlinks x).isSome = true ↔ svis st x
  idxLt : ∀ x i, st.indices x = some i → i < st.index
  idxInj : ∀ x y, svis st x → svis st y → idxv st x = idxv st y → x = y
  idxCount : st.index =
    (g.nodes.filter (fun x => (st.indices x).isSome)).length
  stackDec : st.S.Chain' (fun a b => idxv st b < idxv st a)
  lowLe : ∀ x, svis st x → lowv st x ≤ idxv st x
  lowWit : ∀ x ∈ st.S, ∃ z ∈ st.S, st.indices z = some (lowv st x) ∧
    Reach g x z
  lowStrict : ∀ x ∈ st.S, x ∉ gs → lowv st x < idxv st x
  upReach : ∀ x ∈ st.S, ∀ y ∈ st.S, idxv st x ≤ idxv st y → Reach g x y
  graysS : ∀ x ∈ gs, x ∈ st.S
  graysChain : gs.Chain' (fun a b => Reach g b a)
  compNE : ∀ c ∈ st.components, c ≠ []
  compSCC : ∀ c ∈ st.components, ∀ x ∈ c, ∀ y ∈ c, SameSCC g x y
  compMax : ∀ c ∈ st.components, ∀ x ∈ c, ∀ y, SameSCC g x y → y ∈ c
  compClosed : ∀ k, (hk : k < st.components.length) →
    ∀ x ∈ st.components.get ⟨k, hk⟩, ∀ w ∈ g.edges x,
      w ∈ (st.components.take (k + 1)).flatten

/-- How one Tarjan step (or a whole nested visit) may evolve the state:
indices of visited nodes are frozen, fresh nodes receive indices at least
the old counter, the stack grows by fresh nodes on top, and components are
only appended. -/
structure SccEvol (st st' : SccState) : Prop where
  idxFrozen : ∀ x, (st.indices x).isSome = true → st'.indices x = st.indices x
  idxMono : st.index ≤ st'.index
  freshIdx : ∀ x i, (st.indices x).isSome = false → st'.indices x = some i →
    st.index ≤ i
  stackExt : ∃ Y, st'.S = Y ++ st.S ∧ ∀ x ∈ Y, (st.indices x).isSome = false
  compExt : ∃ cs, st'.components = st.components ++ cs

/-- The induction statement for scc_visit at a given fuel: starting from a
well-formed state with enough fuel, visiting an unvisited node linked from
the innermost gray node preserves the invariant, evolves the state, freezes
the old lowlinks, bounds the subtree obligations by the final lowlink of the
visited node, and ends in the root/non-root dichotomy. -/
def SccVisitOK (g : SGraph) (fuel : Nat) : Prop :=
  ∀ u st gs,
    SccWF g gs st → u ∈ g.nodes → ¬ svis st u →
    (gs = [] ∨ ∃ u0 gs0, gs = u0 :: gs0 ∧ u ∈ g.edges u0) →
    unvisitedCount g st < fuel →
    SccWF g gs (scc_visit g fuel u st) ∧
    SccEvol st (scc_visit g fuel u st) ∧
    (∀ x, svis st x → (scc_visit g fuel u st).lowlinks x = st.lowlinks x) ∧
    (scc_visit g fuel u st).indices u = some st.index ∧
    (∀ x, ¬ svis st x → svis (scc_visit g fuel u st) x →
      ∀ w ∈ g.edges x, svis (scc_visit g fuel u st) w ∧
        (asn (scc_visit g fuel u st) w ∨
          lowv (scc_visit g fuel u st) u ≤ idxv (scc_visit g fuel u st) w)) ∧
    (∀ x, ¬ svis st x → x ∈ (scc_visit g fuel u st).S →
      lowv (scc_visit g fuel u st) u ≤ lowv (scc_visit g fuel u st) x) ∧
    ((lowv (scc_visit g fuel u st) u = st.index ∧
      (scc_visit g fuel u st).S = st.S ∧ asn (scc_visit g fuel u st) u) ∨
     (lowv (scc_visit g fuel u st) u < st.index ∧
      u ∈ (scc_visit g fuel u st).S ∧
      ∃ z ∈ st.S, st.indices z = some (lowv (scc_visit g fuel u st) u) ∧
        Reach g u z))

/-- The induction statement for the edge loop of scc_visit. -/
def SccFoldOK (g : SGraph) (fuel : Nat) : Prop :=
  ∀ u es st gs,
    SccWF g (u :: gs) st → u ∈ st.S → (∀ v ∈ es, v ∈ g.edges u) →
    unvisitedCount g st < fuel →
    SccWF g (u :: gs) (scc_visit_fold g fuel u es st) ∧
    SccEvol st (scc_visit_fold g fuel u es st) ∧
    (∀ x, svis st x → x ≠ u →
      (scc_visit_fold g fuel u es st).lowlinks x = st.lowlinks x) ∧
    lowv (scc_visit_fold g fuel u es st) u ≤ lowv st u ∧
    u ∈ (scc_visit_fold g fuel u es st).S ∧
    (∀ v ∈ es, svis (scc_visit_fold g fuel u es st) v) ∧
    (∀ v ∈ es, asn (scc_visit_fold g fuel u es st) v ∨
      lowv (scc_visit_fold g fuel u es st) u ≤
        idxv (scc_visit_fold g fuel u es st) v) ∧
    (∀ x, ¬ svis st x → svis (scc_visit_fold g fuel u es st) x →
      ∀ w ∈ g.edges x, svis (scc_visit_fold g fuel u es st) w ∧
        (asn (scc_visit_fold g fuel u es st) w ∨
          lowv (scc_visit_fold g fuel u es st) u ≤
            idxv (scc_visit_fold g fuel u es st) w)) ∧
    (∀ x, ¬ svis st x → x ∈ (scc_visit_fold g fuel u es st).S →
      lowv (scc_visit_fold g fuel u es st) u ≤
        lowv (scc_visit_fold g fuel u es st) x)

/-- satisfiable_graph::add_node (runtime.cpp lines 272-274). -/
def sg_add_node (g : SGraph) (u : Nat) : SGraph := add_node g u

/-- satisfiable_graph::add_edge (runtime.cpp lines 276-281). -/
def sg_add_edge (g : SGraph) (u v : Nat) (satisfiable : Bool) : SGraph :=
  let g1 := add_edge g u v
  if satisfiable then { g1 with sat := insertPairSorted (u, v) g1.sat }
  else g1

/-- satisfiable_graph::subgraph (runtime.cpp lines 355-366). -/
def subgraph (g : SGraph) (nodes : List Nat) : SGraph :=
  nodes.foldl (fun acc u =>
    (g.edges u).foldl (fun acc2 v =>
      if v ∈ nodes then sg_add_edge acc2 u v ((u, v) ∈ g.sat) else acc2)
      (sg_add_node acc u))
    emptyGraph

/-- satisfiable_graph::split_graph (runtime.cpp lines 375-385): the SCCs of
the graph with every satisfiable edge doubled in reverse, each inducing a
subgraph. -/
def split_graph (g : SGraph) : List SGraph :=
  let sccGraph := g.sat.foldl (fun acc p => add_edge acc p.2 p.1) g
  (strongly_connected_components sccGraph).map (fun comp => subgraph g comp)

/-- satisfiable_graph::minimum_satisfiable_edges (runtime.cpp lines
390-392). -/
def minimum_satisfiable_edges (g : SGraph) : Nat :=
  if g.sat.length = 0 then 0 else 1

mutual
/-- bruteforce_optimal_topological_order_helper (runtime.cpp lines 399-457)
with explicit fuel (the recursion adds one node to the order per level).
The C++ mutates indegrees/roots/order and restores them after each branch;
the model passes them functionally. -/
def bruteforce_helper (g : SGraph) :
    Nat → (Nat → Nat) → List Nat → List Nat → Nat × List Nat
  | 0, _, _, order => (0, order)
  | fuel + 1, indegrees, roots, order =>
    if order.length = g.nodes.length then (0, order)
    else bruteforce_try g fuel indegrees roots roots order
termination_by fuel _ _ _ => (fuel, 0)

/-- The per-root loop of the helper (runtime.cpp lines 414-454): try each
root, keep the first strictly best result, and stop early once every
satisfiable edge is satisfied. The unordered root set is modelled as a
list; its C++ iteration order is unspecified and only selects among equally
good orders. -/
def bruteforce_try (g : SGraph) :
    Nat → (Nat → Nat) → List Nat → List Nat → List Nat → Nat × List Nat
  | _, _, _, [], _ => (0, [])
  | fuel, indegrees, roots, u :: us, order =>
    let satisfiedEdge : Nat :=
      match order.getLast? with
      | some w => if (w, u) ∈ g.sat then 1 else 0
      | none => 0
    let step := (g.edges u).foldl
      (fun pr v =>
        let f := pr.1
        let f2 := fun x => if x = v then f v - 1 else f x
        (f2, if f v - 1 = 0 then pr.2 ++ [v] else pr.2))
      (indegrees, ([] : List Nat))
    let rec_result :=
      bruteforce_helper g fuel step.1 (roots.erase u ++ step.2) (order ++ [u])
    let result := (rec_result.1 + satisfiedEdge, rec_result.2)
    if result.1 = g.sat.length then result
    else
      let rest := bruteforce_try g fuel indegrees roots us order
      if rest.1 > result.1 then rest else result
termination_by fuel _ _ l _ => (fuel, l.length + 1)
end

/-- bruteforce_optimal_topological_order (runtime.cpp lines 462-481). -/
def bruteforce_optimal_topological_order (g : SGraph) : List Nat :=
  let indegrees := fun v => (g.nodes.flatMap (fun u => g.edges u)).count v
  let roots := g.nodes.filter (fun u => decide (indegrees u = 0))
  (bruteforce_helper g (g.nodes.length + 1) indegrees roots []).2

/-- Update of an unordered_map from keys to graphs: add an edge to the graph
at key k (used for contractedPaths and greenPaths; the map is modelled as an
association list in first-insertion key order — the C++ iteration order of
the unordered_map is unspecified, and every use below is insensitive to
it). -/
def paths_update (m : List (Nat × SGraph)) (k u v : Nat) :
    List (Nat × SGraph) :=
  match m with
  | [] => [(k, add_edge emptyGraph u v)]
  | (k2, gr) :: rest =>
    if k2 = k then (k2, add_edge gr u v) :: rest
    else (k2, gr) :: paths_update rest k u v

/-- `*it = *path.rbegin(); insert(it, path.begin(), path.end() - 1)`:
replace the first occurrence of k by the whole path. -/
def expand_replace (ord path : List Nat) (k : Nat) : List Nat :=
  match ord with
  | [] => []
  | x :: xs => if x = k then path ++ xs else x :: expand_replace xs path k

/-- The path expansion loop shared by bruteforce_satisfiable_edges (runtime
.cpp lines 590-600) and get_phases (lines 1571-1581): replace the contracted
representative in the order by the topological order of its path graph. -/
def expand_paths : List (Nat × SGraph) → List Nat → Except Err (List Nat)
  | [], ord => .ok ord
  | (k, gr) :: rest, ord =>
    match topological_order gr with
    | .error e => .error e
    | .ok path => expand_paths rest (expand_replace ord path k)

/-- The state selected as best by the subset search of
bruteforce_satisfiable_edges: satisfied count, contracted-node map (on node
indices), contracted path graphs and the contracted graph. -/
structure BfBest where
  satisfied : Nat
  uf : Nat → Nat
  paths : List (Nat × SGraph)
  contracted : SGraph

/-- Modelled from the spec: tpie::disjoint_sets (tpie/disjoint_sets.h, not
under src/) is a union-find container; find_set returns the canonical
representative of the argument's class and union_set merges two classes.
The model keeps every member of the merged class pointing at the
representative of the first argument's class; all uses below are
insensitive to the representative choice. -/
def uf_union (uf : Nat → Nat) (a b : Nat) : Nat → Nat :=
  fun x => if uf x = uf b then uf a else uf x

/-- One subset test of bruteforce_satisfiable_edges (runtime.cpp lines
512-569): union the chosen satisfiable edges (rejecting subsets with a
shared source or destination, or below the satisfiable minimum, or whose
contraction is cyclic); none models `continue`. The node set is indexed by
sorted position (nodeIndices, lines 492-501). -/
def bruteforce_subset (g : SGraph) (i : Nat) : Option BfBest :=
  let N := g.nodes.length
  let idx := fun u => g.nodes.indexOf u
  let first := g.sat.enum.foldl
    (fun st p =>
      let j := p.1
      let e := p.2
      if (1 <<< j) &&& i ≠ 0 ∧ ¬ st.2.2.2.2 then
        let k := idx e.1
        let l := idx e.2
        let uf2 := uf_union st.1 k l
        if k ∈ st.2.1 ∨ l ∈ st.2.2.1 then (uf2, st.2.1, st.2.2.1, st.2.2.2.1, true)
        else (uf2, k :: st.2.1, l :: st.2.2.1, st.2.2.2.1 + 1, false)
      else st)
    ((id : Nat → Nat), ([] : List Nat), ([] : List Nat), 0, false)
  let uf := first.1
  let satisfied := first.2.2.2.1
  let bad := first.2.2.2.2
  if bad then none
  else if satisfied < minimum_satisfiable_edges g then none
  else
    let contractedPaths := g.sat.enum.foldl
      (fun m p =>
        if (1 <<< p.1) &&& i ≠ 0 then
          paths_update m (uf (idx p.2.1)) (idx p.2.1) (idx p.2.2)
        else m)
      ([] : List (Nat × SGraph))
    let base := (List.range N).foldl (fun h j => add_node h (uf j)) emptyGraph
    let contractedGraph := g.nodes.foldl
      (fun h u =>
        let j := uf (idx u)
        (g.edges u).foldl
          (fun h2 v =>
            let k := uf (idx v)
            if j ≠ k then add_edge h2 j k else h2)
          h)
      base
    if check_acyclical contractedGraph then
      some ⟨satisfied, uf, contractedPaths, contractedGraph⟩
    else none

/-- The subset loop of bruteforce_satisfiable_edges (runtime.cpp lines
512-583): keep the first strictly best subset, stopping early once every
satisfiable edge is satisfied. -/
def bf_sat_loop (g : SGraph) : List Nat → Option BfBest → Option BfBest
  | [], best => best
  | i :: rest, best =>
    match bruteforce_subset g i with
    | none => bf_sat_loop g rest best
    | some cand =>
      let best2 := match best with
        | none => cand
        | some b => if cand.satisfied > b.satisfied then cand else b
      if best2.satisfied = g.sat.length then some best2
      else bf_sat_loop g rest (some best2)

/-- bruteforce_satisfiable_edges (runtime.cpp lines 486-605). When no subset
survives, the C++ tp_assert fires; the model reports assertFailed (the
situation is unreachable through topological_order, which validates
acyclicity first, making the empty subset survive). -/
def bruteforce_satisfiable_edges (g : SGraph) : Except Err (List Nat) :=
  match bf_sat_loop g (List.range (1 <<< g.sat.length)) none with
  | none => .error .assertFailed
  | some best =>
    match topological_order best.contracted with
    | .error e => .error e
    | .ok indexOrder =>
      match expand_paths best.paths indexOrder with
      | .error e => .error e
      | .ok expanded => .ok (expanded.map (fun j => g.nodes.getD j 0))

/-- greedy_topological_order (runtime.cpp lines 607-616): stable-sort every
edge list so the satisfiable edges come last (one of the permitted results
of the unstable std::sort), then order roots first. -/
def greedy_topological_order (g : SGraph) : Except Err (List Nat) :=
  let comp := fun (u a b : Nat) =>
    decide ((u, b) ∈ g.sat) || !decide ((u, a) ∈ g.sat)
  let g2 := { g with edges := fun u =>
    if u ∈ g.nodes then (g.edges u).mergeSort (comp u) else g.edges u }
  rootfirst_topological_order g2

/-- auto_topological_order (runtime.cpp lines 618-630) with the
max_bruteforce_satisfiable = 18 and max_bruteforce_depth = 10 cutoffs. -/
def auto_topological_order (g : SGraph) : Except Err (List Nat) :=
  if g.sat.length ≤ 18 then bruteforce_satisfiable_edges g
  else if g.nodes.length ≤ 10 then .ok (bruteforce_optimal_topological_order g)
  else greedy_topological_order g

/-- The subgraph loop of satisfiable_graph::topological_order (runtime.cpp
lines 655-661): preprocess each subgraph and order it with the AUTO
strategy, concatenating the orders. -/
def sat_topo_fold : List SGraph → Except Err (List Nat)
  | [] => .ok []
  | sub :: rest =>
    match sg_preprocess sub with
    | .error e => .error e
    | .ok sub2 =>
      match auto_topological_order sub2 with
      | .error e => .error e
      | .ok so =>
        match sat_topo_fold rest with
        | .error e => .error e
        | .ok os => .ok (so ++ os)

/-- satisfiable_graph::topological_order (runtime.cpp lines 640-662) with
the default AUTO strategy: preprocess, split into independent subgraphs and
order each. -/
def sat_topological_order (g : SGraph) : Except Err (List Nat) :=
  match sg_preprocess g with
  | .error e => .error e
  | .ok g2 => sat_topo_fold (split_graph g2)

/-- The writing loop of runtime::inverse_permutation (runtime.cpp lines
1417-1423); tpie::exception is raised for out-of-range or repeated values. -/
def inv_perm_go (n : Nat) : List Nat → Nat → List Nat →
    Except Err (List Nat)
  | [], _, result => .ok result
  | x :: xs, i, result =>
    if x ≥ n then .error .tpieError
    else if result.getD x 0 ≠ n then .error .tpieError
    else inv_perm_go n xs (i + 1) (result.set x i)

/-- runtime::inverse_permutation (runtime.cpp lines 1413-1429). -/
def inverse_permutation (f : List Nat) : Except Err (List Nat) :=
  match inv_perm_go f.length f 0 (List.replicate f.length f.length) with
  | .error e => .error e
  | .ok r =>
    if r.any (fun v => decide (v = f.length)) then .error .tpieError
    else .ok r

/-- The phase-level view of one entry of the relations multimap as read by
the classification loop of runtime::get_phases (runtime.cpp lines
1462-1471): the producer's phase (fromPhase), the consumer's phase
(toPhase), the relation kind and whether the producer node can evacuate. -/
structure PhaseRel where
  source : Nat
  target : Nat
  kind : RelKind
  srcCanEvacuate : Bool
  deriving DecidableEq, Repr

/-- The edge classification loop of get_phases (runtime.cpp lines
1462-1502): same-phase relations are skipped, non-memory-share relations
become black edges, memory-share relations with an evacuatable producer
become red edges, and the rest become green edges — of which a duplicated
source or destination phase raises the can't-satisfy-all-green-edges
exception. The green association list models both greenEdges (keyed by
first component) and revGreenEdges (keyed by second). -/
def classify_edges : List PhaseRel → List (Nat × Nat) → List (Nat × Nat) →
    List (Nat × Nat) →
    Except Err (List (Nat × Nat) × List (Nat × Nat) × List (Nat × Nat))
  | [], black, red, green => .ok (black, red, green)
  | r :: rest, black, red, green =>
    if r.source = r.target then classify_edges rest black red green
    else if r.kind ≠ .memory_share_depends then
      classify_edges rest (black ++ [(r.source, r.target)]) red green
    else if r.srcCanEvacuate then
      classify_edges rest black (red ++ [(r.source, r.target)]) green
    else if green.any (fun p => decide (p.1 = r.source)) ∨
        green.any (fun p => decide (p.2 = r.target)) then
      .error .cannotSatisfyAllGreenEdges
    else classify_edges rest black red (green ++ [(r.source, r.target)])

/-- The green contraction of get_phases (runtime.cpp lines 1504-1511):
union the endpoints of every green edge (the union-find model is
[uf_union]). -/
def green_uf (green : List (Nat × Nat)) : Nat → Nat :=
  green.foldl (fun uf p => uf_union uf p.1 p.2) id

/-- The greenPaths map of get_phases (runtime.cpp lines 1513-1517): per
contracted representative, the graph of its green edges. -/
def green_paths (uf : Nat → Nat) (green : List (Nat × Nat)) :
    List (Nat × SGraph) :=
  green.foldl (fun m p => paths_update m (uf p.1) p.1 p.2) []

/-- The contracted satisfiable graph of get_phases (runtime.cpp lines
1519-1561): one node per contracted phase, black edges first and red edges
after (an edge that is both is red), both deduplicated through std::set and
with self-loops dropped. -/
def contracted_graph (N : Nat) (uf : Nat → Nat)
    (black red : List (Nat × Nat)) : SGraph :=
  let base := (List.range N).foldl (fun g i => sg_add_node g (uf i)) emptyGraph
  let redSet := red.foldl
    (fun s p => if uf p.1 = uf p.2 then s
      else insertPairSorted (uf p.1, uf p.2) s) []
  let blackSet := black.foldl
    (fun s p => if uf p.1 = uf p.2 then s
      else if (uf p.1, uf p.2) ∈ redSet then s
      else insertPairSorted (uf p.1, uf p.2) s) []
  let g1 := blackSet.foldl (fun g p => sg_add_edge g p.1 p.2 false) base
  redSet.foldl (fun g p => sg_add_edge g p.1 p.2 true) g1

/-- The phase ordering computed by runtime::get_phases (runtime.cpp lines
1431-1596) for N phases numbered 0..N-1: classify the phase-level relations,
contract the green edges, order the contracted satisfiable graph (where only
a not_a_dag_exception is converted to the can't-satisfy-all-green-edges
exception, lines 1563-1568), expand the green paths (lines 1570-1581,
outside that catch), and validate with inverse_permutation (line 1588). The
result lists the phase numbers in execution order: phases[t] holds the nodes
of the phase at position t (lines 1590-1596). -/
def get_phases_order (N : Nat) (prels : List PhaseRel) :
    Except Err (List Nat) :=
  match classify_edges prels [] [] [] with
  | .error e => .error e
  | .ok (black, red, green) =>
    let uf := green_uf green
    let gp := green_paths uf green
    let cg := contracted_graph N uf black red
    match sat_topological_order cg with
    | .error .notADag => .error .cannotSatisfyAllGreenEdges
    | .error e => .error e
    | .ok topo =>
      match expand_paths gp topo with
      | .error e => .error e
      | .ok order =>
        match inverse_permutation order with
        | .error e => .error e
        | .ok _ => .ok order

/-- A phase order respects a phase-level relation when the endpoints share a
phase or the producer's phase runs strictly before the consumer's. -/
def order_respects (order : List Nat) (r : PhaseRel) : Prop :=
  r.source = r.target ∨ order.indexOf r.source < order.indexOf r.target

/-- The two-phase pipeline of the green-cycle scenario: mutual
memory-share dependencies whose producers cannot evacuate (both edges are
green). -/
def c1rels : List PhaseRel :=
  [⟨0, 1, .memory_share_depends, false⟩, ⟨1, 0, .memory_share_depends, false⟩]

/-- The two-phase pipeline of the hidden-cycle scenario: a green
memory-share dependency 0 → 1 and an ordinary dependency edge 1 → 0. -/
def c2rels : List PhaseRel :=
  [⟨0, 1, .memory_share_depends, false⟩, ⟨1, 0, .depends, true⟩]

/-! Concrete instance for the spec's memory-split scenario: two nodes in one
phase declaring (min=100, max=1000, fraction=1) and (min=200, max=400,
fraction=3), no datastructures, memory budget 800. -/

/-- The two nodes of the memory-split scenario. -/
def c5_nodes : List NodeResource := [⟨100, 1000, 1⟩, ⟨200, 400, 3⟩]

/-- The assigned-sum function of get_memory_factor for the memory-split
scenario (datastructures locked and none present). -/
def c5_A : ℚ → Nat :=
  fun factor => sum_assigned_usage c5_nodes factor +
    sum_assigned_memory_locked [] 0

end TPIE

/-! ## Theorems -/

namespace TPIE

/-! Helper lemmas about the resource factor search. -/

theorem clamp_zero (lo hi : Nat) : clamp lo hi 0 = lo := by
  unfold clamp
  rcases Nat.eq_zero_or_pos lo with h | h
  · subst h
    simp
  · rw [if_pos]
    exact_mod_cast h

theorem get_assigned_usage_zero (n : NodeResource) :
    get_assigned_usage n 0 = n.minimum := by
  unfold get_assigned_usage
  rw [zero_mul, clamp_zero]

theorem sum_assigned_usage_zero (ns : List NodeResource) :
    sum_assigned_usage ns 0 = sum_minimum_usage ns := by
  unfold sum_assigned_usage sum_minimum_usage
  congr 1
  exact List.map_congr_left fun n _ => get_assigned_usage_zero n

/-- The bisection only ever advances c_lo to a point whose assigned sum was
checked to be within the budget, so the result is the initial c_lo or a
checked point. -/
theorem bin_search_cases (A : ℚ → Nat) (budget : Nat) (F : ℚ) (fuel : Nat)
    (c_lo c_hi : ℚ) :
    bin_search A budget F fuel c_lo c_hi = c_lo ∨
    A (budget * bin_search A budget F fuel c_lo c_hi / F) ≤ budget := by
  induction fuel generalizing c_lo c_hi with
  | zero => exact Or.inl rfl
  | succ fuel ih =>
    rw [bin_search]
    dsimp only
    split
    · split
      · exact ih c_lo _
      · rcases ih _ c_hi with h | h
        · right
          rw [h]
          omega
        · exact Or.inr h
    · exact Or.inl rfl

theorem get_factor_of_min_gt (fuel minS budget : Nat) (F : ℚ) (A : ℚ → Nat)
    (h : minS > budget) : get_factor fuel A minS budget F = 0 := by
  unfold get_factor
  rw [if_pos h]

/-- Soundness of get_factor: when the node minima fit in the budget, the
node assignments at the returned factor fit in the budget as well (A is the
full assigned sum at a factor, at least the node part). -/
theorem get_factor_le (fuel minS budget : Nat) (F : ℚ) (A : ℚ → Nat)
    (ns : List NodeResource)
    (hA : ∀ f, sum_assigned_usage ns f ≤ A f)
    (hmin : sum_minimum_usage ns ≤ budget) :
    sum_assigned_usage ns (get_factor fuel A minS budget F) ≤ budget := by
  unfold get_factor
  split
  · rw [sum_assigned_usage_zero]
    exact hmin
  · split
    · rw [sum_assigned_usage_zero]
      exact hmin
    · dsimp only
      rcases bin_search_cases A budget F fuel 0
        (exp_search A budget F fuel 1 0) with h | h
      · rw [h, mul_zero, zero_div, sum_assigned_usage_zero]
        exact hmin
      · exact le_trans (hA _) h

/-- C4: for every phase and resource kind (FILES via get_files_factor, MEMORY
via get_memory_factor under any datastructure state): when the sum of the
nodes' declared minima is at most the budget, the sum of the assigned amounts
clamp(min, max, factor * fraction) is at most the budget; when the sum of the
minima exceeds the budget, every node is assigned exactly its minimum. -/
theorem c4_assigned_within_budget (fuel budget phase : Nat)
    (ns : List NodeResource) (ds : List DsInfo) (locked : Bool) :
    (sum_minimum_usage ns ≤ budget →
      sum_assigned_usage ns (get_files_factor fuel budget ns) ≤ budget ∧
      sum_assigned_usage ns
        (get_memory_factor fuel budget phase ns ds locked) ≤ budget) ∧
    (budget < sum_minimum_usage ns →
      (∀ n ∈ ns, get_assigned_usage n (get_files_factor fuel budget ns) =
        n.minimum) ∧
      (∀ n ∈ ns, get_assigned_usage n
        (get_memory_factor fuel budget phase ns ds locked) = n.minimum)) := by
  constructor
  · intro hmin
    constructor
    · exact get_factor_le fuel _ budget _ _ ns (fun _ => le_refl _) hmin
    · exact get_factor_le fuel _ budget _ _ ns
        (fun f => Nat.le_add_right _ _) hmin
  · intro hmin
    constructor
    · intro n _
      rw [get_files_factor, get_factor_of_min_gt _ _ _ _ _ hmin,
        get_assigned_usage_zero]
    · intro n _
      rw [get_memory_factor, get_factor_of_min_gt, get_assigned_usage_zero]
      omega

/-- C4 witness: the bound applied to a concrete phase of two nodes declaring
minima 100 and 200 with budget 800 (files and memory, no datastructures). -/
theorem c4_witness :
    sum_minimum_usage [⟨100, 1000, 1⟩, ⟨200, 400, 3⟩] ≤ 800 ∧
    sum_assigned_usage [⟨100, 1000, 1⟩, ⟨200, 400, 3⟩]
      (get_files_factor 25 800 [⟨100, 1000, 1⟩, ⟨200, 400, 3⟩]) ≤ 800 :=
  ⟨by decide,
   ((c4_assigned_within_budget 25 800 0 [⟨100, 1000, 1⟩, ⟨200, 400, 3⟩] []
      true).1 (by decide)).1⟩

/-! Helper lemmas about the evacuate()/go() trace. -/

theorem go_calls_append (a b : List Ev) :
    go_calls (a ++ b) = go_calls a ++ go_calls b :=
  List.filterMap_append a b _

theorem go_calls_evacuate_all (phase : List ExecNode) (marked : List Nat) :
    go_calls (evacuate_all phase marked) = [] := by
  induction phase with
  | nil => rfl
  | cons n rest ih =>
    unfold evacuate_all
    rw [List.filterMap_cons]
    by_cases h : (marked.contains n.id && n.can_evacuate) = true
    · rw [if_pos h]
      exact ih
    · rw [if_neg h]
      exact ih

theorem go_calls_go_initiators (rels : List Relation)
    (phase : List ExecNode) :
    go_calls (go_initiators rels phase) =
      (phase.filter (is_initiator rels)).map (·.id) := by
  unfold go_calls go_initiators
  rw [List.filterMap_map]
  exact List.filterMap_eq_map _ ▸ rfl

theorem go_calls_go_until_rest (rels : List Relation) (marked : List Nat)
    (rest : List (List ExecNode)) :
    ∀ prev, go_calls (go_until_rest rels marked prev rest) =
      (rest.map (fun ph => (ph.filter (is_initiator rels)).map (·.id))).flatten := by
  induction rest with
  | nil => intro prev; rfl
  | cons ph rest ih =>
    intro prev
    rw [go_until_rest, go_calls_append, go_calls_append,
      go_calls_evacuate_all, go_calls_go_initiators, ih]
    simp

theorem go_calls_go_until_trace (rels : List Relation) (marked : List Nat)
    (phases : List (List ExecNode)) :
    go_calls (go_until_trace rels marked phases) =
      (phases.map (fun ph =>
        (ph.filter (is_initiator rels)).map (·.id))).flatten := by
  cases phases with
  | nil => rfl
  | cons ph rest =>
    rw [go_until_trace, go_calls_append, go_calls_go_initiators,
      go_calls_go_until_rest]
    simp

/-- C8: for every pipeline run via runtime::go, go() is invoked exactly on
the initiators of each phase (the nodes with in-degree 0 under both pushes
and pulls), in phase order; and whenever some phase contains zero initiators,
runtime::go raises NoInitiatorNode, in which case no go() is invoked (the run
produces no event trace). -/
theorem c8_go_initiators_only (rels : List Relation)
    (phases : List (List ExecNode)) :
    (∀ evs, runtime_go rels phases = .ok evs →
      go_calls evs = (phases.map (fun ph =>
        (ph.filter (is_initiator rels)).map (·.id))).flatten) ∧
    ((∃ ph ∈ phases, ¬ has_initiator rels ph = true) →
      runtime_go rels phases = .error .noInitiatorNode) := by
  constructor
  · intro evs hok
    unfold runtime_go ensure_initiators at hok
    by_cases hall : phases.all (has_initiator rels) = true
    · rw [if_pos hall] at hok
      simp only [Except.ok.injEq] at hok
      rw [← hok]
      exact go_calls_go_until_trace rels _ phases
    · rw [if_neg hall] at hok
      exact absurd hok (by simp)
  · intro ⟨ph, hmem, hno⟩
    unfold runtime_go ensure_initiators
    rw [if_neg]
    intro hall
    exact hno (List.all_eq_true.mp hall ph hmem)

/-- C8 witness: a two-phase pipeline where node 0 pushes to node 1 (phase
one) and node 2 pulls from node 3 (phase two), with a depends edge from
node 2 on node 1; go() is called exactly on node 0 and node 2. -/
theorem c8_witness :
    runtime_go
      [⟨0, 1, .pushes⟩, ⟨2, 3, .pulls⟩, ⟨2, 1, .depends⟩]
      [[⟨0, true⟩, ⟨1, true⟩], [⟨2, true⟩, ⟨3, true⟩]] =
      .ok [.go 0, .go 2] ∧
    go_calls [Ev.go 0, Ev.go 2] = [0, 2] := by
  constructor
  · rfl
  · have h := (c8_go_initiators_only
      [⟨0, 1, .pushes⟩, ⟨2, 3, .pulls⟩, ⟨2, 1, .depends⟩]
      [[⟨0, true⟩, ⟨1, true⟩], [⟨2, true⟩, ⟨3, true⟩]]).1
      [Ev.go 0, Ev.go 2] rfl
    rw [h]
    rfl

/-! Helper lemmas counting evacuate() calls. -/

theorem evac_count_append (a b : List Ev) :
    evac_count (a ++ b) = evac_count a + evac_count b := by
  unfold evac_count
  rw [List.filter_append, List.length_append]

theorem evac_count_go_initiators (rels : List Relation)
    (ph : List ExecNode) : evac_count (go_initiators rels ph) = 0 := by
  unfold evac_count go_initiators
  rw [List.filter_map]
  simp [Function.comp_def]

theorem evac_count_evacuate_all (ph : List ExecNode) (marked : List Nat) :
    evac_count (evacuate_all ph marked) =
      (ph.filter (fun n => marked.contains n.id && n.can_evacuate)).length := by
  induction ph with
  | nil => rfl
  | cons n rest ih =>
    unfold evacuate_all
    rw [List.filterMap_cons]
    by_cases h : (marked.contains n.id && n.can_evacuate) = true
    · rw [if_pos h, List.filter_cons_of_pos
        (p := fun m : ExecNode => marked.contains m.id && m.can_evacuate) h,
        List.length_cons]
      show evac_count (Ev.evac n.id :: evacuate_all rest marked) = _
      have hc : evac_count (Ev.evac n.id :: evacuate_all rest marked) =
          evac_count (evacuate_all rest marked) + 1 := by
        unfold evac_count
        rw [List.filter_cons_of_pos rfl, List.length_cons]
      rw [hc, ih]
    · rw [if_neg h, List.filter_cons_of_neg
        (p := fun m : ExecNode => marked.contains m.id && m.can_evacuate) h]
      exact ih

theorem evac_count_go_until_rest (rels : List Relation) (marked : List Nat)
    (rest : List (List ExecNode)) :
    ∀ prev, evac_count (go_until_rest rels marked prev rest) =
      ((prev :: rest).dropLast.flatten.filter
        (fun n => marked.contains n.id && n.can_evacuate)).length := by
  induction rest with
  | nil => intro prev; rfl
  | cons ph rest ih =>
    intro prev
    rw [go_until_rest, evac_count_append, evac_count_append,
      evac_count_evacuate_all, evac_count_go_initiators, ih ph]
    have hd : (prev :: ph :: rest).dropLast = prev :: (ph :: rest).dropLast :=
      rfl
    rw [hd, List.flatten_cons, List.filter_append, List.length_append]
    omega

theorem evac_count_go_until_trace (rels : List Relation) (marked : List Nat)
    (phases : List (List ExecNode)) :
    evac_count (go_until_trace rels marked phases) =
      (phases.dropLast.flatten.filter
        (fun n => marked.contains n.id && n.can_evacuate)).length := by
  cases phases with
  | nil => rfl
  | cons ph rest =>
    rw [go_until_trace, evac_count_append, evac_count_go_initiators,
      evac_count_go_until_rest]
    omega

/-! Helper lemmas characterising membership in the evacuateWhenDone set. -/

theorem mem_phase_evacuates {rels : List Relation} {prev : List Nat}
    {ph : List ExecNode} {a : Nat} :
    a ∈ phase_evacuates rels prev ph ↔
      ∃ c ∈ ph, ∃ r ∈ rels, r.fst = c.id ∧
        r.kind = RelKind.memory_share_depends ∧ r.snd = a ∧ a ∉ prev := by
  unfold phase_evacuates
  rw [List.mem_flatten]
  constructor
  · rintro ⟨l, hl, hal⟩
    rw [List.mem_map] at hl
    obtain ⟨c, hc, rfl⟩ := hl
    rw [List.mem_map] at hal
    obtain ⟨r, hr, hsnd⟩ := hal
    rw [List.mem_filter] at hr
    obtain ⟨hrm, hcond⟩ := hr
    simp only [Bool.and_eq_true, beq_iff_eq, Bool.not_eq_true'] at hcond
    obtain ⟨⟨hf, hk⟩, hp⟩ := hcond
    refine ⟨c, hc, r, hrm, hf, hk, hsnd, ?_⟩
    intro hmem
    rw [hsnd] at hp
    rw [show prev.contains a = true by simpa using hmem] at hp
    simp at hp
  · rintro ⟨c, hc, r, hr, hf, hk, hsnd, hp⟩
    refine ⟨_, List.mem_map.mpr ⟨c, hc, rfl⟩, List.mem_map.mpr ⟨r, ?_, hsnd⟩⟩
    rw [List.mem_filter]
    refine ⟨hr, ?_⟩
    simp only [Bool.and_eq_true, beq_iff_eq, Bool.not_eq_true']
    refine ⟨⟨hf, hk⟩, ?_⟩
    simpa [hsnd] using hp

theorem scan_prev_succ (prev : List Nat) (ph : List ExecNode)
    (rest : List (List ExecNode)) (k : Nat) :
    scan_prev prev (ph :: rest) (k + 1) =
      scan_prev (ph.map (·.id)) rest k := by
  cases k <;> rfl

theorem mem_evacuate_scan {rels : List Relation} {a : Nat} :
    ∀ (phs : List (List ExecNode)) (prev : List Nat),
      a ∈ evacuate_scan rels phs prev ↔
        ∃ k ph, phs[k]? = some ph ∧
          a ∈ phase_evacuates rels (scan_prev prev phs k) ph := by
  intro phs
  induction phs with
  | nil =>
    intro prev
    simp [evacuate_scan]
  | cons ph rest ih =>
    intro prev
    rw [evacuate_scan, List.mem_append, ih]
    constructor
    · rintro (h | ⟨k, ph2, hk, hmem⟩)
      · exact ⟨0, ph, by simp, h⟩
      · exact ⟨k + 1, ph2, by simpa using hk,
          by rwa [scan_prev_succ]⟩
    · rintro ⟨k, ph2, hk, hmem⟩
      cases k with
      | zero =>
        left
        simp only [List.getElem?_cons_zero, Option.some.injEq] at hk
        subst hk
        exact hmem
      | succ j =>
        right
        refine ⟨j, ph2, by simpa using hk, ?_⟩
        rwa [scan_prev_succ] at hmem

theorem phase_of_eq_some_of_mem {phases : List (List ExecNode)}
    {ph : List ExecNode} {n : ExecNode} {k : Nat}
    (hnodup : (phases.flatten.map (·.id)).Nodup)
    (hk : phases[k]? = some ph) (hn : n ∈ ph) :
    phase_of phases n.id = some k := by
  induction phases generalizing k with
  | nil => simp at hk
  | cons ph0 rest ih =>
    rw [List.flatten_cons, List.map_append, List.nodup_append] at hnodup
    obtain ⟨h0, hrest, hdisj⟩ := hnodup
    cases k with
    | zero =>
      simp only [List.getElem?_cons_zero, Option.some.injEq] at hk
      subst hk
      rw [phase_of, if_pos]
      rw [List.any_eq_true]
      exact ⟨n, hn, by simp⟩
    | succ j =>
      simp only [List.getElem?_cons_succ] at hk
      rw [phase_of, if_neg, ih hrest hk]
      · rfl
      · intro hany
        rw [List.any_eq_true] at hany
        obtain ⟨m, hm, hid⟩ := hany
        rw [beq_iff_eq] at hid
        apply hdisj (a := n.id)
        · rw [← hid]
          exact List.mem_map.mpr ⟨m, hm, rfl⟩
        · refine List.mem_map.mpr ⟨n, List.mem_flatten.mpr ⟨ph, ?_, hn⟩, rfl⟩
          exact List.getElem?_mem hk

theorem mem_getD_of_phase_of {phases : List (List ExecNode)} {a : Nat}
    {p : Nat} (h : phase_of phases a = some p) :
    a ∈ (phases.getD p []).map (·.id) := by
  induction phases generalizing p with
  | nil => simp [phase_of] at h
  | cons ph0 rest ih =>
    rw [phase_of] at h
    by_cases hany : ph0.any (·.id == a) = true
    · rw [if_pos hany] at h
      obtain rfl : 0 = p := Option.some.inj h
      rw [List.any_eq_true] at hany
      obtain ⟨m, hm, hid⟩ := hany
      rw [beq_iff_eq] at hid
      exact List.mem_map.mpr ⟨m, hm, hid⟩
    · rw [if_neg hany] at h
      cases hrec : phase_of rest a with
      | none => rw [hrec] at h; simp at h
      | some j =>
        rw [hrec] at h
        obtain rfl : j + 1 = p := Option.some.inj h
        exact ih hrec

theorem exists_mem_of_phase_of {phases : List (List ExecNode)} {a : Nat}
    {p : Nat} (h : phase_of phases a = some p) :
    ∃ ph, phases[p]? = some ph ∧ ∃ c ∈ ph, c.id = a := by
  induction phases generalizing p with
  | nil => simp [phase_of] at h
  | cons ph0 rest ih =>
    rw [phase_of] at h
    by_cases hany : ph0.any (·.id == a) = true
    · rw [if_pos hany] at h
      obtain rfl : 0 = p := Option.some.inj h
      rw [List.any_eq_true] at hany
      obtain ⟨m, hm, hid⟩ := hany
      rw [beq_iff_eq] at hid
      exact ⟨ph0, by simp, m, hm, hid⟩
    · rw [if_neg hany] at h
      cases hrec : phase_of rest a with
      | none => rw [hrec] at h; simp at h
      | some j =>
        rw [hrec] at h
        obtain rfl : j + 1 = p := Option.some.inj h
        obtain ⟨ph, hp, hc⟩ := ih hrec
        exact ⟨ph, by simpa using hp, hc⟩

theorem phase_of_isSome_of_mem {phases : List (List ExecNode)}
    {n : ExecNode} (hn : n ∈ phases.flatten) :
    ∃ p, phase_of phases n.id = some p := by
  induction phases with
  | nil => simp at hn
  | cons ph0 rest ih =>
    rw [List.flatten_cons, List.mem_append] at hn
    by_cases hany : ph0.any (·.id == n.id) = true
    · exact ⟨0, by rw [phase_of, if_pos hany]⟩
    · rcases hn with hn | hn
      · exact absurd (List.any_eq_true.mpr ⟨n, hn, by simp⟩) hany
      · obtain ⟨p, hp⟩ := ih hn
        exact ⟨p + 1, by rw [phase_of, if_neg hany, hp]; rfl⟩

/-- Membership in the evacuateWhenDone set: for a node of the pipeline
(ids globally distinct), its id is marked exactly when some
memory_share_depends edge has it as source and its phase does not immediately
precede the consumer's phase in the final order. -/
theorem mem_evacuate_when_done_iff {rels : List Relation}
    {phases : List (List ExecNode)} {n : ExecNode}
    (hnodup : (phases.flatten.map (·.id)).Nodup) (hn : n ∈ phases.flatten) :
    n.id ∈ evacuate_when_done rels phases ↔
      ∃ r ∈ rels, msd_unsatisfied phases r = true ∧ r.snd = n.id := by
  obtain ⟨p, hp⟩ := phase_of_isSome_of_mem hn
  unfold evacuate_when_done
  rw [mem_evacuate_scan]
  constructor
  · rintro ⟨k, ph, hk, hmem⟩
    rw [mem_phase_evacuates] at hmem
    obtain ⟨c, hc, r, hr, hfst, hkind, hsnd, hnotprev⟩ := hmem
    refine ⟨r, hr, ?_, hsnd⟩
    have hcph : phase_of phases r.fst = some k := by
      rw [hfst]
      exact phase_of_eq_some_of_mem hnodup hk hc
    unfold msd_unsatisfied
    rw [hsnd, hp, hcph, Bool.and_eq_true]
    refine ⟨by simp [hkind], ?_⟩
    simp only [Bool.not_eq_true', beq_eq_false_iff_ne, ne_eq]
    intro heq
    apply hnotprev
    subst heq
    show n.id ∈ (phases.getD p []).map (·.id)
    exact mem_getD_of_phase_of hp
  · rintro ⟨r, hr, hunsat, hsnd⟩
    unfold msd_unsatisfied at hunsat
    rw [Bool.and_eq_true] at hunsat
    obtain ⟨hkind, hpos⟩ := hunsat
    rw [beq_iff_eq] at hkind
    rw [hsnd, hp] at hpos
    cases hpf : phase_of phases r.fst with
    | none =>
      rw [hpf] at hpos
      simp at hpos
    | some k =>
      rw [hpf] at hpos
      simp only [Bool.not_eq_true', beq_eq_false_iff_ne, ne_eq] at hpos
      obtain ⟨ph, hkp, c, hc, hcid⟩ := exists_mem_of_phase_of hpf
      refine ⟨k, ph, hkp, ?_⟩
      rw [mem_phase_evacuates]
      refine ⟨c, hc, r, hr, hcid.symm, hkind, hsnd, ?_⟩
      cases k with
      | zero => simp [scan_prev]
      | succ j =>
        intro hmem
        rw [show scan_prev [] phases (j + 1) = (phases.getD j []).map (·.id)
          from rfl] at hmem
        rw [List.mem_map] at hmem
        obtain ⟨m, hm, hmid⟩ := hmem
        have hk_lt : j + 1 < phases.length := by
          by_contra hcon
          rw [List.getElem?_eq_none (by omega)] at hkp
          exact absurd hkp (by simp)
        have hj_lt : j < phases.length := by omega
        have hjget : phases[j]? = some phases[j] := List.getElem?_eq_getElem hj_lt
        have hgd : phases.getD j [] = phases[j] := by
          rw [List.getD_eq_getElem?_getD, hjget]
          rfl
        rw [hgd] at hm
        have hmp := phase_of_eq_some_of_mem hnodup hjget hm
        rw [hmid, hp] at hmp
        have hpj : p = j := Option.some.inj hmp
        exact hpos (by rw [hpj])

/-! Walk enumeration lemmas for the preprocess analysis. -/

theorem walksTo_length_ge {g : SGraph} :
    ∀ {f u v l}, l ∈ walksTo g f u v → 2 ≤ l.length := by
  intro f
  induction f with
  | zero => intro u v l h; simp [walksTo] at h
  | succ f ih =>
    intro u v l h
    rw [walksTo, List.mem_flatMap] at h
    obtain ⟨w, _, h⟩ := h
    rw [List.mem_append] at h
    rcases h with h | h
    · split at h <;> simp_all
    · rw [List.mem_map] at h
      obtain ⟨m, hm, rfl⟩ := h
      have := ih hm
      simp only [List.length_cons]
      omega

theorem walksTo_sound {g : SGraph} :
    ∀ {f u v l}, l ∈ walksTo g f u v → WalkFT g u v l := by
  intro f
  induction f with
  | zero => intro u v l h; simp [walksTo] at h
  | succ f ih =>
    intro u v l h
    rw [walksTo, List.mem_flatMap] at h
    obtain ⟨w, hw, h⟩ := h
    rw [List.mem_append] at h
    rcases h with h | h
    · split at h
      · simp only [List.mem_singleton] at h
        subst h
        rename_i heq
        subst heq
        exact ⟨List.chain'_pair.mpr hw, by simp, rfl, rfl⟩
      · simp at h
    · rw [List.mem_map] at h
      obtain ⟨m, hm, rfl⟩ := h
      obtain ⟨hc, hlen, hhd, hlast⟩ := ih hm
      have hm2 : 2 ≤ m.length := walksTo_length_ge hm
      constructor
      · cases m with
        | nil => simp at hm2
        | cons x xs =>
          simp only [List.head?_cons, Option.some.injEq] at hhd
          subst hhd
          exact List.chain'_cons.mpr ⟨hw, hc⟩
      · refine ⟨by simp only [List.length_cons]; omega, rfl, ?_⟩
        rw [List.getLast?_cons, hlast]
        cases m <;> simp_all

theorem walksTo_complete {g : SGraph} :
    ∀ {f u v l}, WalkFT g u v l → l.length ≤ f + 1 → l ∈ walksTo g f u v := by
  intro f
  induction f with
  | zero =>
    intro u v l h hlen
    obtain ⟨_, h2, _, _⟩ := h
    omega
  | succ f ih =>
    intro u v l h hlen
    obtain ⟨hc, h2, hhd, hlast⟩ := h
    cases l with
    | nil => simp at h2
    | cons x xs =>
      simp only [List.head?_cons, Option.some.injEq] at hhd
      subst hhd
      cases xs with
      | nil => simp at h2
      | cons y ys =>
        have hstep : y ∈ g.edges x := (List.chain'_cons.mp hc).1
        rw [walksTo, List.mem_flatMap]
        refine ⟨y, hstep, ?_⟩
        rw [List.mem_append]
        cases ys with
        | nil =>
          left
          have : y = v := by simpa using hlast
          subst this
          simp
        | cons z zs =>
          right
          rw [List.mem_map]
          refine ⟨y :: z :: zs, ?_, rfl⟩
          refine ih ⟨(List.chain'_cons.mp hc).2, by simp, rfl, ?_⟩ ?_
          · rw [← hlast]
            simp [List.getLast?_cons]
          · simp only [List.length_cons] at hlen ⊢
            omega

theorem walksTo_snd {g : SGraph} {f u v w : Nat} {l : List Nat}
    (h : l ∈ (if w = v then [[u, v]] else []) ++
      (walksTo g f w v).map (fun m => u :: m)) :
    l[1]? = some w := by
  rw [List.mem_append] at h
  rcases h with h | h
  · split at h
    · simp only [List.mem_singleton] at h
      subst h
      rename_i hwv
      simp [hwv]
    · simp at h
  · rw [List.mem_map] at h
    obtain ⟨m, hm, rfl⟩ := h
    have hhd := (walksTo_sound hm).2.2.1
    rw [List.getElem?_cons_succ, ← List.head?_eq_getElem?]
    exact hhd

theorem walksTo_nodup {g : SGraph} (hnd : ∀ x, (g.edges x).Nodup) :
    ∀ f u v, (walksTo g f u v).Nodup := by
  intro f
  induction f with
  | zero => intro u v; simp [walksTo]
  | succ f ih =>
    intro u v
    rw [walksTo, List.nodup_flatMap]
    constructor
    · intro w _
      apply List.Nodup.append
      · split <;> simp
      · exact (ih w v).map (fun a b h => by injection h)
      · intro l hl1 hl2
        split at hl1
        · simp only [List.mem_singleton] at hl1
          subst hl1
          rw [List.mem_map] at hl2
          obtain ⟨m, hm, hq⟩ := hl2
          have := walksTo_length_ge hm
          have : m.length = 1 := by
            have := congrArg List.length hq
            simpa using this
          omega
        · simp at hl1
    · refine (hnd u).imp ?_
      intro a b hab l hla hlb
      have h1 := walksTo_snd (w := a) hla
      have h2 := walksTo_snd (w := b) hlb
      rw [h1] at h2
      exact hab (Option.some.inj h2)
theorem walksTo_length_le {g : SGraph} :
    ∀ {f u v l}, l ∈ walksTo g f u v → l.length ≤ f + 1 := by
  intro f
  induction f with
  | zero => intro u v l h; simp [walksTo] at h
  | succ f ih =>
    intro u v l h
    rw [walksTo, List.mem_flatMap] at h
    obtain ⟨w, _, h⟩ := h
    rw [List.mem_append] at h
    rcases h with h | h
    · split at h <;> simp_all
    · rw [List.mem_map] at h
      obtain ⟨m, hm, rfl⟩ := h
      have := ih hm
      simp only [List.length_cons]
      omega

theorem walksTo_succ_length (g : SGraph) (f u v : Nat) :
    (walksTo g (f + 1) u v).length =
      ((g.edges u).map (fun w =>
        (if w = v then 1 else 0) + (walksTo g f w v).length)).sum := by
  rw [walksTo, List.length_flatMap]
  congr 1
  apply List.map_congr_left
  intro w _
  simp only [Function.comp_apply, List.length_append, List.length_map]
  split <;> simp

theorem walksTo_mono_fuel {g : SGraph} {f f2 u v : Nat} (hf : f ≤ f2) :
    walksTo g f u v ⊆ walksTo g f2 u v := by
  intro l hl
  exact walksTo_complete (walksTo_sound hl)
    (le_trans (walksTo_length_le hl) (by omega))

theorem isWalk_mono {g1 g2 : SGraph} (hsub : ∀ x, g1.edges x ⊆ g2.edges x)
    {l : List Nat} (h : IsWalk g1 l) : IsWalk g2 l :=
  List.Chain'.imp (fun a b hab => hsub a hab) h

theorem walkFT_mono {g1 g2 : SGraph} (hsub : ∀ x, g1.edges x ⊆ g2.edges x)
    {u v : Nat} {l : List Nat} (h : WalkFT g1 u v l) : WalkFT g2 u v l :=
  ⟨isWalk_mono hsub h.1, h.2.1, h.2.2.1, h.2.2.2⟩

theorem walksTo_mono_graph {g1 g2 : SGraph}
    (hsub : ∀ x, g1.edges x ⊆ g2.edges x) {f u v : Nat} :
    walksTo g1 f u v ⊆ walksTo g2 f u v := by
  intro l hl
  exact walksTo_complete (walkFT_mono hsub (walksTo_sound hl)) (walksTo_length_le hl)

theorem length_le_of_nodup_subset {l1 l2 : List (List Nat)}
    (hnd : l1.Nodup) (hsub : l1 ⊆ l2) : l1.length ≤ l2.length :=
  (hnd.subperm hsub).length_le

theorem walk_subset_nodes {g : SGraph}
    (h2 : ∀ x, x ∉ g.nodes → g.edges x = [])
    (h3 : ∀ x, ∀ y ∈ g.edges x, y ∈ g.nodes) :
    ∀ {l}, IsWalk g l → 2 ≤ l.length → ∀ x ∈ l, x ∈ g.nodes := by
  intro l
  induction l with
  | nil => intro _ h; simp at h
  | cons a rest ih =>
    intro hw hlen x hx
    cases rest with
    | nil => simp at hlen
    | cons b rest2 =>
      have hstep : b ∈ g.edges a := (List.chain'_cons.mp hw).1
      have ha : a ∈ g.nodes := by
        by_contra hc
        rw [h2 a hc] at hstep
        simp at hstep
      have hb : b ∈ g.nodes := h3 a b hstep
      rcases List.mem_cons.mp hx with rfl | hx2
      · exact ha
      · cases rest2 with
        | nil =>
          rcases List.mem_singleton.mp hx2 with rfl
          exact hb
        | cons c rest3 =>
          exact ih (List.chain'_cons.mp hw).2 (by simp) x hx2

theorem exists_dup_decomp {l : List Nat} (h : ¬ l.Nodup) :
    ∃ a p q r, l = p ++ a :: q ++ a :: r := by
  induction l with
  | nil => simp at h
  | cons x xs ih =>
    by_cases hx : x ∈ xs
    · obtain ⟨q, r, rfl⟩ := List.append_of_mem hx
      exact ⟨x, [], q, r, rfl⟩
    · have : ¬ xs.Nodup := by
        intro hn
        exact h (hn.cons hx)
      obtain ⟨a, p, q, r, rfl⟩ := ih this
      exact ⟨a, x :: p, q, r, rfl⟩

theorem walk_nodup {g : SGraph} (hacyc : Acyclic g) {l : List Nat}
    (hw : IsWalk g l) : l.Nodup := by
  by_contra hnd
  obtain ⟨a, p, q, r, rfl⟩ := exists_dup_decomp hnd
  have hinf : (a :: q ++ [a]) <:+: (p ++ a :: q ++ a :: r) := by
    refine ⟨p, r, ?_⟩
    simp
  have hmid : IsWalk g (a :: q ++ [a]) := hw.infix hinf
  apply hacyc a (a :: q ++ [a])
  refine ⟨hmid, by simp, by simp, ?_⟩
  rw [List.getLast?_append]
  simp

theorem walk_length_le_nodes {g : SGraph}
    (h2 : ∀ x, x ∉ g.nodes → g.edges x = [])
    (h3 : ∀ x, ∀ y ∈ g.edges x, y ∈ g.nodes)
    (hacyc : Acyclic g) {u v : Nat} {l : List Nat} (h : WalkFT g u v l) :
    l.length ≤ g.nodes.length := by
  have hnd : l.Nodup := walk_nodup hacyc h.1
  have hsub : l ⊆ g.nodes := fun x hx =>
    walk_subset_nodes h2 h3 h.1 h.2.1 x hx
  exact (hnd.subperm hsub).length_le

theorem walksTo_stab {g : SGraph}
    (h2 : ∀ x, x ∉ g.nodes → g.edges x = [])
    (h3 : ∀ x, ∀ y ∈ g.edges x, y ∈ g.nodes)
    (h4 : ∀ x, (g.edges x).Nodup)
    (hacyc : Acyclic g) {f u v : Nat} (hf : g.nodes.length ≤ f + 1) :
    (walksTo g f u v).length = (walksTo g g.nodes.length u v).length := by
  apply le_antisymm
  · apply length_le_of_nodup_subset (walksTo_nodup h4 f u v)
    intro l hl
    have hw := walksTo_sound hl
    exact walksTo_complete hw
      (le_trans (walk_length_le_nodes h2 h3 hacyc hw) (by omega))
  · apply length_le_of_nodup_subset (walksTo_nodup h4 _ u v)
    intro l hl
    have hw := walksTo_sound hl
    exact walksTo_complete hw
      (le_trans (walk_length_le_nodes h2 h3 hacyc hw) (by omega))

theorem two_walks_iff {g : SGraph}
    (h2 : ∀ x, x ∉ g.nodes → g.edges x = [])
    (h3 : ∀ x, ∀ y ∈ g.edges x, y ∈ g.nodes)
    (h4 : ∀ x, (g.edges x).Nodup)
    (hacyc : Acyclic g) (u v : Nat) :
    TwoWalks g u v ↔ 2 ≤ (walksTo g g.nodes.length u v).length := by
  constructor
  · rintro ⟨l1, l2, hw1, hw2, hne⟩
    have h1 : l1 ∈ walksTo g g.nodes.length u v :=
      walksTo_complete hw1
        (le_trans (walk_length_le_nodes h2 h3 hacyc hw1) (by omega))
    have hm2 : l2 ∈ walksTo g g.nodes.length u v :=
      walksTo_complete hw2
        (le_trans (walk_length_le_nodes h2 h3 hacyc hw2) (by omega))
    by_contra hlen
    push_neg at hlen
    interval_cases hl : (walksTo g g.nodes.length u v).length
    · rw [List.length_eq_zero] at hl
      rw [hl] at h1
      simp at h1
    · rw [List.length_eq_one] at hl
      obtain ⟨a, ha⟩ := hl
      rw [ha] at h1 hm2
      simp only [List.mem_singleton] at h1 hm2
      exact hne (h1.trans hm2.symm)
  · intro hlen
    rcases hl : walksTo g g.nodes.length u v with _ | ⟨a, _ | ⟨b, rest⟩⟩
    · rw [hl] at hlen; simp at hlen
    · rw [hl] at hlen; simp at hlen
    · have hnd := walksTo_nodup h4 g.nodes.length u v
      rw [hl] at hnd
      have hne : a ≠ b := by
        intro h
        subst h
        simp at hnd
      exact ⟨a, b, walksTo_sound (by rw [hl]; simp),
        walksTo_sound (by rw [hl]; simp), hne⟩

theorem walk_last_mem_nodes {g : SGraph}
    (h3 : ∀ x, ∀ y ∈ g.edges x, y ∈ g.nodes) :
    ∀ l, IsWalk g l → 2 ≤ l.length → ∀ w, l.getLast? = some w →
      w ∈ g.nodes := by
  intro l
  induction l with
  | nil => intro _ h; simp at h
  | cons a rest ih =>
    intro hw hlen w hlast
    cases rest with
    | nil => simp at hlen
    | cons b rest2 =>
      have hstep : b ∈ g.edges a := (List.chain'_cons.mp hw).1
      cases rest2 with
      | nil =>
        simp only [List.getLast?_singleton, List.getLast?_cons_cons,
          Option.some.injEq] at hlast
        subst hlast
        exact h3 a b hstep
      | cons c rest3 =>
        refine ih (List.chain'_cons.mp hw).2 (by simp) w ?_
        rw [← List.getLast?_cons_cons (a := a)]
        exact hlast

theorem walksTo_eq_nil_of_not_node {g : SGraph}
    (h3 : ∀ x, ∀ y ∈ g.edges x, y ∈ g.nodes) {f x w : Nat}
    (hw : w ∉ g.nodes) : walksTo g f x w = [] := by
  rw [List.eq_nil_iff_forall_not_mem]
  intro l hl
  obtain ⟨hc, hlen, _, hlast⟩ := walksTo_sound hl
  exact hw (walk_last_mem_nodes h3 l hc hlen w hlast)

theorem FuelBound_step {g : SGraph} {u v fuel : Nat}
    (hF : FuelBound g u (fuel + 1)) (hv : v ∈ g.edges u) :
    FuelBound g v fuel := by
  intro l hw hh
  cases l with
  | nil => simp at hh
  | cons x xs =>
    simp only [List.head?_cons, Option.some.injEq] at hh
    have hwu : IsWalk g (u :: x :: xs) :=
      List.chain'_cons.mpr ⟨by rw [hh]; exact hv, hw⟩
    have := hF (u :: x :: xs) hwu rfl
    simp only [List.length_cons] at this ⊢
    omega
/-- Core soundness of the memoized path counter: with a bounded cache and
adequate fuel, the returned counts sit between the current-graph and the
original-graph walk counts, and the cache stays bounded. -/
theorem paths_bounds {g g0 : SGraph}
    (hnodes : g.nodes = g0.nodes)
    (hsubE : ∀ x, (g.edges x).Sublist (g0.edges x))
    (h20 : ∀ x, x ∉ g0.nodes → g0.edges x = [])
    (h30 : ∀ x, ∀ y ∈ g0.edges x, y ∈ g0.nodes)
    (h40 : ∀ x, (g0.edges x).Nodup)
    (hacyc0 : Acyclic g0) :
    ∀ fuel u cache, CacheBounded g g0 cache → FuelBound g u fuel →
      CacheBounded g g0 (paths g fuel u cache).1 ∧
      ∀ v, (walksTo g g0.nodes.length u v).length ≤
          (paths g fuel u cache).2 v ∧
        (paths g fuel u cache).2 v ≤
          (walksTo g0 g0.nodes.length u v).length := by
  have h3 : ∀ x, ∀ y ∈ g.edges x, y ∈ g.nodes := fun x y hy =>
    hnodes ▸ h30 x y ((hsubE x).subset hy)
  have h4 : ∀ x, (g.edges x).Nodup := fun x => (h40 x).sublist (hsubE x)
  intro fuel
  induction fuel with
  | zero =>
    intro u cache _ hF
    have := hF [u] (List.chain'_singleton u) rfl
    simp at this
  | succ fuel ih =>
    have hfold : ∀ (es : List Nat), (∀ v ∈ es, FuelBound g v fuel) →
        ∀ cache acc, CacheBounded g g0 cache →
        CacheBounded g g0 (paths_fold g fuel es cache acc).1 ∧
        ∀ w, acc w + edgeSum g g0.nodes.length es w ≤
            (paths_fold g fuel es cache acc).2 w ∧
          (paths_fold g fuel es cache acc).2 w ≤
            acc w + edgeSum g0 g0.nodes.length es w := by
      intro es
      induction es with
      | nil =>
        intro _ cache acc hC
        rw [paths_fold]
        refine ⟨hC, fun w => ?_⟩
        simp [edgeSum]
      | cons v rest ihes =>
        intro hFs cache acc hC
        obtain ⟨hC2, hb⟩ := ih v cache hC (hFs v (by simp))
        obtain ⟨hC3, hb3⟩ := ihes (fun x hx => hFs x (by simp [hx]))
          (paths g fuel v cache).1
          (fun w => if w ∈ g.nodes then
            (if w = v then acc w + 1 else acc w) + (paths g fuel v cache).2 w
           else (if w = v then acc w + 1 else acc w)) hC2
        rw [paths_fold]
        dsimp only
        refine ⟨hC3, fun w => ?_⟩
        obtain ⟨hlo3, hhi3⟩ := hb3 w
        obtain ⟨hlov, hhiv⟩ := hb w
        have hsumL : edgeSum g g0.nodes.length (v :: rest) w =
            ((if v = w then 1 else 0) +
              (walksTo g g0.nodes.length v w).length) +
            edgeSum g g0.nodes.length rest w := by
          simp [edgeSum]
        have hsumU : edgeSum g0 g0.nodes.length (v :: rest) w =
            ((if v = w then 1 else 0) +
              (walksTo g0 g0.nodes.length v w).length) +
            edgeSum g0 g0.nodes.length rest w := by
          simp [edgeSum]
        by_cases hwn : w ∈ g.nodes
        · simp only [hwn, if_true] at hlo3 hhi3
          rw [hsumL, hsumU]
          by_cases hwv : w = v
          · subst hwv
            simp only [if_true, eq_self_iff_true] at hlo3 hhi3 ⊢
            constructor <;> omega
          · rw [if_neg hwv] at hlo3 hhi3
            rw [if_neg (fun h => hwv h.symm)]
            constructor <;> omega
        · have hz1 : (walksTo g g0.nodes.length v w).length = 0 := by
            rw [walksTo_eq_nil_of_not_node h3 hwn]
            rfl
          have hz2 : (walksTo g0 g0.nodes.length v w).length = 0 := by
            rw [walksTo_eq_nil_of_not_node h30 (hnodes ▸ hwn)]
            rfl
          simp only [hwn, if_false] at hlo3 hhi3
          rw [hsumL, hsumU, hz1, hz2]
          by_cases hwv : w = v
          · subst hwv
            simp only [if_true, eq_self_iff_true] at hlo3 hhi3 ⊢
            constructor <;> omega
          · rw [if_neg hwv] at hlo3 hhi3
            rw [if_neg (fun h => hwv h.symm)]
            constructor <;> omega
    intro u cache hC hF
    cases hcu : cache u with
    | some m =>
      have hres : paths g (fuel + 1) u cache = (cache, m) := by
        simp [paths, hcu]
      rw [hres]
      exact ⟨hC, fun v => hC u m hcu v⟩
    | none =>
      have hFs : ∀ v ∈ g.edges u, FuelBound g v fuel := fun v hv =>
        FuelBound_step hF hv
      obtain ⟨hCf, hbf⟩ := hfold (g.edges u) hFs cache (fun _ => 0) hC
      have hres : paths g (fuel + 1) u cache =
          (fun x => if x = u then
              some (paths_fold g fuel (g.edges u) cache (fun _ => 0)).2
            else (paths_fold g fuel (g.edges u) cache (fun _ => 0)).1 x,
           (paths_fold g fuel (g.edges u) cache (fun _ => 0)).2) := by
        simp [paths, hcu]
      rw [hres]
      have hbnd : ∀ v,
          (walksTo g g0.nodes.length u v).length ≤
            (paths_fold g fuel (g.edges u) cache (fun _ => 0)).2 v ∧
          (paths_fold g fuel (g.edges u) cache (fun _ => 0)).2 v ≤
            (walksTo g0 g0.nodes.length u v).length := by
        intro v
        obtain ⟨hlo, hhi⟩ := hbf v
        simp only [Nat.zero_add] at hlo hhi
        constructor
        · refine le_trans ?_ hlo
          have hle : (walksTo g g0.nodes.length u v).length ≤
              (walksTo g (g0.nodes.length + 1) u v).length := by
            apply length_le_of_nodup_subset
              (walksTo_nodup h4 g0.nodes.length u v)
            exact walksTo_mono_fuel (by omega)
          rw [walksTo_succ_length] at hle
          simpa [edgeSum] using hle
        · refine le_trans hhi ?_
          have h1 : edgeSum g0 g0.nodes.length (g.edges u) v ≤
              edgeSum g0 g0.nodes.length (g0.edges u) v := by
            apply List.Sublist.sum_le_sum
            · exact (hsubE u).map _
            · simp
          have h2 : edgeSum g0 g0.nodes.length (g0.edges u) v =
              (walksTo g0 (g0.nodes.length + 1) u v).length := by
            rw [walksTo_succ_length]
            rfl
          have h3s : (walksTo g0 (g0.nodes.length + 1) u v).length =
              (walksTo g0 g0.nodes.length u v).length :=
            walksTo_stab h20 h30 h40 hacyc0 (by omega)
          rw [h2, h3s] at h1
          exact h1
      constructor
      · intro x m hxm v
        dsimp only at hxm
        by_cases hxu : x = u
        · subst hxu
          rw [if_pos rfl] at hxm
          obtain rfl : (paths_fold g fuel (g.edges x) cache (fun _ => 0)).2
              = m := Option.some.inj hxm
          exact hbnd v
        · rw [if_neg hxu] at hxm
          exact hCf x m hxm v
      · exact hbnd

/-! Lemmas about removing a redundant edge. -/

theorem edge_ne_self {g : SGraph} (hacyc : Acyclic g) {a b : Nat}
    (hab : b ∈ g.edges a) : a ≠ b := by
  intro h
  subst h
  exact hacyc a [a, a] ⟨List.chain'_pair.mpr hab, by simp, rfl, rfl⟩

theorem mem_remove_edge {g : SGraph} (h4 : ∀ x, (g.edges x).Nodup)
    {a b x y : Nat} :
    y ∈ (remove_edge g a b).edges x ↔
      y ∈ g.edges x ∧ ¬(x = a ∧ y = b) := by
  unfold remove_edge
  dsimp only
  by_cases hx : x = a
  · subst hx
    rw [if_pos rfl, (h4 x).mem_erase_iff]
    constructor
    · rintro ⟨h1, h2⟩
      exact ⟨h2, fun h => h1 h.2⟩
    · rintro ⟨h1, h2⟩
      exact ⟨fun h => h2 ⟨rfl, h⟩, h1⟩
  · rw [if_neg hx]
    constructor
    · intro h
      exact ⟨h, fun hc => hx hc.1⟩
    · intro h
      exact h.1

theorem remove_edge_sublist (g : SGraph) (a b x : Nat) :
    ((remove_edge g a b).edges x).Sublist (g.edges x) := by
  unfold remove_edge
  dsimp only
  by_cases hx : x = a
  · subst hx
    rw [if_pos rfl]
    exact List.erase_sublist b (g.edges x)
  · rw [if_neg hx]

/-- A walk of g that never takes the step a→b is a walk of g minus (a,b). -/
theorem walk_in_removed {g : SGraph} (h4 : ∀ x, (g.edges x).Nodup)
    {a b : Nat} :
    ∀ {l}, IsWalk g l → (¬ ∃ p s, l = p ++ a :: b :: s) →
      IsWalk (remove_edge g a b) l := by
  intro l
  induction l with
  | nil => intro _ _; exact List.chain'_nil
  | cons x rest ih =>
    intro hw hno
    cases rest with
    | nil => exact List.chain'_singleton x
    | cons y rest2 =>
      have hstep : y ∈ g.edges x := (List.chain'_cons.mp hw).1
      refine List.chain'_cons.mpr ⟨?_, ?_⟩
      · show y ∈ (remove_edge g a b).edges x
        rw [mem_remove_edge h4]
        refine ⟨hstep, ?_⟩
        rintro ⟨rfl, rfl⟩
        exact hno ⟨[], rest2, rfl⟩
      · refine ih (List.chain'_cons.mp hw).2 ?_
        rintro ⟨p, s, hps⟩
        exact hno ⟨x :: p, s, by rw [List.cons_append, ← hps]⟩

theorem remove_edge_acyclic {g : SGraph} (hacyc : Acyclic g) (a b : Nat) :
    Acyclic (remove_edge g a b) := fun u l hw =>
  hacyc u l (walkFT_mono (fun x => (remove_edge_sublist g a b x).subset) hw)

/-- A walk from a to b other than the edge itself never takes the step
a→b. -/
theorem alt_walk_no_step {g : SGraph} (hacyc : Acyclic g) {a b : Nat}
    {q : List Nat} (hq : WalkFT g a b q) (hne : q ≠ [a, b]) :
    ¬ ∃ p s, q = p ++ a :: b :: s := by
  rintro ⟨p, s, rfl⟩
  obtain ⟨hc, hlen, hhd, hlast⟩ := hq
  have hnd : (p ++ a :: b :: s).Nodup := walk_nodup hacyc hc
  have hp : p = [] := by
    cases p with
    | nil => rfl
    | cons x p2 =>
      exfalso
      have hxa : x = a := by
        have hh : ((x :: p2) ++ a :: b :: s).head? = some x := by simp
        rw [hh] at hhd
        exact Option.some.inj hhd
      rw [List.nodup_append] at hnd
      refine hnd.2.2 (show a ∈ x :: p2 from ?_) (by simp)
      rw [← hxa]
      simp
  subst hp
  have hs : s = [] := by
    cases s with
    | nil => rfl
    | cons z s2 =>
      exfalso
      simp only [List.nil_append] at hnd hlast
      have hbs : b ∈ (z :: s2) := by
        have hl2 : (a :: b :: z :: s2).getLast? = (z :: s2).getLast? := by
          rw [List.getLast?_cons_cons, List.getLast?_cons_cons]
        rw [hl2] at hlast
        exact List.mem_of_mem_getLast? hlast
      rw [List.nodup_cons, List.nodup_cons] at hnd
      exact hnd.2.1 hbs
  subst hs
  exact hne (by simp)

/-- getLast? of an append with nonempty second part. -/
theorem getLast_append_ne (l1 l2 : List Nat) (h : l2 ≠ []) :
    (l1 ++ l2).getLast? = l2.getLast? := by
  rw [List.getLast?_append]
  exact Option.or_of_isSome (List.getLast?_isSome.mpr h)

/-- Replacing the step a→b of a walk by an alternative a-to-b walk q yields a
strictly longer walk of the graph without the edge (a,b). -/
theorem subst_walk {g : SGraph} (hacyc : Acyclic g)
    (h4 : ∀ x, (g.edges x).Nodup) {a b : Nat} {q : List Nat}
    (hq : WalkFT g a b q) (hqne : q ≠ [a, b]) {u v : Nat} {p s : List Nat}
    (hl : WalkFT g u v (p ++ a :: b :: s)) :
    ∃ l2, WalkFT (remove_edge g a b) u v l2 ∧
      (p ++ a :: b :: s).length < l2.length := by
  obtain ⟨hqc, hqlen, hqhd, hqlast⟩ := hq
  obtain ⟨hlc, hllen, hlhd, hllast⟩ := hl
  have hndq : ¬ ∃ p1 s1, q = p1 ++ a :: b :: s1 :=
    alt_walk_no_step hacyc ⟨hqc, hqlen, hqhd, hqlast⟩ hqne
  have hnd : (p ++ a :: b :: s).Nodup := walk_nodup hacyc hlc
  rw [List.nodup_append] at hnd
  have hna : a ∉ p := fun h => hnd.2.2 h (by simp)
  have hnab : a ≠ b := by
    intro h
    subst h
    exact hacyc a q ⟨hqc, hqlen, hqhd, hqlast⟩
  have hq3 : 3 ≤ q.length := by
    rcases q with _ | ⟨x, _ | ⟨y, _ | ⟨z, q3⟩⟩⟩
    · simp at hqlen
    · simp at hqlen
    · exfalso
      apply hqne
      simp only [List.head?_cons, Option.some.injEq] at hqhd
      have hyb : y = b := by simpa using hqlast
      rw [hqhd, hyb]
    · simp
  have hqnn : q ≠ [] := by
    intro h
    rw [h] at hqlen
    simp at hqlen
  obtain ⟨q1, rfl⟩ : ∃ t, q = a :: t := by
    rcases q with _ | ⟨x, t⟩
    · exact absurd rfl hqnn
    · have hx : x = a := by simpa using hqhd
      exact ⟨t, by rw [hx]⟩
  -- decompose the chain of l
  unfold IsWalk at hlc
  rw [List.chain'_append] at hlc
  obtain ⟨hcp, hcmid, hjp⟩ := hlc
  have hcbs : List.Chain' (IsStep g) (b :: s) := (List.chain'_cons.mp hcmid).2
  have hcs : List.Chain' (IsStep g) s := hcbs.tail
  have hjbs : ∀ y ∈ s.head?, IsStep g b y := (List.chain'_cons'.mp hcbs).1
  -- the three pieces are walks avoiding the step a→b
  have hwp : IsWalk (remove_edge g a b) p := by
    refine walk_in_removed h4 hcp ?_
    rintro ⟨p1, s1, rfl⟩
    exact hna (by simp)
  have hwq : IsWalk (remove_edge g a b) (a :: q1) :=
    walk_in_removed h4 hqc hndq
  have hws : IsWalk (remove_edge g a b) s := by
    refine walk_in_removed h4 hcs ?_
    rintro ⟨p1, s1, rfl⟩
    have hmid := hnd.2.1
    rw [List.nodup_cons] at hmid
    exact hmid.1 (by simp)
  refine ⟨p ++ (a :: q1) ++ s, ⟨?_, ?_, ?_, ?_⟩, ?_⟩
  · show List.Chain' (IsStep (remove_edge g a b)) (p ++ (a :: q1) ++ s)
    rw [List.append_assoc, List.chain'_append]
    refine ⟨hwp, ?_, ?_⟩
    · rw [List.chain'_append]
      refine ⟨hwq, hws, ?_⟩
      intro w hw y hy
      rw [Option.mem_def, hqlast, Option.some.injEq] at hw
      subst hw
      have hgy : IsStep g b y := hjbs y hy
      show y ∈ (remove_edge g a b).edges b
      rw [mem_remove_edge h4]
      exact ⟨hgy, fun h => hnab h.1.symm⟩
    · intro w hw y hy
      rw [Option.mem_def] at hy
      simp only [List.cons_append, List.head?_cons, Option.some.injEq] at hy
      subst hy
      have hga : IsStep g w a := hjp w hw a rfl
      show a ∈ (remove_edge g a b).edges w
      rw [mem_remove_edge h4]
      exact ⟨hga, fun h => hnab h.2⟩
  · have h3 := hq3
    simp only [List.length_append, List.length_cons] at h3 ⊢
    omega
  · rcases p with _ | ⟨x0, p1⟩ <;> simpa using hlhd
  · rcases s with _ | ⟨y0, s1⟩
    · have hvb : b = v := by
        rw [getLast_append_ne p (a :: b :: []) (by simp)] at hllast
        simpa using hllast
      subst hvb
      rw [List.append_nil]
      rw [getLast_append_ne p (a :: q1) (by simp)]
      exact hqlast
    · rw [getLast_append_ne p _ (by simp)] at hllast
      have h2 : (y0 :: s1).getLast? = some v := by
        rw [show a :: b :: y0 :: s1 = [a, b] ++ y0 :: s1 from rfl,
          getLast_append_ne _ _ (by simp)] at hllast
        exact hllast
      rw [List.append_assoc, getLast_append_ne _ _ (by simp),
        getLast_append_ne _ _ (by simp)]
      exact h2
  · have h3 := hq3
    simp only [List.length_cons, List.length_append] at h3 ⊢
    omega

/-- Removing a redundant edge (a,b) — one with an alternative a-to-b walk —
preserves the existence of two distinct u-to-v walks for every pair (u,v)
that is still an edge of the reduced graph. -/
theorem twoWalks_remove {g : SGraph} (hacyc : Acyclic g)
    (h4 : ∀ x, (g.edges x).Nodup) {a b : Nat}
    (htwo_ab : TwoWalks g a b) {u v : Nat}
    (huv : v ∈ (remove_edge g a b).edges u)
    (htwo : TwoWalks g u v) :
    TwoWalks (remove_edge g a b) u v := by
  have hget : ∀ {x y : Nat}, TwoWalks g x y → ∃ q, WalkFT g x y q ∧ q ≠ [x, y] := by
    intro x y h
    obtain ⟨m1, m2, hm1, hm2, hmne⟩ := h
    by_cases h1 : m1 = [x, y]
    · exact ⟨m2, hm2, fun h2 => hmne (h1.trans h2.symm)⟩
    · exact ⟨m1, hm1, h1⟩
  obtain ⟨q, hqw, hqne⟩ := hget htwo_ab
  have hw0 : WalkFT (remove_edge g a b) u v [u, v] :=
    ⟨List.chain'_pair.mpr huv, by simp, rfl, rfl⟩
  obtain ⟨l, hlw, hlne⟩ := hget htwo
  by_cases hdec : ∃ p s, l = p ++ a :: b :: s
  · obtain ⟨p, s, rfl⟩ := hdec
    obtain ⟨l2, hl2w, hlen⟩ := subst_walk hacyc h4 hqw hqne hlw
    refine ⟨[u, v], l2, hw0, hl2w, ?_⟩
    intro he
    have h1 : 2 ≤ (p ++ a :: b :: s).length := hlw.2.1
    have h2 : l2.length = 2 := by rw [← he]; rfl
    omega
  · refine ⟨[u, v], l, hw0, ⟨walk_in_removed h4 hlw.1 hdec, hlw.2⟩, ?_⟩
    exact fun h => hlne h.symm

/-- remove_edge keeps the node set. -/
theorem fold_remove_nodes (u : Nat) :
    ∀ (vs : List Nat) (h : SGraph),
      (vs.foldl (fun h v => remove_edge h u v) h).nodes = h.nodes := by
  intro vs
  induction vs with
  | nil => intro h; rfl
  | cons v vs ih =>
    intro h
    rw [List.foldl_cons]
    exact ih (remove_edge h u v)

theorem fold_remove_edges_ne (u : Nat) :
    ∀ (vs : List Nat) (h : SGraph) (x : Nat), x ≠ u →
      (vs.foldl (fun h v => remove_edge h u v) h).edges x = h.edges x := by
  intro vs
  induction vs with
  | nil => intro h x _; rfl
  | cons v vs ih =>
    intro h x hx
    rw [List.foldl_cons, ih (remove_edge h u v) x hx]
    unfold remove_edge
    dsimp only
    rw [if_neg hx]

theorem fold_remove_edges_u (u : Nat) :
    ∀ (vs : List Nat) (h : SGraph),
      (vs.foldl (fun h v => remove_edge h u v) h).edges u =
        vs.foldl (fun es v => es.erase v) (h.edges u) := by
  intro vs
  induction vs with
  | nil => intro h; rfl
  | cons v vs ih =>
    intro h
    rw [List.foldl_cons, List.foldl_cons, ih (remove_edge h u v)]
    congr 1
    unfold remove_edge
    dsimp only
    rw [if_pos rfl]

theorem fold_remove_sublist (u : Nat) :
    ∀ (vs : List Nat) (h : SGraph) (x : Nat),
      ((vs.foldl (fun h v => remove_edge h u v) h).edges x).Sublist
        (h.edges x) := by
  intro vs
  induction vs with
  | nil => intro h x; exact List.Sublist.refl _
  | cons v vs ih =>
    intro h x
    rw [List.foldl_cons]
    exact (ih (remove_edge h u v) x).trans (remove_edge_sublist h u v x)

theorem mem_foldl_erase {y : Nat} :
    ∀ (vs es : List Nat), es.Nodup →
      (y ∈ vs.foldl (fun es v => es.erase v) es ↔ (y ∈ es ∧ y ∉ vs)) := by
  intro vs
  induction vs with
  | nil => intro es _; simp
  | cons v vs ih =>
    intro es hnd
    rw [List.foldl_cons, ih (es.erase v) (hnd.erase v), hnd.mem_erase_iff]
    constructor
    · rintro ⟨⟨hne, hy⟩, hnv⟩
      exact ⟨hy, by simp [hne, hnv]⟩
    · rintro ⟨hy, hnv⟩
      simp only [List.mem_cons, not_or] at hnv
      exact ⟨⟨hnv.1, hy⟩, hnv.2⟩

/-- Removal of a list of redundant targets out of u preserves two-walk
multiplicity of every surviving edge. -/
theorem fold_preserve_twoWalks (u : Nat) :
    ∀ (vs : List Nat) (h : SGraph), Acyclic h →
      (∀ x, (h.edges x).Nodup) → vs.Nodup →
      (∀ v ∈ vs, v ∈ h.edges u ∧ TwoWalks h u v) →
      ∀ x y, y ∈ (vs.foldl (fun h v => remove_edge h u v) h).edges x →
        TwoWalks h x y →
        TwoWalks (vs.foldl (fun h v => remove_edge h u v) h) x y := by
  intro vs
  induction vs with
  | nil => intro h _ _ _ _ x y _ htw; exact htw
  | cons v0 vs ih =>
    intro h hacyc h4 hnd hvs x y hy htw
    rw [List.foldl_cons] at hy ⊢
    have hv0 := hvs v0 (by simp)
    have hacyc1 : Acyclic (remove_edge h u v0) := remove_edge_acyclic hacyc u v0
    have h41 : ∀ z, ((remove_edge h u v0).edges z).Nodup := fun z =>
      (remove_edge_sublist h u v0 z).nodup (h4 z)
    rw [List.nodup_cons] at hnd
    have hvs1 : ∀ v ∈ vs, v ∈ (remove_edge h u v0).edges u ∧
        TwoWalks (remove_edge h u v0) u v := by
      intro v hv
      have hvv := hvs v (by simp [hv])
      have hne : v ≠ v0 := fun he => hnd.1 (he ▸ hv)
      have hmem : v ∈ (remove_edge h u v0).edges u := by
        rw [mem_remove_edge h4]
        exact ⟨hvv.1, fun hc => hne hc.2⟩
      exact ⟨hmem, twoWalks_remove hacyc h4 hv0.2 hmem hvv.2⟩
    have hyh1 : y ∈ (remove_edge h u v0).edges x :=
      (fold_remove_sublist u vs (remove_edge h u v0) x).subset hy
    have htw1 : TwoWalks (remove_edge h u v0) x y :=
      twoWalks_remove hacyc h4 hv0.2 hyh1 htw
    exact ih (remove_edge h u v0) hacyc1 h41 hnd.2 hvs1 x y hy htw1

/-- In an acyclic graph supported on its node set, nodes+1 is enough fuel for
every walk out of any node. -/
theorem fuelBound_of_acyclic {g : SGraph}
    (h2 : ∀ x, x ∉ g.nodes → g.edges x = [])
    (h3 : ∀ x, ∀ y ∈ g.edges x, y ∈ g.nodes)
    (hacyc : Acyclic g) (u : Nat) : FuelBound g u (g.nodes.length + 1) := by
  intro l hw hh
  rcases hlen : l.length with _ | _ | n
  · omega
  · omega
  · have h2l : 2 ≤ l.length := by omega
    have hne : l ≠ [] := by
      intro he
      rw [he] at hlen
      simp at hlen
    have hs : l.getLast?.isSome := List.getLast?_isSome.mpr hne
    cases hgl : l.getLast? with
    | none => rw [hgl] at hs; simp at hs
    | some w =>
      have hwft : WalkFT g u w l := ⟨hw, h2l, hh, hgl⟩
      have := walk_length_le_nodes h2 h3 hacyc hwft
      omega

/-- Along strictly increasing edges, the head of a walk is below its last
vertex. -/
theorem walk_head_lt_last {g : SGraph}
    (hlt : ∀ x, ∀ y ∈ g.edges x, x < y) :
    ∀ l, IsWalk g l → ∀ u v, 2 ≤ l.length → l.head? = some u →
      l.getLast? = some v → u < v := by
  intro l
  induction l with
  | nil => intro _ u v h; simp at h
  | cons x xs ih =>
    intro hw u v hlen hh hlast
    simp only [List.head?_cons, Option.some.injEq] at hh
    subst hh
    cases xs with
    | nil => simp at hlen
    | cons y ys =>
      have hstep : y ∈ g.edges x := (List.chain'_cons.mp hw).1
      have hxy := hlt x y hstep
      cases ys with
      | nil =>
        have hv : y = v := by simpa using hlast
        omega
      | cons z zs =>
        have hyv : y < v :=
          ih (List.chain'_cons.mp hw).2 y v (by simp) rfl
            (by rw [List.getLast?_cons_cons] at hlast; exact hlast)
        omega

/-- A graph whose edges strictly increase the node id is acyclic. -/
theorem acyclic_of_lt {g : SGraph}
    (hlt : ∀ x, ∀ y ∈ g.edges x, x < y) : Acyclic g := by
  intro u l hw
  obtain ⟨hc, hlen, hh, hlast⟩ := hw
  have := walk_head_lt_last hlt l hc u u hlen hh hlast
  omega

/-- One iteration of the preprocess node loop: the invariant is preserved,
edge lists of other sources are untouched, and at u exactly the edges with
more than one distinct u-to-v walk in the original graph disappear. -/
theorem preprocess_step_spec {g : SGraph}
    (h2 : ∀ x, x ∉ g.nodes → g.edges x = [])
    (h3 : ∀ x, ∀ y ∈ g.edges x, y ∈ g.nodes)
    (h4 : ∀ x, (g.edges x).Nodup)
    (hacyc : Acyclic g)
    {h : SGraph} {c : PathCache} (hinv : PreInv g h c) (u : Nat) :
    PreInv g (preprocess_step h c u).1 (preprocess_step h c u).2 ∧
    (∀ x, x ≠ u → (preprocess_step h c u).1.edges x = h.edges x) ∧
    (∀ y, y ∈ (preprocess_step h c u).1.edges u ↔
      (y ∈ h.edges u ∧ ¬ TwoWalks g u y)) := by
  obtain ⟨hnodes, hsubE, hcb, hINV4, hINV5⟩ := hinv
  have h2h : ∀ x, x ∉ h.nodes → h.edges x = [] := by
    intro x hx
    have he := h2 x (hnodes ▸ hx)
    have hs := hsubE x
    rw [he] at hs
    exact List.sublist_nil.mp hs
  have h3h : ∀ x, ∀ y ∈ h.edges x, y ∈ h.nodes := fun x y hy =>
    hnodes ▸ h3 x y ((hsubE x).subset hy)
  have h4h : ∀ x, (h.edges x).Nodup := fun x => (hsubE x).nodup (h4 x)
  have hacych : Acyclic h := fun w l hw =>
    hacyc w l (walkFT_mono (fun x => (hsubE x).subset) hw)
  unfold preprocess_step
  by_cases hemp : (h.edges u).isEmpty = true
  · rw [if_pos hemp]
    refine ⟨⟨hnodes, hsubE, hcb, hINV4, hINV5⟩, fun x _ => rfl, ?_⟩
    intro y
    rw [List.isEmpty_iff] at hemp
    simp [hemp]
  · rw [if_neg hemp]
    dsimp only
    have hFB : FuelBound h u (h.nodes.length + 1) :=
      fuelBound_of_acyclic h2h h3h hacych u
    obtain ⟨hcb', hbnd⟩ :=
      paths_bounds hnodes hsubE h2 h3 h4 hacyc (h.nodes.length + 1) u c hcb hFB
    set pr := paths h (h.nodes.length + 1) u c with hprdef
    have hNh : h.nodes.length = g.nodes.length := by rw [hnodes]
    have hkey : ∀ v ∈ h.edges u, (1 < pr.2 v ↔ TwoWalks g u v) := by
      intro v hv
      constructor
      · intro hgt
        have hup := (hbnd v).2
        have h2le : 2 ≤ (walksTo g g.nodes.length u v).length := by omega
        exact (two_walks_iff h2 h3 h4 hacyc u v).mpr h2le
      · intro htw
        have htwh : TwoWalks h u v := hINV4 u v hv htw
        have h2le : 2 ≤ (walksTo h h.nodes.length u v).length :=
          (two_walks_iff h2h h3h h4h hacych u v).mp htwh
        have hlo := (hbnd v).1
        rw [hNh] at h2le
        omega
    have hmemvs : ∀ v, (v ∈ (h.edges u).filter (fun v => decide (pr.2 v > 1))) ↔
        (v ∈ h.edges u ∧ TwoWalks g u v) := by
      intro v
      rw [List.mem_filter]
      constructor
      · rintro ⟨hv, hd⟩
        rw [decide_eq_true_iff] at hd
        exact ⟨hv, (hkey v hv).mp hd⟩
      · rintro ⟨hv, htw⟩
        exact ⟨hv, decide_eq_true ((hkey v hv).mpr htw)⟩
    have hvsnd : ((h.edges u).filter (fun v => decide (pr.2 v > 1))).Nodup :=
      (h4h u).filter _
    have hvstw : ∀ v ∈ (h.edges u).filter (fun v => decide (pr.2 v > 1)),
        v ∈ h.edges u ∧ TwoWalks h u v := by
      intro v hv
      obtain ⟨h1, h2'⟩ := (hmemvs v).mp hv
      exact ⟨h1, hINV4 u v h1 h2'⟩
    generalize hvs : (h.edges u).filter (fun v => decide (pr.2 v > 1)) = vs
    rw [hvs] at hmemvs hvsnd hvstw
    have hmemu : ∀ y, y ∈ (vs.foldl (fun h v => remove_edge h u v) h).edges u ↔
        (y ∈ h.edges u ∧ y ∉ vs) := by
      intro y
      rw [fold_remove_edges_u, mem_foldl_erase vs (h.edges u) (h4h u)]
    have h4h' : ∀ x,
        ((vs.foldl (fun h v => remove_edge h u v) h).edges x).Nodup := fun x =>
      (fold_remove_sublist u vs h x).nodup (h4h x)
    refine ⟨⟨?_, ?_, ?_, ?_, ?_⟩, ?_, ?_⟩
    · rw [fold_remove_nodes]
      exact hnodes
    · exact fun x => (fold_remove_sublist u vs h x).trans (hsubE x)
    · intro x m hm v
      obtain ⟨hl, hr⟩ := hcb' x m hm v
      refine ⟨le_trans ?_ hl, hr⟩
      apply length_le_of_nodup_subset (walksTo_nodup h4h' _ _ _)
      exact walksTo_mono_graph (fun z => (fold_remove_sublist u vs h z).subset)
    · intro x y hy htw
      have hyh : y ∈ h.edges x := (fold_remove_sublist u vs h x).subset hy
      have htwh : TwoWalks h x y := hINV4 x y hyh htw
      exact fold_preserve_twoWalks u vs h hacych h4h hvsnd hvstw x y hy htwh
    · intro x y hyg hyh'
      by_cases hyh : y ∈ h.edges x
      · by_cases hx : x = u
        · subst hx
          rw [hmemu y] at hyh'
          have hyvs : y ∈ vs := by
            by_contra hc
            exact hyh' ⟨hyh, hc⟩
          exact ((hmemvs y).mp hyvs).2
        · rw [fold_remove_edges_ne u vs h x hx] at hyh'
          exact absurd hyh hyh'
      · exact hINV5 x y hyg hyh
    · exact fun x hx => fold_remove_edges_ne u vs h x hx
    · intro y
      rw [hmemu y]
      constructor
      · rintro ⟨hyh, hnvs⟩
        refine ⟨hyh, fun htw => hnvs ((hmemvs y).mpr ⟨hyh, htw⟩)⟩
      · rintro ⟨hyh, hntw⟩
        exact ⟨hyh, fun hvsm => hntw ((hmemvs y).mp hvsm).2⟩

/-- The preprocess node loop: starting from any state satisfying the
invariant in which the pending nodes are exactly those not yet settled, the
final graph keeps the nodes and its edges are exactly the non-redundant
original edges. -/
theorem preprocess_go_spec {g : SGraph}
    (h2 : ∀ x, x ∉ g.nodes → g.edges x = [])
    (h3 : ∀ x, ∀ y ∈ g.edges x, y ∈ g.nodes)
    (h4 : ∀ x, (g.edges x).Nodup)
    (hacyc : Acyclic g) :
    ∀ (rest : List Nat) (h : SGraph) (c : PathCache), PreInv g h c →
      (∀ x, x ∉ rest → ∀ y,
        (y ∈ h.edges x ↔ (y ∈ g.edges x ∧ ¬ TwoWalks g x y))) →
      (preprocess_go h c rest).nodes = g.nodes ∧
      ∀ x y, y ∈ (preprocess_go h c rest).edges x ↔
        (y ∈ g.edges x ∧ ¬ TwoWalks g x y) := by
  intro rest
  induction rest with
  | nil =>
    intro h c hinv hprev
    exact ⟨hinv.1, fun x y => hprev x (by simp) y⟩
  | cons u rest ih =>
    intro h c hinv hprev
    obtain ⟨hstepinv, hne, hu⟩ := preprocess_step_spec h2 h3 h4 hacyc hinv u
    rw [show preprocess_go h c (u :: rest) =
      preprocess_go (preprocess_step h c u).1 (preprocess_step h c u).2 rest
      from rfl]
    refine ih _ _ hstepinv ?_
    intro x hx y
    by_cases hxu : x = u
    · subst hxu
      rw [hu y]
      constructor
      · rintro ⟨hyh, htw⟩
        exact ⟨(hinv.2.1 x).subset hyh, htw⟩
      · rintro ⟨hyg, htw⟩
        by_cases hyh : y ∈ h.edges x
        · exact ⟨hyh, htw⟩
        · exact absurd (hinv.2.2.2.2 x y hyg hyh) htw
    · rw [hne x hxu]
      exact hprev x (by simp [hxu, hx]) y

/-- C6: for every well-formed acyclic satisfiable-edge graph, preprocess
keeps the node set, removes exactly the edges (u,v) admitting more than one
distinct u-to-v walk, and in the resulting graph no surviving edge (u,v) has
any u-to-v walk besides the edge itself. -/
theorem c6_preprocess_removes_redundant (g g2 : SGraph) (hswf : SWF g)
    (hacyc : Acyclic g) (hok : sg_preprocess g = .ok g2) :
    g2.nodes = g.nodes ∧
    (∀ u v, v ∈ g2.edges u ↔ (v ∈ g.edges u ∧ ¬ TwoWalks g u v)) ∧
    (∀ u v, v ∈ g2.edges u → ∀ l, WalkFT g2 u v l → l = [u, v]) := by
  obtain ⟨hsort, h2, h3, h4⟩ := hswf
  unfold sg_preprocess at hok
  by_cases hchk : check_acyclical g = true
  · rw [if_pos hchk] at hok
    injection hok with hok
    subst hok
    have hinv0 : PreInv g g (fun _ => none) := by
      refine ⟨rfl, fun x => List.Sublist.refl _, ?_, ?_, ?_⟩
      · intro x m hm
        exact absurd hm (by simp)
      · intro x y _ htw
        exact htw
      · intro x y hyg hyh
        exact absurd hyg hyh
    have hspec := preprocess_go_spec h2 h3 h4 hacyc g.nodes g (fun _ => none)
      hinv0 ?_
    · refine ⟨hspec.1, fun u v => hspec.2 u v, ?_⟩
      intro u v hv l hw
      by_contra hlne
      have hsubg : ∀ x,
          (preprocess_go g (fun _ => none) g.nodes).edges x ⊆ g.edges x :=
        fun x y hy => ((hspec.2 x y).mp hy).1
      have hvg : v ∈ g.edges u := hsubg u hv
      have hwg : WalkFT g u v l := walkFT_mono hsubg hw
      have hedge : WalkFT g u v [u, v] :=
        ⟨List.chain'_pair.mpr hvg, by simp, rfl, rfl⟩
      exact ((hspec.2 u v).mp hv).2 ⟨l, [u, v], hwg, hedge, hlne⟩
    · intro x hx y
      rw [h2 x hx]
      simp
  · rw [if_neg hchk] at hok
    simp at hok

/-- Witness: on the concrete three-node instance the hypotheses hold,
preprocess succeeds, the theorem applies, and indeed exactly the redundant
edge (0,2) is gone while 0→1 and 1→2 survive. -/
theorem c6_witness :
    SWF c6g ∧ Acyclic c6g ∧ sg_preprocess c6g = .ok c6g2 ∧
      (c6g2.nodes = c6g.nodes ∧
        (∀ u v, v ∈ c6g2.edges u ↔ (v ∈ c6g.edges u ∧ ¬ TwoWalks c6g u v)) ∧
        (∀ u v, v ∈ c6g2.edges u → ∀ l, WalkFT c6g2 u v l → l = [u, v])) ∧
      c6g2.edges 0 = [1] ∧ c6g2.edges 1 = [2] ∧ c6g2.edges 2 = [] := by
  have hswf : SWF c6g := by
    refine ⟨by decide, ?_, ?_, ?_⟩
    · intro x hx
      simp only [c6g] at hx ⊢
      simp only [List.mem_cons, List.mem_singleton, not_or] at hx
      rw [if_neg hx.1, if_neg hx.2.1]
    · intro x y hy
      simp only [c6g] at hy ⊢
      split at hy
      · simp at hy
        rcases hy with rfl | rfl <;> simp
      · split at hy
        · simp at hy
          subst hy
          simp
        · simp at hy
    · intro x
      simp only [c6g]
      split
      · decide
      · split
        · decide
        · decide
  have hacyc : Acyclic c6g := by
    apply acyclic_of_lt
    intro x y hy
    simp only [c6g] at hy
    split at hy
    · rename_i hx
      simp at hy
      rcases hy with rfl | rfl <;> omega
    · split at hy
      · rename_i hx0 hx1
        simp at hy
        subst hy
        omega
      · simp at hy
  have hchk : check_acyclical c6g = true := by
    simp [check_acyclical, check_acyclical_go, dfs_visit, dfs_visit_fold, c6g]
  have hok : sg_preprocess c6g = .ok c6g2 := by
    unfold sg_preprocess
    rw [if_pos hchk]
    rfl
  exact ⟨hswf, hacyc, hok,
    c6_preprocess_removes_redundant c6g c6g2 hswf hacyc hok,
    by simp [c6g2, preprocess_go, preprocess_step, paths, paths_fold,
      remove_edge, c6g],
    by simp [c6g2, preprocess_go, preprocess_step, paths, paths_fold,
      remove_edge, c6g],
    by simp [c6g2, preprocess_go, preprocess_step, paths, paths_fold,
      remove_edge, c6g]⟩

theorem sccEvol_refl {st : SccState} : SccEvol st st :=
  ⟨fun _ _ => rfl, le_refl _,
   fun x i hx hi => by rw [hi] at hx; simp at hx,
   ⟨[], rfl, by simp⟩, ⟨[], by simp⟩⟩

theorem sccEvol_trans {s1 s2 s3 : SccState} (h1 : SccEvol s1 s2)
    (h2 : SccEvol s2 s3) : SccEvol s1 s3 := by
  refine ⟨?_, le_trans h1.idxMono h2.idxMono, ?_, ?_, ?_⟩
  · intro x hx
    rw [h2.idxFrozen x (by rw [h1.idxFrozen x hx]; exact hx), h1.idxFrozen x hx]
  · intro x i hx hi
    by_cases h2x : (s2.indices x).isSome = true
    · rw [h2.idxFrozen x h2x] at hi
      exact h1.freshIdx x i hx hi
    · exact le_trans h1.idxMono (h2.freshIdx x i (by simpa using h2x) hi)
  · obtain ⟨Y1, hY1, hf1⟩ := h1.stackExt
    obtain ⟨Y2, hY2, hf2⟩ := h2.stackExt
    refine ⟨Y2 ++ Y1, by rw [hY2, hY1, List.append_assoc], ?_⟩
    intro x hx
    rcases List.mem_append.mp hx with h | h
    · by_cases hv : (s1.indices x).isSome = true
      · have hfr := h1.idxFrozen x hv
        have h2f := hf2 x h
        rw [hfr] at h2f
        rw [h2f] at hv
        simp at hv
      · simpa using hv
    · exact hf1 x h
  · obtain ⟨c1, hc1⟩ := h1.compExt
    obtain ⟨c2, hc2⟩ := h2.compExt
    exact ⟨c1 ++ c2, by rw [hc2, hc1, List.append_assoc]⟩

/-- In a well-formed state, the assigned nodes are closed under edges. -/
theorem asn_step_closed {g : SGraph} {gs : List Nat} {st : SccState}
    (hwf : SccWF g gs st) {x w : Nat} (hx : asn st x) (hw : w ∈ g.edges x) :
    asn st w := by
  obtain ⟨c, hc, hxc⟩ := List.mem_flatten.mp hx
  obtain ⟨⟨k, hk⟩, hck⟩ := List.mem_iff_get.mp hc
  have := hwf.compClosed k hk x (by rw [hck]; exact hxc) w hw
  have hsub : (st.components.take (k + 1)).flatten ⊆ st.components.flatten :=
    fun z hz => by
      obtain ⟨c2, hc2, hzc⟩ := List.mem_flatten.mp hz
      exact List.mem_flatten.mpr ⟨c2, (List.take_sublist _ _).subset hc2, hzc⟩
  exact hsub this

/-- In a well-formed state, the assigned nodes are closed under
reachability. -/
theorem asn_reach_closed {g : SGraph} {gs : List Nat} {st : SccState}
    (hwf : SccWF g gs st) {x w : Nat} (hx : asn st x) (hr : Reach g x w) :
    asn st w := by
  induction hr with
  | refl => exact hx
  | tail _ hstep ih => exact asn_step_closed hwf ih hstep

/-- Transfer of the decreasing-stack chain along an index-preserving map. -/
theorem chain_lt_congr {f f2 : Nat → Nat} :
    ∀ {l : List Nat}, (∀ x ∈ l, f2 x = f x) →
      l.Chain' (fun a b => f b < f a) → l.Chain' (fun a b => f2 b < f2 a) := by
  intro l
  induction l with
  | nil => intro _ _; exact List.chain'_nil
  | cons x xs ih =>
    intro hf hc
    rw [List.chain'_cons'] at hc ⊢
    refine ⟨?_, ih (fun z hz => hf z (by simp [hz])) hc.2⟩
    intro y hy
    have hyl : y ∈ xs := by
      cases xs with
      | nil => simp at hy
      | cons a t => simp only [List.head?_cons, Option.mem_def,
          Option.some.injEq] at hy; simp [← hy]
    rw [hf x (by simp), hf y (by simp [hyl])]
    exact hc.1 y hy

/-- Flipping one unvisited node to visited raises the visited count by
one. -/
theorem filter_length_update {l : List Nat} (hnd : l.Nodup) {u : Nat}
    (hu : u ∈ l) {p q : Nat → Bool} (hpu : p u = false)
    (hq : ∀ x, q x = if x = u then true else p x) :
    (l.filter q).length = (l.filter p).length + 1 := by
  induction l with
  | nil => simp at hu
  | cons x xs ih =>
    rw [List.nodup_cons] at hnd
    rcases List.mem_cons.mp hu with heq | hu2
    · subst heq
      rw [List.filter_cons, List.filter_cons, hq u, if_pos rfl, hpu]
      simp only [if_true]
      have hfe : xs.filter q = xs.filter p := by
        apply List.filter_congr
        intro z hz
        rw [hq z, if_neg (fun h => hnd.1 (by rw [h] at hz; exact hz))]
      rw [hfe]
      simp
    · have hxu : x ≠ u := fun h => hnd.1 (h ▸ hu2)
      rw [List.filter_cons, List.filter_cons, hq x, if_neg hxu]
      cases hpx : p x <;> simp [ih hnd.2 hu2]

/-- Splitting the stack at the first occurrence of u. -/
theorem stack_split {u : Nat} :
    ∀ {S : List Nat}, u ∈ S →
      S.takeWhile (fun v => decide (v ≠ u)) ++
        u :: (S.dropWhile (fun v => decide (v ≠ u))).tail = S ∧
      u ∉ S.takeWhile (fun v => decide (v ≠ u)) := by
  intro S
  induction S with
  | nil => intro h; simp at h
  | cons x xs ih =>
    intro hu
    by_cases hx : x = u
    · subst hx
      rw [List.takeWhile_cons, List.dropWhile_cons]
      simp
    · have hu2 : u ∈ xs := by
        rcases List.mem_cons.mp hu with h | h
        · exact absurd h.symm hx
        · exact h
      obtain ⟨ih1, ih2⟩ := ih hu2
      rw [List.takeWhile_cons, List.dropWhile_cons]
      have hd : decide (x ≠ u) = true := by simp [hx]
      rw [hd]
      simp only [if_true]
      constructor
      · rw [List.cons_append, ih1]
      · intro hmem
        rcases List.mem_cons.mp hmem with h | h
        · exact hx h.symm
        · exact ih2 h

/-- Every stacked node reaches a gray node at or below its own index. -/
theorem scc_descent {g : SGraph} {gs : List Nat} {st : SccState}
    (hwf : SccWF g gs st) :
    ∀ n x, x ∈ st.S → idxv st x ≤ n →
      ∃ y ∈ gs, idxv st y ≤ idxv st x ∧ Reach g x y := by
  intro n
  induction n using Nat.strong_induction_on with
  | _ n ih =>
    intro x hx hxn
    by_cases hg : x ∈ gs
    · exact ⟨x, hg, le_refl _, Relation.ReflTransGen.refl⟩
    · have hlt := hwf.lowStrict x hx hg
      obtain ⟨z, hz, hzi, hzr⟩ := hwf.lowWit x hx
      have hzidx : idxv st z = lowv st x := by rw [idxv, hzi]; rfl
      have hzlt : idxv st z < idxv st x := by omega
      rcases n with _ | n
      · omega
      · obtain ⟨y, hy, hyi, hyr⟩ := ih n (by omega) z hz (by omega)
        exact ⟨y, hy, by omega, hzr.trans hyr⟩

/-- With no active visit, the stack is empty. -/
theorem scc_stack_empty {g : SGraph} {st : SccState}
    (hwf : SccWF g [] st) : st.S = [] := by
  rw [List.eq_nil_iff_forall_not_mem]
  intro x hx
  obtain ⟨y, hy, _⟩ := scc_descent hwf (idxv st x) x hx (le_refl _)
  simp at hy

/-- Every gray node reaches the innermost gray node. -/
theorem gray_reach_head {g : SGraph} :
    ∀ {l : List Nat} {u0 : Nat},
      (u0 :: l).Chain' (fun a b => Reach g b a) → ∀ y ∈ u0 :: l, Reach g y u0 := by
  intro l
  induction l with
  | nil =>
    intro u0 _ y hy
    rw [List.mem_singleton] at hy
    rw [hy]
    exact Relation.ReflTransGen.refl
  | cons u1 t ih =>
    intro u0 hc y hy
    rw [List.chain'_cons] at hc
    rcases List.mem_cons.mp hy with h | h
    · rw [h]
      exact Relation.ReflTransGen.refl
    · exact (ih hc.2 y h).trans hc.1

/-- Pushing an unvisited node preserves the invariant, with the node
prepended to the gray path. -/
theorem scc_push_wf {g : SGraph} {gs : List Nat} {st : SccState} {u : Nat}
    (hnd : g.nodes.Nodup)
    (hwf : SccWF g gs st) (hu : u ∈ g.nodes) (hvu : ¬ svis st u)
    (hgs : gs = [] ∨ ∃ u0 gs0, gs = u0 :: gs0 ∧ u ∈ g.edges u0) :
    SccWF g (u :: gs)
      { st with
        indices := fun x => if x = u then some st.index else st.indices x
        lowlinks := fun x => if x = u then some st.index else st.lowlinks x
        index := st.index + 1
        S := u :: st.S
        onStack := fun x => if x = u then true else st.onStack x } := by
  have hSu : u ∉ st.S := fun h => hvu (hwf.visS u h)
  have hAu : ¬ asn st u := fun h => hvu (hwf.visAsn u h)
  have hmemne : ∀ x ∈ st.S, x ≠ u := fun x hx he => hSu (he ▸ hx)
  have hidxS : ∀ x ∈ st.S, idxv st x < st.index := by
    intro x hx
    have := hwf.visS x hx
    rw [svis, Option.isSome_iff_exists] at this
    obtain ⟨i, hi⟩ := this
    have := hwf.idxLt x i hi
    rw [idxv, hi]
    exact this
  refine ⟨?_, ?_, ?_, ?_, ?_, ?_, ?_, ?_, ?_, ?_, ?_, ?_, ?_, ?_, ?_, ?_, ?_,
    hwf.compNE, hwf.compSCC, hwf.compMax, hwf.compClosed⟩
  · intro x hx
    rcases List.mem_cons.mp hx with h | h
    · subst h
      simp [svis]
    · have := hwf.visS x h
      simp only [svis] at this ⊢
      by_cases hxu : x = u <;> simp [hxu, this]
  · intro x hx
    have := hwf.visAsn x hx
    simp only [svis] at this ⊢
    by_cases hxu : x = u <;> simp [hxu, this]
  · intro x hx
    by_cases hxu : x = u
    · exact Or.inl (by simp [hxu])
    · simp only [svis, hxu, if_false] at hx
      rcases hwf.visCases x hx with h | h
      · exact Or.inl (by simp [h])
      · exact Or.inr h
  · rw [List.nodup_middle, List.nodup_cons]
    refine ⟨?_, hwf.nodup⟩
    intro h
    rcases List.mem_append.mp h with h | h
    · exact hAu h
    · exact hSu h
  · intro x
    by_cases hxu : x = u
    · subst hxu
      simp
    · simp only [hxu, if_false]
      rw [hwf.onstack x]
      simp [hxu]
  · intro x hx
    by_cases hxu : x = u
    · exact hxu ▸ hu
    · simp only [svis, hxu, if_false] at hx
      exact hwf.visNodes x hx
  · intro x
    by_cases hxu : x = u
    · simp [svis, hxu]
    · have h := hwf.lowSome x
      simp only [svis] at h ⊢
      simpa [hxu] using h
  · intro x i hi
    dsimp only at hi ⊢
    by_cases hxu : x = u
    · rw [hxu, if_pos rfl] at hi
      injection hi with hi
      omega
    · rw [if_neg hxu] at hi
      have := hwf.idxLt x i hi
      omega
  · intro x y hx hy hxy
    by_cases hxu : x = u <;> by_cases hyu : y = u
    · rw [hxu, hyu]
    · exfalso
      simp only [svis, hyu, if_false] at hy
      have h1 : idxv { st with
          indices := fun x => if x = u then some st.index else st.indices x,
          lowlinks := fun x => if x = u then some st.index else st.lowlinks x,
          index := st.index + 1, S := u :: st.S,
          onStack := fun x => if x = u then true else st.onStack x } x =
          st.index := by simp [idxv, hxu]
      have h2 : idxv st y < st.index := by
        rw [Option.isSome_iff_exists] at hy
        obtain ⟨i, hi⟩ := hy
        have := hwf.idxLt y i hi
        rw [idxv, hi]
        exact this
      rw [h1] at hxy
      have h3 : idxv { st with
          indices := fun x => if x = u then some st.index else st.indices x,
          lowlinks := fun x => if x = u then some st.index else st.lowlinks x,
          index := st.index + 1, S := u :: st.S,
          onStack := fun x => if x = u then true else st.onStack x } y =
          idxv st y := by simp [idxv, hyu]
      rw [h3] at hxy
      omega
    · exfalso
      simp only [svis, hxu, if_false] at hx
      have h1 : idxv { st with
          indices := fun x => if x = u then some st.index else st.indices x,
          lowlinks := fun x => if x = u then some st.index else st.lowlinks x,
          index := st.index + 1, S := u :: st.S,
          onStack := fun x => if x = u then true else st.onStack x } y =
          st.index := by simp [idxv, hyu]
      have h2 : idxv st x < st.index := by
        rw [Option.isSome_iff_exists] at hx
        obtain ⟨i, hi⟩ := hx
        have := hwf.idxLt x i hi
        rw [idxv, hi]
        exact this
      have h3 : idxv { st with
          indices := fun x => if x = u then some st.index else st.indices x,
          lowlinks := fun x => if x = u then some st.index else st.lowlinks x,
          index := st.index + 1, S := u :: st.S,
          onStack := fun x => if x = u then true else st.onStack x } x =
          idxv st x := by simp [idxv, hxu]
      rw [h1, h3] at hxy
      omega
    · simp only [svis, hxu, hyu, if_false] at hx hy
      have h3 : ∀ z, z ≠ u → idxv { st with
          indices := fun x => if x = u then some st.index else st.indices x,
          lowlinks := fun x => if x = u then some st.index else st.lowlinks x,
          index := st.index + 1, S := u :: st.S,
          onStack := fun x => if x = u then true else st.onStack x } z =
          idxv st z := by intro z hz; simp [idxv, hz]
      rw [h3 x hxu, h3 y hyu] at hxy
      exact hwf.idxInj x y hx hy hxy
  · have hq : ∀ x, ((if x = u then some st.index else st.indices x)).isSome =
        (if x = u then true else (st.indices x).isSome) := by
      intro x
      by_cases hxu : x = u <;> simp [hxu]
    calc st.index + 1 =
        (g.nodes.filter (fun x => (st.indices x).isSome)).length + 1 := by
          rw [hwf.idxCount]
      _ = (g.nodes.filter
            (fun x => ((if x = u then some st.index else st.indices x)).isSome)).length := by
          rw [filter_length_update hnd hu (by simpa [svis] using hvu) hq]
  · rw [List.chain'_cons']
    constructor
    · intro y hy
      have hyS : y ∈ st.S := by
        cases hS : st.S with
        | nil => rw [hS] at hy; simp at hy
        | cons a t =>
          rw [hS] at hy
          simp only [List.head?_cons, Option.mem_def, Option.some.injEq] at hy
          rw [← hy]
          simp
      have h1 : idxv st y < st.index := hidxS y hyS
      have hyu : y ≠ u := hmemne y hyS
      simp only [idxv] at h1
      simpa [idxv, hyu] using h1
    · refine chain_lt_congr ?_ hwf.stackDec
      intro x hx
      simp [idxv, hmemne x hx]
  · intro x hx
    by_cases hxu : x = u
    · simp [lowv, idxv, hxu]
    · simp only [svis, hxu, if_false] at hx
      have := hwf.lowLe x hx
      simpa [lowv, idxv, hxu] using this
  · intro x hx
    rcases List.mem_cons.mp hx with h | h
    · subst h
      refine ⟨x, by simp, by simp [lowv], Relation.ReflTransGen.refl⟩
    · obtain ⟨z, hz, hzi, hzr⟩ := hwf.lowWit x h
      have hzu : z ≠ u := hmemne z hz
      have hxu : x ≠ u := hmemne x h
      exact ⟨z, by simp [hz], by simp [lowv, hzu, hxu, hzi], hzr⟩
  · intro x hx hng
    have hxu : x ≠ u := fun h => hng (by simp [h])
    have hxS : x ∈ st.S := by
      rcases List.mem_cons.mp hx with h | h
      · exact absurd h hxu
      · exact h
    have hg : x ∉ gs := fun h => hng (by simp [h])
    have := hwf.lowStrict x hxS hg
    simpa [lowv, idxv, hxu] using this
  · intro x hx y hy hxy
    have hiu : idxv { st with
        indices := fun x => if x = u then some st.index else st.indices x,
        lowlinks := fun x => if x = u then some st.index else st.lowlinks x,
        index := st.index + 1, S := u :: st.S,
        onStack := fun x => if x = u then true else st.onStack x } u =
        st.index := by simp [idxv]
    have hin : ∀ z, z ≠ u → idxv { st with
        indices := fun x => if x = u then some st.index else st.indices x,
        lowlinks := fun x => if x = u then some st.index else st.lowlinks x,
        index := st.index + 1, S := u :: st.S,
        onStack := fun x => if x = u then true else st.onStack x } z =
        idxv st z := by intro z hz; simp [idxv, hz]
    rcases List.mem_cons.mp hx with h1 | h1 <;>
      rcases List.mem_cons.mp hy with h2 | h2
    · rw [h1, h2]
      exact Relation.ReflTransGen.refl
    · subst h1
      exfalso
      rw [hiu, hin y (hmemne y h2)] at hxy
      have := hidxS y h2
      omega
    · subst h2
      rcases hgs with hgs | ⟨u0, gs0, hgs, hedge⟩
      · rw [scc_stack_empty (hgs ▸ hwf)] at h1
        simp at h1
      · obtain ⟨y', hy', _, hr⟩ :=
          scc_descent hwf (idxv st x) x h1 (le_refl _)
        have hrh : Reach g y' u0 :=
          gray_reach_head (hgs ▸ hwf.graysChain) y' (hgs ▸ hy')
        exact (hr.trans hrh).trans (Relation.ReflTransGen.single hedge)
    · rw [hin x (hmemne x h1), hin y (hmemne y h2)] at hxy
      exact hwf.upReach x h1 y h2 hxy
  · intro x hx
    rcases List.mem_cons.mp hx with h | h
    · simp [h]
    · simp [hwf.graysS x h]
  · rw [List.chain'_cons']
    refine ⟨?_, hwf.graysChain⟩
    intro b hb
    rcases hgs with hgs | ⟨u0, gs0, hgs, hedge⟩
    · rw [hgs] at hb
      simp at hb
    · rw [hgs] at hb
      simp only [List.head?_cons, Option.mem_def, Option.some.injEq] at hb
      rw [← hb]
      exact Relation.ReflTransGen.single hedge

/-- Lowering the active node's lowlink preserves the invariant, provided a
stacked reachability witness exists when the new value is an actual
decrease. -/
theorem scc_lowupd_wf {g : SGraph} {gs : List Nat} {st : SccState} {u m : Nat}
    (hwf : SccWF g (u :: gs) st) (hu : u ∈ st.S)
    (hwit : m < lowv st u → ∃ z ∈ st.S, st.indices z = some m ∧ Reach g u z) :
    SccWF g (u :: gs)
      { st with lowlinks :=
          fun x => if x = u then some (min (lowv st u) m) else st.lowlinks x } := by
  have hlv : ∀ x, x ≠ u →
      lowv { st with lowlinks :=
        fun x => if x = u then some (min (lowv st u) m) else st.lowlinks x } x =
        lowv st x := by
    intro x hx
    simp [lowv, hx]
  have hlvu : lowv { st with lowlinks :=
      fun x => if x = u then some (min (lowv st u) m) else st.lowlinks x } u =
      min (lowv st u) m := by
    simp [lowv]
  refine ⟨hwf.visS, hwf.visAsn, hwf.visCases, hwf.nodup, hwf.onstack,
    hwf.visNodes, ?_, hwf.idxLt, hwf.idxInj, hwf.idxCount, hwf.stackDec,
    ?_, ?_, ?_, hwf.upReach, hwf.graysS, hwf.graysChain, hwf.compNE,
    hwf.compSCC, hwf.compMax, hwf.compClosed⟩
  · intro x
    by_cases hx : x = u
    · subst hx
      constructor
      · intro _
        exact hwf.visS x hu
      · intro _
        simp
    · simpa [hx] using hwf.lowSome x
  · intro x hx
    by_cases hxu : x = u
    · subst hxu
      rw [hlvu]
      exact le_trans (min_le_left _ _) (hwf.lowLe x hx)
    · rw [hlv x hxu]
      exact hwf.lowLe x hx
  · intro x hx
    by_cases hxu : x = u
    · subst hxu
      rw [hlvu]
      rcases le_or_lt (lowv st x) m with h | h
      · rw [min_eq_left h]
        obtain ⟨z, hz, hzi, hzr⟩ := hwf.lowWit x hx
        exact ⟨z, hz, hzi, hzr⟩
      · rw [min_eq_right (le_of_lt h)]
        obtain ⟨z, hz, hzi, hzr⟩ := hwit h
        exact ⟨z, hz, hzi, hzr⟩
    · rw [hlv x hxu]
      obtain ⟨z, hz, hzi, hzr⟩ := hwf.lowWit x hx
      exact ⟨z, hz, hzi, hzr⟩
  · intro x hx hng
    have hxu : x ≠ u := fun h => hng (by simp [h])
    rw [hlv x hxu]
    exact hwf.lowStrict x hx hng

/-- A nodup list splits uniquely at an element. -/
theorem nodup_split_unique {u : Nat} :
    ∀ {P T A C : List Nat}, (P ++ u :: T).Nodup → P ++ u :: T = A ++ u :: C →
      u ∉ P → u ∉ A → P = A ∧ T = C := by
  intro P
  induction P with
  | nil =>
    intro T A C hnd heq _ hA
    cases A with
    | nil =>
      simp only [List.nil_append] at heq
      injection heq with _ h2
      exact ⟨rfl, h2⟩
    | cons a A2 =>
      exfalso
      simp only [List.nil_append, List.cons_append] at heq
      injection heq with h1 h2
      simp only [List.nil_append, List.nodup_cons] at hnd
      subst h1
      exact hnd.1 (by rw [h2]; simp)
  | cons p P2 ih =>
    intro T A C hnd heq hP hA
    cases A with
    | nil =>
      exfalso
      simp only [List.cons_append, List.nil_append] at heq
      injection heq with h1 h2
      subst h1
      exact hP (by simp)
    | cons a A2 =>
      simp only [List.cons_append] at heq
      injection heq with h1 h2
      subst h1
      rw [List.cons_append, List.nodup_cons] at hnd
      obtain ⟨hp2, ht2⟩ := ih hnd.2 h2 (fun h => hP (by simp [h]))
        (fun h => hA (by simp [h]))
      exact ⟨by rw [hp2], ht2⟩

/-- Below the head of a strictly decreasing chain, values are smaller. -/
theorem chain_lt_head {f : Nat → Nat} :
    ∀ {l : List Nat} {x : Nat},
      (x :: l).Chain' (fun a b => f b < f a) → ∀ z ∈ l, f z < f x := by
  intro l
  induction l with
  | nil => intro x _ z hz; simp at hz
  | cons y t ih =>
    intro x hc z hz
    rw [List.chain'_cons] at hc
    rcases List.mem_cons.mp hz with h | h
    · rw [h]
      exact hc.1
    · exact lt_trans (ih hc.2 z h) hc.1

/-- Completing a root visit: popping the block down to and including u
yields a well-formed state with the old stack restored, and the popped block
is exactly the strongly connected component of u. -/
theorem scc_pop_wf {g : SGraph} {gs : List Nat} {st2 : SccState}
    {u n : Nat} {S0 P T : List Nat}
    (hwf2 : SccWF g (u :: gs) st2)
    (hPT : st2.S = P ++ u :: T) (hPu : u ∉ P)
    (hidxu : st2.indices u = some n)
    (hsplit : ∃ Y, st2.S = Y ++ S0 ∧ (∀ x ∈ Y, n ≤ idxv st2 x) ∧
      (∀ x ∈ S0, idxv st2 x < n))
    (hgso : ∀ y ∈ gs, y ∈ S0)
    (hobl : ∀ x, svis st2 x → n ≤ idxv st2 x → ∀ w ∈ g.edges x,
      svis st2 w ∧ (asn st2 w ∨ n ≤ idxv st2 w))
    (hV10 : ∀ x ∈ st2.S, n ≤ idxv st2 x → n ≤ lowv st2 x) :
    SccWF g gs
      { st2 with
        S := T
        onStack := fun x => if x ∈ P ++ [u] then false else st2.onStack x
        components := st2.components ++ [P ++ [u]] }
    ∧ T = S0
    ∧ (∀ x, svis st2 x → n ≤ idxv st2 x →
        x ∈ (st2.components ++ [P ++ [u]]).flatten) := by
  have hu2 : u ∈ st2.S := by rw [hPT]; simp
  have hSnd : st2.S.Nodup := hwf2.nodup.of_append_right
  have hidxvu : idxv st2 u = n := by rw [idxv, hidxu]; rfl
  obtain ⟨Y, hY, hYge, hS0lt⟩ := hsplit
  have huS0 : u ∉ S0 := fun h => by
    have := hS0lt u h
    omega
  have huY : u ∈ Y := by
    have := hu2
    rw [hY] at this
    rcases List.mem_append.mp this with h | h
    · exact h
    · exact absurd h huS0
  obtain ⟨hAeq, hApre⟩ := stack_split huY
  set A := Y.takeWhile (fun v => decide (v ≠ u)) with hAdef
  set B := (Y.dropWhile (fun v => decide (v ≠ u))).tail with hBdef
  have heq2 : P ++ u :: T = A ++ u :: (B ++ S0) := by
    have h := hY
    rw [hPT] at h
    rw [h, ← hAeq]
    simp [List.append_assoc]
  obtain ⟨hPA, hTBS⟩ := nodup_split_unique (hPT ▸ hSnd) heq2 hPu hApre
  have hB : B = [] := by
    rw [List.eq_nil_iff_forall_not_mem]
    intro b hb
    have hbY : b ∈ Y := by
      rw [← hAeq]
      simp [hb]
    have h1 := hYge b hbY
    have hchain := hwf2.stackDec
    rw [hPT] at hchain
    have hsuff : (u :: T).Chain'
        (fun a b => idxv st2 b < idxv st2 a) := by
      rw [List.chain'_append] at hchain
      exact hchain.2.1
    have hbT : b ∈ T := by
      rw [hTBS]
      simp [hb]
    have h2 := chain_lt_head hsuff b hbT
    rw [hidxvu] at h2
    omega
  have hTS0 : T = S0 := by
    rw [hTBS, hB]
    simp
  subst hTS0
  have hYPu : Y = P ++ [u] := by
    rw [← hAeq, hB, ← hPA]
  have hCT : (P ++ [u]) ++ T = st2.S := by
    rw [hPT]
    simp
  have huT : u ∉ T := by
    have := hPT ▸ hSnd
    rw [List.nodup_middle, List.nodup_cons] at this
    exact fun h => this.1 (List.mem_append.mpr (Or.inr h))
  have hK1 : ∀ x, x ∈ P ++ [u] ↔ (x ∈ st2.S ∧ n ≤ idxv st2 x) := by
    intro x
    constructor
    · intro hx
      have hxY : x ∈ Y := by rw [hYPu]; exact hx
      refine ⟨by rw [hY]; exact List.mem_append.mpr (Or.inl hxY), hYge x hxY⟩
    · rintro ⟨hxS, hxn⟩
      rw [hY] at hxS
      rcases List.mem_append.mp hxS with h | h
      · rw [hYPu] at h
        exact h
      · exact absurd hxn (by have := hS0lt x h; omega)
  have huC : u ∈ P ++ [u] := by simp
  have hK2 : ∀ x ∈ P ++ [u], Reach g u x := by
    intro x hx
    exact hwf2.upReach u hu2 x ((hK1 x).mp hx).1
      (by rw [hidxvu]; exact ((hK1 x).mp hx).2)
  have hK3 : ∀ m x, x ∈ P ++ [u] → idxv st2 x ≤ m + n → Reach g x u := by
    intro m
    induction m with
    | zero =>
      intro x hx hxm
      have h1 := ((hK1 x).mp hx).2
      have hxu : x = u := hwf2.idxInj x u
        (hwf2.visS x ((hK1 x).mp hx).1) (hwf2.visS u hu2)
        (by rw [hidxvu]; omega)
      rw [hxu]
      exact Relation.ReflTransGen.refl
    | succ m ih =>
      intro x hx hxm
      by_cases hxu : x = u
      · rw [hxu]
        exact Relation.ReflTransGen.refl
      · have hxS := ((hK1 x).mp hx).1
        have hxn := ((hK1 x).mp hx).2
        have hng : x ∉ u :: gs := by
          intro h
          rcases List.mem_cons.mp h with h | h
          · exact hxu h
          · have := hS0lt x (hgso x h)
            omega
        have hlow := hwf2.lowStrict x hxS hng
        have hge := hV10 x hxS hxn
        obtain ⟨z, hz, hzi, hzr⟩ := hwf2.lowWit x hxS
        have hzidx : idxv st2 z = lowv st2 x := by rw [idxv, hzi]; rfl
        have hzC : z ∈ P ++ [u] := (hK1 z).mpr ⟨hz, by omega⟩
        exact hzr.trans (ih z hzC (by omega))
  have hK3' : ∀ x ∈ P ++ [u], Reach g x u := fun x hx =>
    hK3 (idxv st2 x) x hx (by omega)
  have hK5 : ∀ x ∈ P ++ [u], ∀ w ∈ g.edges x,
      asn st2 w ∨ w ∈ P ++ [u] := by
    intro x hx w hw
    have hxS := ((hK1 x).mp hx).1
    obtain ⟨hwvis, hcase⟩ :=
      hobl x (hwf2.visS x hxS) ((hK1 x).mp hx).2 w hw
    rcases hcase with h | h
    · exact Or.inl h
    · rcases hwf2.visCases w hwvis with h2 | h2
      · exact Or.inr ((hK1 w).mpr ⟨h2, h⟩)
      · exact Or.inl h2
  have hdisj : st2.components.flatten.Disjoint st2.S := by
    have := hwf2.nodup
    rw [List.nodup_append] at this
    exact this.2.2
  have hCdisj : ∀ x ∈ P ++ [u], ¬ asn st2 x := by
    intro x hx hax
    exact hdisj hax ((hK1 x).mp hx).1
  have hK6 : ∀ y, Reach g u y → Reach g y u → y ∈ P ++ [u] := by
    intro y h1 h2
    have hQ : y ∈ P ++ [u] ∨ asn st2 y := by
      clear h2
      induction h1 with
      | refl => exact Or.inl huC
      | tail hr hstep ih =>
        rcases ih with h | h
        · rcases hK5 _ h _ hstep with h2 | h2
          · exact Or.inr h2
          · exact Or.inl h2
        · exact Or.inr (asn_step_closed hwf2 h hstep)
    rcases hQ with h | h
    · exact h
    · exact absurd (asn_reach_closed hwf2 h h2) (hCdisj u huC)
  have hasn' : ∀ x, x ∈ (st2.components ++ [P ++ [u]]).flatten ↔
      (asn st2 x ∨ x ∈ P ++ [u]) := by
    intro x
    rw [asn]
    simp [List.flatten_append]
  have hTsub : ∀ x ∈ T, x ∈ st2.S := by
    intro x hx
    rw [hPT]
    simp [hx]
  refine ⟨⟨?_, ?_, ?_, ?_, ?_, ?_, hwf2.lowSome, hwf2.idxLt, hwf2.idxInj,
    hwf2.idxCount, ?_, hwf2.lowLe, ?_, ?_, ?_, ?_, ?_, ?_, ?_, ?_, ?_⟩,
    rfl, ?_⟩
  · intro x hx
    exact hwf2.visS x (hTsub x hx)
  · intro x hx
    rcases (hasn' x).mp hx with h | h
    · exact hwf2.visAsn x h
    · exact hwf2.visS x ((hK1 x).mp h).1
  · intro x hx
    rcases hwf2.visCases x hx with h | h
    · rw [← hCT] at h
      rcases List.mem_append.mp h with h2 | h2
      · exact Or.inr ((hasn' x).mpr (Or.inr h2))
      · exact Or.inl h2
    · exact Or.inr ((hasn' x).mpr (Or.inl h))
  · show ((st2.components ++ [P ++ [u]]).flatten ++ T).Nodup
    have h1 : (st2.components ++ [P ++ [u]]).flatten ++ T =
        st2.components.flatten ++ ((P ++ [u]) ++ T) := by
      simp [List.flatten_append, List.append_assoc]
    rw [h1, hCT]
    exact hwf2.nodup
  · intro x
    dsimp only
    by_cases hx : x ∈ P ++ [u]
    · rw [if_pos hx]
      have hxT : x ∉ T := by
        intro h
        have := hCT ▸ hSnd
        rw [List.nodup_append] at this
        exact this.2.2 hx h
      simp [hxT]
    · rw [if_neg hx]
      rw [hwf2.onstack x, ← hCT, List.mem_append]
      constructor
      · intro h
        rcases h with h | h
        · exact absurd h hx
        · exact h
      · exact fun h => Or.inr h
  · intro x hx
    exact hwf2.visNodes x hx
  · have hch := hwf2.stackDec
    rw [hPT, List.chain'_append] at hch
    exact (List.chain'_cons'.mp hch.2.1).2
  · intro x hx
    obtain ⟨z, hz, hzi, hzr⟩ := hwf2.lowWit x (hTsub x hx)
    have hlx : lowv st2 x ≤ idxv st2 x := hwf2.lowLe x (hwf2.visS x (hTsub x hx))
    have hxlt := hS0lt x hx
    have hzidx : idxv st2 z = lowv st2 x := by rw [idxv, hzi]; rfl
    have hzT : z ∈ T := by
      rw [← hCT] at hz
      rcases List.mem_append.mp hz with h | h
      · exfalso
        have := ((hK1 z).mp h).2
        omega
      · exact h
    exact ⟨z, hzT, hzi, hzr⟩
  · intro x hx hng
    have hxu : x ≠ u := fun h => huT (h ▸ hx)
    exact hwf2.lowStrict x (hTsub x hx) (by
      intro h
      rcases List.mem_cons.mp h with h | h
      · exact hxu h
      · exact hng h)
  · intro x hx y hy hxy
    exact hwf2.upReach x (hTsub x hx) y (hTsub y hy) hxy
  · exact hgso
  · exact (List.chain'_cons'.mp hwf2.graysChain).2
  · intro c hc
    rcases List.mem_append.mp hc with h | h
    · exact hwf2.compNE c h
    · rw [List.mem_singleton] at h
      rw [h]
      simp
  · intro c hc x hx y hy
    rcases List.mem_append.mp hc with h | h
    · exact hwf2.compSCC c h x hx y hy
    · rw [List.mem_singleton] at h
      subst h
      exact ⟨(hK3' x hx).trans (hK2 y hy), (hK3' y hy).trans (hK2 x hx)⟩
  · intro c hc x hx y hy
    rcases List.mem_append.mp hc with h | h
    · exact hwf2.compMax c h x hx y hy
    · rw [List.mem_singleton] at h
      subst h
      exact hK6 y ((hK2 x hx).trans hy.1) (hy.2.trans (hK3' x hx))
  · intro k hk x hx w hw
    dsimp only at hk hx ⊢
    rw [List.length_append, List.length_singleton] at hk
    by_cases hkl : k < st2.components.length
    · have hget : (st2.components ++ [P ++ [u]]).get ⟨k, by simp; omega⟩ =
          st2.components.get ⟨k, hkl⟩ := by
        rw [List.get_append]
      rw [hget] at hx
      have := hwf2.compClosed k hkl x hx w hw
      have htake : (st2.components ++ [P ++ [u]]).take (k + 1) =
          st2.components.take (k + 1) := by
        rw [List.take_append_of_le_length (by omega)]
      rw [htake]
      exact this
    · have hkeq : k = st2.components.length := by omega
      subst hkeq
      have hget : (st2.components ++ [P ++ [u]]).get
          ⟨st2.components.length, by simp⟩ = P ++ [u] := by
        simp
      rw [hget] at hx
      have htake : (st2.components ++ [P ++ [u]]).take
          (st2.components.length + 1) = st2.components ++ [P ++ [u]] := by
        apply List.take_of_length_le
        simp
      rw [htake]
      rcases hK5 x hx w hw with h | h
      · exact (hasn' w).mpr (Or.inl h)
      · exact (hasn' w).mpr (Or.inr h)
  · intro x hvx hnx
    rcases hwf2.visCases x hvx with h | h
    · exact (hasn' x).mpr (Or.inr ((hK1 x).mpr ⟨h, hnx⟩))
    · exact (hasn' x).mpr (Or.inl h)

/-- Visitedness is monotone along an evolution. -/
theorem sccEvol_vis_mono {st st2 : SccState} (h : SccEvol st st2) {x : Nat}
    (hx : svis st x) : svis st2 x := by
  rw [svis, h.idxFrozen x hx]
  exact hx

/-- Indices of visited nodes are unchanged along an evolution. -/
theorem sccEvol_idx_eq {st st2 : SccState} (h : SccEvol st st2) {x : Nat}
    (hx : svis st x) : idxv st2 x = idxv st x := by
  rw [idxv, h.idxFrozen x hx, idxv]

/-- Assignment to a component is monotone along an evolution. -/
theorem sccEvol_asn_mono {st st2 : SccState} (h : SccEvol st st2) {x : Nat}
    (hx : asn st x) : asn st2 x := by
  obtain ⟨cs, hcs⟩ := h.compExt
  rw [asn, hcs, List.flatten_append]
  exact List.mem_append_left _ hx

/-- A state transition that keeps the indices, counter, stack and
components evolves the state. -/
theorem sccEvol_of_same {st st2 : SccState} (h1 : st2.indices = st.indices)
    (h2 : st2.index = st.index) (h3 : st2.S = st.S)
    (h4 : st2.components = st.components) : SccEvol st st2 := by
  refine ⟨fun x _ => by rw [h1], by rw [h2], ?_, ⟨[], by rw [h3]; rfl,
    by simp⟩, ⟨[], by rw [h4]; simp⟩⟩
  intro x i hx hi
  rw [h1] at hi
  rw [hi] at hx
  simp at hx

/-- Filtering with a pointwise weaker predicate keeps at most as many
elements. -/
theorem filter_length_le_of_imp {p q : Nat → Bool}
    (h : ∀ x, q x = true → p x = true) :
    ∀ l : List Nat, (l.filter q).length ≤ (l.filter p).length := by
  intro l
  induction l with
  | nil => simp
  | cons x xs ih =>
    rw [List.filter_cons, List.filter_cons]
    by_cases hq : q x = true
    · rw [if_pos hq, if_pos (h x hq)]
      simpa using ih
    · rw [if_neg hq]
      by_cases hp : p x = true
      · rw [if_pos hp]
        exact le_trans ih (by simp)
      · rw [if_neg hp]
        exact ih

/-- The unvisited count never grows along an evolution. -/
theorem sccEvol_unvisited_le {g : SGraph} {st st2 : SccState}
    (h : SccEvol st st2) : unvisitedCount g st2 ≤ unvisitedCount g st := by
  apply filter_length_le_of_imp
  intro x hx
  by_cases hv : (st.indices x).isSome = true
  · rw [h.idxFrozen x hv] at hx
    rw [Option.isNone_iff_eq_none] at hx
    rw [hx] at hv
    simp at hv
  · simpa using hv

/-- Unfolding the edge loop on the empty list. -/
theorem scc_visit_fold_nil (g : SGraph) (fuel u : Nat) (st : SccState) :
    scc_visit_fold g fuel u [] st = st := by
  rw [scc_visit_fold]

/-- Unfolding the edge loop on a nonempty list. -/
theorem scc_visit_fold_cons (g : SGraph) (fuel u v : Nat) (rest : List Nat)
    (st : SccState) :
    scc_visit_fold g fuel u (v :: rest) st =
      scc_visit_fold g fuel u rest
        (if (st.indices v).isNone then
          { scc_visit g fuel v st with
            lowlinks := fun x => if x = u then
                some (min (((scc_visit g fuel v st).lowlinks u).getD 0)
                  (((scc_visit g fuel v st).lowlinks v).getD 0))
              else (scc_visit g fuel v st).lowlinks x }
         else if st.onStack v then
          { st with
            lowlinks := fun x => if x = u then
                some (min ((st.lowlinks u).getD 0) ((st.lowlinks v).getD 0))
              else st.lowlinks x }
         else st) := by
  rw [scc_visit_fold]

/-- Unfolding one visit with positive fuel. -/
theorem scc_visit_succ (g : SGraph) (fuel u : Nat) (st : SccState) :
    scc_visit g (fuel + 1) u st =
      (if (scc_visit_fold g fuel u (g.edges u)
            { st with
              indices := fun x => if x = u then some st.index else st.indices x
              lowlinks := fun x => if x = u then some st.index else st.lowlinks x
              index := st.index + 1
              S := u :: st.S
              onStack := fun x => if x = u then true else st.onStack x }).indices u =
          (scc_visit_fold g fuel u (g.edges u)
            { st with
              indices := fun x => if x = u then some st.index else st.indices x
              lowlinks := fun x => if x = u then some st.index else st.lowlinks x
              index := st.index + 1
              S := u :: st.S
              onStack := fun x => if x = u then true else st.onStack x }).lowlinks u
       then
         { scc_visit_fold g fuel u (g.edges u)
            { st with
              indices := fun x => if x = u then some st.index else st.indices x
              lowlinks := fun x => if x = u then some st.index else st.lowlinks x
              index := st.index + 1
              S := u :: st.S
              onStack := fun x => if x = u then true else st.onStack x } with
           S := ((scc_visit_fold g fuel u (g.edges u)
            { st with
              indices := fun x => if x = u then some st.index else st.indices x
              lowlinks := fun x => if x = u then some st.index else st.lowlinks x
              index := st.index + 1
              S := u :: st.S
              onStack := fun x => if x = u then true else st.onStack x }).S.dropWhile
                (fun v => v ≠ u)).tail
           onStack := fun x => if x ∈ (scc_visit_fold g fuel u (g.edges u)
            { st with
              indices := fun x => if x = u then some st.index else st.indices x
              lowlinks := fun x => if x = u then some st.index else st.lowlinks x
              index := st.index + 1
              S := u :: st.S
              onStack := fun x => if x = u then true else st.onStack x }).S.takeWhile
                (fun v => v ≠ u) ++ [u] then false
             else (scc_visit_fold g fuel u (g.edges u)
            { st with
              indices := fun x => if x = u then some st.index else st.indices x
              lowlinks := fun x => if x = u then some st.index else st.lowlinks x
              index := st.index + 1
              S := u :: st.S
              onStack := fun x => if x = u then true else st.onStack x }).onStack x
           components := (scc_visit_fold g fuel u (g.edges u)
            { st with
              indices := fun x => if x = u then some st.index else st.indices x
              lowlinks := fun x => if x = u then some st.index else st.lowlinks x
              index := st.index + 1
              S := u :: st.S
              onStack := fun x => if x = u then true else st.onStack x }).components ++
             [(scc_visit_fold g fuel u (g.edges u)
            { st with
              indices := fun x => if x = u then some st.index else st.indices x
              lowlinks := fun x => if x = u then some st.index else st.lowlinks x
              index := st.index + 1
              S := u :: st.S
              onStack := fun x => if x = u then true else st.onStack x }).S.takeWhile
                (fun v => v ≠ u) ++ [u]] }
       else scc_visit_fold g fuel u (g.edges u)
            { st with
              indices := fun x => if x = u then some st.index else st.indices x
              lowlinks := fun x => if x = u then some st.index else st.lowlinks x
              index := st.index + 1
              S := u :: st.S
              onStack := fun x => if x = u then true else st.onStack x }) := by
  rw [scc_visit]

/-- One level of the mutual induction: the edge loop is correct at a given
fuel whenever nested visits at the same fuel are. -/
theorem scc_fold_step {g : SGraph} (h3 : ∀ x : Nat, ∀ y ∈ g.edges x, y ∈ g.nodes)
    {fuel : Nat} (hP : SccVisitOK g fuel) : SccFoldOK g fuel := by
  intro u es
  induction es with
  | nil =>
    intro st gs hwf huS hes hfuel
    rw [scc_visit_fold_nil]
    refine ⟨hwf, sccEvol_refl, fun _ _ _ => rfl, le_refl _, huS, ?_, ?_, ?_, ?_⟩
    · intro w hw
      exact absurd hw (List.not_mem_nil w)
    · intro w hw
      exact absurd hw (List.not_mem_nil w)
    · intro x hfx hvx
      exact absurd hvx hfx
    · intro x hfx hxS
      exact absurd (hwf.visS x hxS) hfx
  | cons v rest ih =>
    intro st gs hwf huS hes hfuel
    have hvedge : v ∈ g.edges u := hes v (List.mem_cons_self v rest)
    have hrest_edges : ∀ w ∈ rest, w ∈ g.edges u :=
      fun w hw => hes w (List.mem_cons_of_mem v hw)
    have hvisu : svis st u := hwf.visS u huS
    rw [scc_visit_fold_cons]
    by_cases hvn : (st.indices v).isNone
    · rw [if_pos hvn]
      have hvunv : ¬ svis st v := by
        rw [svis]
        rw [Option.isNone_iff_eq_none] at hvn
        rw [hvn]
        simp
      obtain ⟨cwf, cevol, cfr, cidx, cobl, cS7, cdich⟩ :=
        hP v st (u :: gs) hwf (h3 u v hvedge) hvunv
          (Or.inr ⟨u, gs, rfl, hvedge⟩) hfuel
      set stv := scc_visit g fuel v st with hstv
      have huSv : u ∈ stv.S := by
        obtain ⟨Y, hY, _⟩ := cevol.stackExt
        rw [hY]
        exact List.mem_append_right Y huS
      have hfru : stv.lowlinks u = st.lowlinks u := cfr u hvisu
      have hlowvu : lowv stv u = lowv st u := by rw [lowv, hfru, lowv]
      have hvisvu : svis stv u := sccEvol_vis_mono cevol hvisu
      have hvisvv : svis stv v := by
        rw [svis, cidx]
        rfl
      have hwit : lowv stv v < lowv stv u →
          ∃ z ∈ stv.S, stv.indices z = some (lowv stv v) ∧ Reach g u z := by
        intro hlt
        rcases cdich with ⟨hroot, _, _⟩ | ⟨_, _, z, hzS, hzi, hzr⟩
        · exfalso
          have hidxu : idxv st u < st.index := by
            have hv2 := hvisu
            rw [svis, Option.isSome_iff_exists] at hv2
            obtain ⟨i, hi⟩ := hv2
            have := hwf.idxLt u i hi
            rw [idxv, hi]
            exact this
          have hle := hwf.lowLe u hvisu
          rw [hroot, hlowvu] at hlt
          omega
        · refine ⟨z, ?_, ?_, ?_⟩
          · obtain ⟨Y, hY, _⟩ := cevol.stackExt
            rw [hY]
            exact List.mem_append_right Y hzS
          · rw [cevol.idxFrozen z (hwf.visS z hzS), hzi]
          · exact (Relation.ReflTransGen.single hvedge).trans hzr
      have cwf2 := scc_lowupd_wf cwf huSv hwit
      set st2 : SccState :=
        { stv with lowlinks :=
            fun x => if x = u then some (min (lowv stv u) (lowv stv v))
              else stv.lowlinks x } with hst2
      have hrecord : ({ stv with lowlinks :=
          fun x => if x = u then some (min ((stv.lowlinks u).getD 0)
            ((stv.lowlinks v).getD 0)) else stv.lowlinks x } : SccState) =
            st2 := rfl
      rw [hrecord]
      have hcount2 : unvisitedCount g st2 < fuel := by
        have h1 : unvisitedCount g st2 = unvisitedCount g stv := rfl
        have h2 := sccEvol_unvisited_le (g := g) cevol
        omega
      have huS2 : u ∈ st2.S := huSv
      obtain ⟨rwf, revol, rfr, rle, ruS, rvis, rbound, rfresh6, rfresh7⟩ :=
        ih st2 gs cwf2 huS2 hrest_edges hcount2
      set stf := scc_visit_fold g fuel u rest st2 with hstf
      have hevolv2 : SccEvol stv st2 := sccEvol_of_same rfl rfl rfl rfl
      have hevol0 : SccEvol st st2 := sccEvol_trans cevol hevolv2
      have hlow2u : lowv st2 u = min (lowv stv u) (lowv stv v) := by
        rw [hst2]
        simp [lowv]
      refine ⟨rwf, sccEvol_trans hevol0 revol, ?_, ?_, ruS, ?_, ?_, ?_, ?_⟩
      · intro x hx hxu
        have hx2 : svis st2 x := sccEvol_vis_mono hevol0 hx
        rw [rfr x hx2 hxu]
        have hstep : st2.lowlinks x = stv.lowlinks x := by
          rw [hst2]
          simp [hxu]
        rw [hstep, cfr x hx]
      · have h1 : lowv stf u ≤ lowv st2 u := rle
        rw [hlow2u] at h1
        rw [← hlowvu]
        exact le_trans h1 (min_le_left _ _)
      · intro w hw
        rcases List.mem_cons.mp hw with rfl | hw2
        · exact sccEvol_vis_mono revol (show svis st2 w from hvisvv)
        · exact rvis w hw2
      · intro w hw
        rcases List.mem_cons.mp hw with rfl | hw2
        · right
          have hvv2 : svis st2 w := hvisvv
          calc lowv stf u ≤ lowv st2 u := rle
            _ = min (lowv stv u) (lowv stv w) := hlow2u
            _ ≤ lowv stv w := min_le_right _ _
            _ ≤ idxv stv w := cwf.lowLe w hvisvv
            _ = idxv st2 w := rfl
            _ = idxv stf w := (sccEvol_idx_eq revol hvv2).symm
        · exact rbound w hw2
      · intro x hfx hvx w hw
        by_cases hx2 : svis st2 x
        · have hxstv : svis stv x := hx2
          obtain ⟨hwvis, hwb⟩ := cobl x hfx hxstv w hw
          refine ⟨sccEvol_vis_mono revol (show svis st2 w from hwvis), ?_⟩
          rcases hwb with hasn | hb
          · left
            exact sccEvol_asn_mono revol (show asn st2 w from hasn)
          · right
            have hlef : lowv stf u ≤ lowv stv v := by
              have h1 : lowv stf u ≤ lowv st2 u := rle
              rw [hlow2u] at h1
              exact le_trans h1 (min_le_right _ _)
            refine le_trans hlef ?_
            have hwv : svis st2 w := hwvis
            rw [sccEvol_idx_eq revol hwv]
            exact hb
        · exact rfresh6 x hx2 hvx w hw
      · intro x hfx hxS
        by_cases hx2 : svis st2 x
        · have hxstv : svis stv x := hx2
          have hxu : x ≠ u := fun h => hfx (h ▸ hvisu)
          obtain ⟨Y, hY, hYf⟩ := revol.stackExt
          have hxS2 : x ∈ st2.S := by
            rw [hY] at hxS
            rcases List.mem_append.mp hxS with h | h
            · exfalso
              have hh : (st2.indices x).isSome = true := hx2
              rw [hYf x h] at hh
              exact absurd hh (by simp)
            · exact h
          have hchain := cS7 x hfx hxS2
          have hfr_x : stf.lowlinks x = st2.lowlinks x := rfr x hx2 hxu
          have hst2x : st2.lowlinks x = stv.lowlinks x := by
            rw [hst2]
            simp [hxu]
          have hlx : lowv stf x = lowv stv x := by
            rw [lowv, hfr_x, hst2x, lowv]
          rw [hlx]
          calc lowv stf u ≤ lowv st2 u := rle
            _ = min (lowv stv u) (lowv stv v) := hlow2u
            _ ≤ lowv stv v := min_le_right _ _
            _ ≤ lowv stv x := hchain
        · exact rfresh7 x hx2 hxS
    · rw [if_neg hvn]
      have hvisv : svis st v := by
        rw [svis]
        cases ho : st.indices v with
        | none =>
          rw [ho] at hvn
          exact absurd rfl hvn
        | some i => rfl
      by_cases hos : st.onStack v = true
      · rw [if_pos hos]
        have hvS : v ∈ st.S := (hwf.onstack v).mp hos
        have hwit : lowv st v < lowv st u →
            ∃ z ∈ st.S, st.indices z = some (lowv st v) ∧ Reach g u z := by
          intro _
          obtain ⟨z, hzS, hzi, hzr⟩ := hwf.lowWit v hvS
          exact ⟨z, hzS, hzi, (Relation.ReflTransGen.single hvedge).trans hzr⟩
        have cwf2 := scc_lowupd_wf hwf huS hwit
        set st2 : SccState :=
          { st with lowlinks :=
              fun x => if x = u then some (min (lowv st u) (lowv st v))
                else st.lowlinks x } with hst2
        have hrecord : ({ st with lowlinks :=
            fun x => if x = u then some (min ((st.lowlinks u).getD 0)
              ((st.lowlinks v).getD 0)) else st.lowlinks x } : SccState) =
              st2 := rfl
        rw [hrecord]
        have hcount2 : unvisitedCount g st2 < fuel := hfuel
        have huS2 : u ∈ st2.S := huS
        obtain ⟨rwf, revol, rfr, rle, ruS, rvis, rbound, rfresh6, rfresh7⟩ :=
          ih st2 gs cwf2 huS2 hrest_edges hcount2
        set stf := scc_visit_fold g fuel u rest st2 with hstf
        have hevol0 : SccEvol st st2 := sccEvol_of_same rfl rfl rfl rfl
        have hlow2u : lowv st2 u = min (lowv st u) (lowv st v) := by
          rw [hst2]
          simp [lowv]
        refine ⟨rwf, sccEvol_trans hevol0 revol, ?_, ?_, ruS, ?_, ?_, ?_, ?_⟩
        · intro x hx hxu
          rw [rfr x (show svis st2 x from hx) hxu]
          rw [hst2]
          simp [hxu]
        · have h1 : lowv stf u ≤ lowv st2 u := rle
          rw [hlow2u] at h1
          exact le_trans h1 (min_le_left _ _)
        · intro w hw
          rcases List.mem_cons.mp hw with rfl | hw2
          · exact sccEvol_vis_mono revol (show svis st2 w from hvisv)
          · exact rvis w hw2
        · intro w hw
          rcases List.mem_cons.mp hw with rfl | hw2
          · right
            have hv2 : svis st2 w := hvisv
            calc lowv stf u ≤ lowv st2 u := rle
              _ = min (lowv st u) (lowv st w) := hlow2u
              _ ≤ lowv st w := min_le_right _ _
              _ ≤ idxv st w := hwf.lowLe w hvisv
              _ = idxv st2 w := rfl
              _ = idxv stf w := (sccEvol_idx_eq revol hv2).symm
          · exact rbound w hw2
        · intro x hfx hvx w hw
          exact rfresh6 x (show ¬ svis st2 x from hfx) hvx w hw
        · intro x hfx hxS
          exact rfresh7 x (show ¬ svis st2 x from hfx) hxS
      · rw [if_neg hos]
        obtain ⟨rwf, revol, rfr, rle, ruS, rvis, rbound, rfresh6, rfresh7⟩ :=
          ih st gs hwf huS hrest_edges hfuel
        have hasnv : asn st v := by
          rcases hwf.visCases v hvisv with h | h
          · exact absurd ((hwf.onstack v).mpr h) hos
          · exact h
        refine ⟨rwf, revol, rfr, rle, ruS, ?_, ?_, rfresh6, rfresh7⟩
        · intro w hw
          rcases List.mem_cons.mp hw with rfl | hw2
          · exact sccEvol_vis_mono revol hvisv
          · exact rvis w hw2
        · intro w hw
          rcases List.mem_cons.mp hw with rfl | hw2
          · left
            exact sccEvol_asn_mono revol hasnv
          · exact rbound w hw2

/-- One level of the mutual induction: a visit with positive fuel is correct
whenever the edge loop at the underlying fuel is. -/
theorem scc_visit_step {g : SGraph} (hnd : g.nodes.Nodup)
    {fuel : Nat} (hQ : SccFoldOK g fuel) : SccVisitOK g (fuel + 1) := by
  intro u st gs hwf hu hvu hgs hfuel
  set st1 : SccState :=
    { st with
      indices := fun x => if x = u then some st.index else st.indices x
      lowlinks := fun x => if x = u then some st.index else st.lowlinks x
      index := st.index + 1
      S := u :: st.S
      onStack := fun x => if x = u then true else st.onStack x } with hst1
  have hwf1 : SccWF g (u :: gs) st1 := scc_push_wf hnd hwf hu hvu hgs
  have huS1 : u ∈ st1.S := List.mem_cons_self u st.S
  have hidx1u : st1.indices u = some st.index := by
    rw [hst1]
    simp
  have hvis1u : svis st1 u := by
    rw [svis, hidx1u]
    rfl
  have hidx1ne : ∀ x, x ≠ u → st1.indices x = st.indices x := by
    intro x hx
    rw [hst1]
    simp [hx]
  have hfresh1 : ∀ x, ¬ svis st x → x ≠ u → (st1.indices x).isSome = false := by
    intro x hfx hxu
    rw [hidx1ne x hxu]
    cases hb : (st.indices x).isSome with
    | false => rfl
    | true => exact absurd hb hfx
  have hfuel1 : unvisitedCount g st1 < fuel := by
    have hpu : (st1.indices u).isNone = false := by
      rw [hidx1u]
      rfl
    have hq : ∀ x, (st.indices x).isNone =
        if x = u then true else (st1.indices x).isNone := by
      intro x
      by_cases hx : x = u
      · subst hx
        rw [if_pos rfl]
        cases ho : st.indices x with
        | none => rfl
        | some i => exact absurd (by rw [svis, ho]; rfl) hvu
      · rw [if_neg hx, hidx1ne x hx]
    have hceq : unvisitedCount g st = unvisitedCount g st1 + 1 :=
      filter_length_update hnd hu hpu hq
    omega
  obtain ⟨hwf2, hevol12, hfr2, hle2, huS2, hvis2, hbound2, hfresh6, hfresh7⟩ :=
    hQ u (g.edges u) st1 gs hwf1 huS1 (fun w hw => hw) hfuel1
  set st2 := scc_visit_fold g fuel u (g.edges u) st1 with hst2
  have hidx2u : st2.indices u = some st.index := by
    rw [hevol12.idxFrozen u hvis1u, hidx1u]
  have hvis2u : svis st2 u := by
    rw [svis, hidx2u]
    rfl
  have hidxv2u : idxv st2 u = st.index := by
    rw [idxv, hidx2u]
    rfl
  have hevol01 : SccEvol st st1 := by
    refine ⟨?_, Nat.le_succ st.index, ?_, ⟨[u], rfl, ?_⟩, ⟨[], by rw [hst1]; simp⟩⟩
    · intro x hx
      have hxu : x ≠ u := fun h => hvu (h ▸ hx)
      exact hidx1ne x hxu
    · intro x i hx hi
      by_cases hxu : x = u
      · subst hxu
        rw [hidx1u] at hi
        injection hi with hi2
        omega
      · have hi2 : st.indices x = some i := by
          rw [← hi]
          exact (hidx1ne x hxu).symm
        rw [hi2] at hx
        simp at hx
    · intro x hx
      rw [List.mem_singleton] at hx
      subst hx
      cases hb : (st.indices x).isSome with
      | false => rfl
      | true => exact absurd hb hvu
  have hevol02 : SccEvol st st2 := sccEvol_trans hevol01 hevol12
  have hfrA : ∀ x, svis st x → st2.lowlinks x = st.lowlinks x := by
    intro x hx
    have hxu : x ≠ u := fun h => hvu (h ▸ hx)
    rw [hfr2 x (sccEvol_vis_mono hevol01 hx) hxu, hst1]
    simp [hxu]
  have hfreshge : ∀ x, ¬ svis st x → svis st2 x → st.index ≤ idxv st2 x := by
    intro x hfx hvx
    by_cases hxu : x = u
    · subst hxu
      exact le_of_eq hidxv2u.symm
    · obtain ⟨i, hi⟩ := Option.isSome_iff_exists.mp hvx
      have hge := hevol12.freshIdx x i (hfresh1 x hfx hxu) hi
      have h1 : st1.index = st.index + 1 := by rw [hst1]
      rw [idxv, hi]
      simp only [Option.getD_some]
      omega
  have hfreshrev : ∀ x, svis st2 x → st.index ≤ idxv st2 x → ¬ svis st x := by
    intro x hvx hge hfx
    obtain ⟨i, hi⟩ := Option.isSome_iff_exists.mp hfx
    have hlt := hwf.idxLt x i hi
    have heq : idxv st2 x = i := by
      rw [idxv, hevol02.idxFrozen x hfx, hi]
      rfl
    omega
  obtain ⟨Yf, hYf, hYffresh⟩ := hevol12.stackExt
  have hS2eq : st2.S = Yf ++ u :: st.S := by
    rw [hYf, hst1]
  have hYfge : ∀ x ∈ Yf, st.index + 1 ≤ idxv st2 x := by
    intro x hx
    have hxS : x ∈ st2.S := by
      rw [hYf]
      exact List.mem_append_left _ hx
    have hvx : svis st2 x := hwf2.visS x hxS
    obtain ⟨i, hi⟩ := Option.isSome_iff_exists.mp hvx
    have hge := hevol12.freshIdx x i (hYffresh x hx) hi
    have h1 : st1.index = st.index + 1 := by rw [hst1]
    rw [idxv, hi]
    simp only [Option.getD_some]
    omega
  have holdlt : ∀ x ∈ st.S, idxv st2 x < st.index := by
    intro x hx
    have hvx : svis st x := hwf.visS x hx
    obtain ⟨i, hi⟩ := Option.isSome_iff_exists.mp hvx
    have hlt := hwf.idxLt x i hi
    have heq : idxv st2 x = i := by
      rw [idxv, hevol02.idxFrozen x hvx, hi]
      rfl
    omega
  by_cases hcond : st2.indices u = st2.lowlinks u
  · have hlowu : lowv st2 u = st.index := by
      rw [lowv, ← hcond, hidx2u]
      rfl
    obtain ⟨hsplit1, hsplitPu⟩ := stack_split huS2
    set P := st2.S.takeWhile (fun v => decide (v ≠ u)) with hPdef
    set T := (st2.S.dropWhile (fun v => decide (v ≠ u))).tail with hTdef
    have hPT : st2.S = P ++ u :: T := hsplit1.symm
    have hobl : ∀ x, svis st2 x → st.index ≤ idxv st2 x → ∀ w ∈ g.edges x,
        svis st2 w ∧ (asn st2 w ∨ st.index ≤ idxv st2 w) := by
      intro x hvx hge w hw
      have hfx : ¬ svis st x := hfreshrev x hvx hge
      by_cases hxu : x = u
      · subst hxu
        refine ⟨hvis2 w hw, ?_⟩
        rcases hbound2 w hw with h | h
        · exact Or.inl h
        · right
          rw [hlowu] at h
          exact h
      · have h1 := hfresh6 x (by rw [svis, hfresh1 x hfx hxu]; simp) hvx w hw
        refine ⟨h1.1, ?_⟩
        rcases h1.2 with h | h
        · exact Or.inl h
        · right
          rw [hlowu] at h
          exact h
    have hV10 : ∀ x ∈ st2.S, st.index ≤ idxv st2 x → st.index ≤ lowv st2 x := by
      intro x hxS hge
      have hvx : svis st2 x := hwf2.visS x hxS
      have hfx : ¬ svis st x := hfreshrev x hvx hge
      by_cases hxu : x = u
      · subst hxu
        exact le_of_eq hlowu.symm
      · have h1 := hfresh7 x (by rw [svis, hfresh1 x hfx hxu]; simp) hxS
        rw [hlowu] at h1
        exact h1
    have hsplitY : ∃ Y, st2.S = Y ++ st.S ∧ (∀ x ∈ Y, st.index ≤ idxv st2 x) ∧
        (∀ x ∈ st.S, idxv st2 x < st.index) := by
      refine ⟨Yf ++ [u], ?_, ?_, holdlt⟩
      · rw [hS2eq]
        simp
      · intro x hx
        rcases List.mem_append.mp hx with h | h
        · have := hYfge x h
          omega
        · rw [List.mem_singleton] at h
          subst h
          exact le_of_eq hidxv2u.symm
    have hgso : ∀ y ∈ gs, y ∈ st.S := fun y hy => hwf.graysS y hy
    obtain ⟨hwfP, hTS, hasnP⟩ :=
      scc_pop_wf hwf2 hPT hsplitPu hidx2u hsplitY hgso hobl hV10
    set stP : SccState :=
      { st2 with
        S := T
        onStack := fun x => if x ∈ P ++ [u] then false else st2.onStack x
        components := st2.components ++ [P ++ [u]] } with hstP
    have hrun : scc_visit g (fuel + 1) u st = stP := by
      rw [scc_visit_succ, ← hst1, ← hst2, if_pos hcond, hstP, hPdef, hTdef]
    rw [hrun]
    have hPS : stP.S = st.S := hTS
    refine ⟨hwfP, ?_, ?_, hidx2u, ?_, ?_, ?_⟩
    · obtain ⟨cs2, hcs2⟩ := hevol02.compExt
      refine ⟨fun x hx => hevol02.idxFrozen x hx, hevol02.idxMono,
        hevol02.freshIdx, ⟨[], by simp [hTS], by simp⟩,
        ⟨cs2 ++ [P ++ [u]], ?_⟩⟩
      have hcomp : stP.components = st2.components ++ [P ++ [u]] := rfl
      rw [hcomp, hcs2, List.append_assoc]
    · exact fun x hx => hfrA x hx
    · intro x hfx hvx w hw
      have hge := hfreshge x hfx hvx
      obtain ⟨hwvis, hwb⟩ := hobl x hvx hge w hw
      refine ⟨hwvis, ?_⟩
      rcases hwb with h | h
      · left
        have hcomp : stP.components = st2.components ++ [P ++ [u]] := rfl
        rw [asn, hcomp, List.flatten_append]
        exact List.mem_append_left _ h
      · right
        have h2 : lowv stP u = st.index := hlowu
        rw [h2]
        exact h
    · intro x hfx hxS
      rw [hPS] at hxS
      exact absurd (hwf.visS x hxS) hfx
    · left
      exact ⟨hlowu, hPS, hasnP u hvis2u (le_of_eq hidxv2u.symm)⟩
  · have hrun : scc_visit g (fuel + 1) u st = st2 := by
      rw [scc_visit_succ, ← hst1, ← hst2, if_neg hcond]
    rw [hrun]
    obtain ⟨m, hm⟩ := Option.isSome_iff_exists.mp ((hwf2.lowSome u).mpr hvis2u)
    have hlowm : lowv st2 u = m := by
      rw [lowv, hm]
      rfl
    have hmne : m ≠ st.index := by
      intro h
      exact hcond (by rw [hidx2u, hm, h])
    have hlownr : lowv st2 u < st.index := by
      have hle := hwf2.lowLe u hvis2u
      rw [hidxv2u, hlowm] at hle
      rw [hlowm]
      omega
    have hwfnr : SccWF g gs st2 := by
      refine ⟨hwf2.visS, hwf2.visAsn, hwf2.visCases, hwf2.nodup, hwf2.onstack,
        hwf2.visNodes, hwf2.lowSome, hwf2.idxLt, hwf2.idxInj, hwf2.idxCount,
        hwf2.stackDec, hwf2.lowLe, hwf2.lowWit, ?_, hwf2.upReach, ?_, ?_,
        hwf2.compNE, hwf2.compSCC, hwf2.compMax, hwf2.compClosed⟩
      · intro x hxS hng
        by_cases hxu : x = u
        · subst hxu
          rw [hidxv2u]
          exact hlownr
        · refine hwf2.lowStrict x hxS ?_
          intro hmem
          rcases List.mem_cons.mp hmem with h | h
          · exact hxu h
          · exact hng h
      · exact fun y hy => hwf2.graysS y (List.mem_cons_of_mem u hy)
      · exact hwf2.graysChain.tail
    refine ⟨hwfnr, hevol02, hfrA, hidx2u, ?_, ?_, ?_⟩
    · intro x hfx hvx w hw
      by_cases hxu : x = u
      · subst hxu
        exact ⟨hvis2 w hw, hbound2 w hw⟩
      · exact hfresh6 x (by rw [svis, hfresh1 x hfx hxu]; simp) hvx w hw
    · intro x hfx hxS
      by_cases hxu : x = u
      · subst hxu
        exact le_refl _
      · exact hfresh7 x (by rw [svis, hfresh1 x hfx hxu]; simp) hxS
    · right
      refine ⟨hlownr, huS2, ?_⟩
      obtain ⟨z, hzS, hzi, hzr⟩ := hwf2.lowWit u huS2
      have hzidx : idxv st2 z = lowv st2 u := by
        rw [idxv, hzi]
        rfl
      have hzS0 : z ∈ st.S := by
        rw [hS2eq] at hzS
        rcases List.mem_append.mp hzS with h | h
        · exfalso
          have := hYfge z h
          omega
        · rcases List.mem_cons.mp h with h2 | h2
          · exfalso
            subst h2
            rw [hidxv2u] at hzidx
            omega
          · exact h2
      refine ⟨z, hzS0, ?_, hzr⟩
      rw [← hevol02.idxFrozen z (hwf.visS z hzS0)]
      exact hzi

/-- The one-phase contracted graph orders trivially; shared by the two
phase-ordering scenarios. -/
theorem sat_topo_single :
    sat_topological_order
      ({ nodes := [0], edges := fun _ => [], sat := [] } : SGraph) =
      .ok [0] := by
  simp [sat_topological_order, sg_preprocess, check_acyclical,
    check_acyclical_go, dfs_visit, dfs_visit_fold, preprocess_go,
    preprocess_step, split_graph, strongly_connected_components,
    scc_components_go, scc_visit, scc_visit_fold, scc_initial, subgraph,
    sg_add_node, sg_add_edge, add_node, add_edge, emptyGraph, insertSorted,
    sat_topo_fold, auto_topological_order, bruteforce_satisfiable_edges,
    bf_sat_loop, bruteforce_subset, minimum_satisfiable_edges,
    topological_order, topo_visit_fold, pairGe, expand_paths,
    expand_replace, paths, paths_fold, uf_union, List.range,
    List.range.loop, List.enum, List.enumFrom, List.indexOf, List.findIdx,
    List.findIdx.go]

/-- C1, divergence: on the pipeline whose two phases carry mutual
non-evacuatable memory-share dependencies, both edges are classified green
(the duplicate checks do not fire), the whole cycle is contracted into one
node, the contracted ordering succeeds, and the uncaught green-path
expansion then raises not_a_dag_exception — not the
can't-satisfy-all-green-edges exception the claim requires. -/
theorem c1_counterexample :
    get_phases_order 2 c1rels = .error .notADag ∧
    Err.notADag ≠ Err.cannotSatisfyAllGreenEdges := by
  constructor
  · have hcls : classify_edges c1rels [] [] [] =
        .ok ([], [], [(0, 1), (1, 0)]) := by rfl
    unfold get_phases_order
    rw [hcls]
    dsimp only
    have hcg : contracted_graph 2 (green_uf [(0, 1), (1, 0)]) [] [] =
        ({ nodes := [0], edges := fun _ => [], sat := [] } : SGraph) := by rfl
    rw [hcg, sat_topo_single]
    dsimp only
    have hexp : expand_paths
        (green_paths (green_uf [(0, 1), (1, 0)]) [(0, 1), (1, 0)]) [0] =
        .error .notADag := by
      simp [expand_paths, expand_replace, green_paths, paths_update,
        topological_order, topo_visit_fold, dfs_visit, dfs_visit_fold,
        add_edge, add_node, emptyGraph, insertSorted, green_uf, uf_union]
    rw [hexp]
  · decide

/-- C2, divergence: on the pipeline with a green memory-share dependency
0 → 1 and an ordinary dependency 1 → 0, the black edge contracts to a
self-loop of the green component and is dropped, no acyclicity check ever
sees the phase cycle, and get_phases returns normally with the order 0, 1
— which runs the source phase of the dependency edge (1, 0) after its
destination, so the result is not a topological order. -/
theorem c2_counterexample :
    get_phases_order 2 c2rels = .ok [0, 1] ∧
    PhaseRel.mk 1 0 .depends true ∈ c2rels ∧
    ¬ order_respects [0, 1] ⟨1, 0, .depends, true⟩ := by
  refine ⟨?_, by simp [c2rels], ?_⟩
  · have hcls : classify_edges c2rels [] [] [] =
        .ok ([(1, 0)], [], [(0, 1)]) := by rfl
    unfold get_phases_order
    rw [hcls]
    dsimp only
    have hcg : contracted_graph 2 (green_uf [(0, 1)]) [(1, 0)] [] =
        ({ nodes := [0], edges := fun _ => [], sat := [] } : SGraph) := by rfl
    rw [hcg, sat_topo_single]
    dsimp only
    have hexp : expand_paths (green_paths (green_uf [(0, 1)]) [(0, 1)]) [0] =
        .ok [0, 1] := by
      simp [expand_paths, expand_replace, green_paths, paths_update,
        topological_order, topo_visit_fold, dfs_visit, dfs_visit_fold,
        add_edge, add_node, emptyGraph, insertSorted, green_uf, uf_union,
        pairGe, List.mergeSort, List.merge]
    rw [hexp]
    dsimp only
    have hperm : inverse_permutation [0, 1] = .ok [0, 1] := by
      simp [inverse_permutation, inv_perm_go]
    rw [hperm]
  · unfold order_respects
    decide

/-- C3 as amended: for every pipeline run to completion via runtime::go over
a final phase order with globally distinct node ids, the number of evacuate()
calls equals the number of nodes outside the final phase that can evacuate
and are the source of at least one memory_share_depends edge whose endpoint
phases are non-adjacent in the final order (one call per such source node,
not per edge). -/
theorem c3_evacuate_call_count (rels : List Relation)
    (phases : List (List ExecNode))
    (hnodup : (phases.flatten.map (·.id)).Nodup) :
    ∀ evs, runtime_go rels phases = .ok evs →
      evac_count evs = (evacuated_nodes rels phases).length := by
  intro evs hok
  unfold runtime_go at hok
  cases hens : ensure_initiators rels phases with
  | error e =>
    rw [hens] at hok
    exact absurd hok (by simp)
  | ok u =>
    rw [hens] at hok
    simp only [Except.ok.injEq] at hok
    subst hok
    rw [evac_count_go_until_trace]
    unfold evacuated_nodes
    congr 1
    apply List.filter_congr
    intro n hn
    have hnf : n ∈ phases.flatten := by
      rw [List.mem_flatten] at hn ⊢
      obtain ⟨ph, hph, hm⟩ := hn
      exact ⟨ph, List.dropLast_subset _ hph, hm⟩
    have hiff := @mem_evacuate_when_done_iff rels phases n hnodup hnf
    cases hcan : n.can_evacuate with
    | false => simp
    | true =>
      simp only [Bool.and_true, Bool.true_and]
      rw [Bool.eq_iff_iff]
      simp only [List.any_eq_true, Bool.and_eq_true, beq_iff_eq]
      constructor
      · intro hcont
        have hmem : n.id ∈ evacuate_when_done rels phases := by
          simpa using hcont
        obtain ⟨r, hr, hu, hs⟩ := hiff.mp hmem
        exact ⟨r, hr, hu, hs⟩
      · rintro ⟨r, hr, hu, hs⟩
        have hmem : n.id ∈ evacuate_when_done rels phases :=
          hiff.mpr ⟨r, hr, hu, hs⟩
        simpa using hmem

/-- C3 witness: three singleton phases [0], [1], [2] with a
memory_share_depends of node 2 on node 0; the unique non-adjacent edge source
node 0 is evacuated exactly once. -/
theorem c3_witness :
    evac_count [Ev.go 0, Ev.evac 0, Ev.go 1, Ev.go 2] =
      (evacuated_nodes [⟨2, 0, .memory_share_depends⟩]
        [[⟨0, true⟩], [⟨1, true⟩], [⟨2, true⟩]]).length :=
  c3_evacuate_call_count [⟨2, 0, .memory_share_depends⟩]
    [[⟨0, true⟩], [⟨1, true⟩], [⟨2, true⟩]] (by decide)
    [Ev.go 0, Ev.evac 0, Ev.go 1, Ev.go 2] rfl

/-- C3 counterexample: a pipeline of four singleton phases P0=[0], P1=[1],
P2=[2], P3=[3] where nodes 2 and 3 each have a memory_share_depends relation
on node 0 (which can evacuate). Both edges are non-adjacent in the final
order, so the claim counts 2, but the evacuateWhenDone set contains node 0
only once and runtime::go performs exactly one evacuate() call. -/
theorem c3_counterexample :
    (runtime_go
        [⟨2, 0, .memory_share_depends⟩, ⟨3, 0, .memory_share_depends⟩]
        [[⟨0, true⟩], [⟨1, true⟩], [⟨2, true⟩], [⟨3, true⟩]]).map evac_count =
      .ok 1 ∧
    unsatisfied_msd_count
        [⟨2, 0, .memory_share_depends⟩, ⟨3, 0, .memory_share_depends⟩]
        [[⟨0, true⟩], [⟨1, true⟩], [⟨2, true⟩], [⟨3, true⟩]] = 2 := by
  constructor <;> rfl

/-- C9: get_block_check raises the end-of-stream error exactly when the
requested block index times the number of items per block strictly exceeds the
file's item count; when the file holds exactly n full blocks, requesting block
n does not raise. -/
theorem c9_get_block_check_eos (blockItems size block n : Nat) :
    (get_block_check blockItems size block = .error .endOfStream ↔
      block * blockItems > size) ∧
    get_block_check blockItems (n * blockItems) n = .ok () := by
  constructor
  · unfold get_block_check
    split <;> simp_all
  · simp [get_block_check]

/-- C10 counterexample: the claim says the returned value stays the same until
set_block_size is called with a NON-ZERO argument, but calling set_block_size
with a zero argument clears the cache, so a call sequence
set_block_size(5); get_block_size(); set_block_size(0); get_block_size()
(with TPIE_BLOCK_SIZE unset) returns 5 and then 2097152, with no non-zero
set_block_size call between the two reads. -/
theorem c10_counterexample :
    (get_block_size none (set_block_size 5)).1 = 5 ∧
    (get_block_size none (set_block_size 0)).1 = 2097152 ∧
    (get_block_size none (set_block_size 0)).1 ≠
      (get_block_size none (set_block_size 5)).1 := by
  decide

/-- C10 as amended: get_block_size always returns a non-zero value — the cached
or programmatically set value when non-zero, else the environment value when it
parses to a non-zero integer, else the default 2*1024*1024 — and the value is
cached so that subsequent calls (under any environment) return the same value;
set_block_size with a non-zero argument installs that argument, while
set_block_size with zero clears the cache so the next call recomputes from the
environment or the default. -/
theorem c10_get_block_size_cached (env env2 : Option Nat) (s v : Nat) :
    (get_block_size env s).1 ≠ 0 ∧
    (s ≠ 0 → (get_block_size env s).1 = s) ∧
    (s = 0 → env = some v → v ≠ 0 → (get_block_size env s).1 = v) ∧
    (s = 0 → (env = none ∨ env = some 0) →
      (get_block_size env s).1 = 2 * 1024 * 1024) ∧
    ((get_block_size env2 (get_block_size env s).2).1 = (get_block_size env s).1) ∧
    (v ≠ 0 → (get_block_size env (set_block_size v)).1 = v) ∧
    (get_block_size env (set_block_size 0) = get_block_size env 0) := by
  refine ⟨?_, ?_, ?_, ?_, ?_, ?_, ?_⟩
  · unfold get_block_size
    rcases env with _ | e
    · by_cases h : s = 0 <;> simp [h]
    · by_cases h : s = 0 <;> by_cases he : e = 0 <;> simp [h, he]
  · intro h
    simp [get_block_size, h]
  · intro h he hv
    subst he
    simp [get_block_size, h, hv]
  · intro h he
    rcases he with he | he <;> subst he <;> simp [get_block_size, h]
  · unfold get_block_size
    rcases env with _ | e
    · by_cases h : s = 0 <;> simp [h]
    · by_cases h : s = 0 <;> by_cases he : e = 0 <;> simp [h, he]
  · intro hv
    simp [get_block_size, set_block_size, hv]
  · rfl

/-- C10 witness: the amended theorem applied at a concrete state (cached value
7, environment 13). -/
theorem c10_witness :
    (get_block_size (some 13) 7).1 ≠ 0 ∧ (get_block_size (some 13) 7).1 = 7 := by
  refine ⟨(c10_get_block_size_cached (some 13) none 7 13).1, ?_⟩
  exact (c10_get_block_size_cached (some 13) none 7 13).2.1 (by decide)

end TPIE

namespace TPIE

/-- Evaluation of the memory factor for the memory-split scenario: the
bisection performs 21 iterations and stops with c_lo = 2097151/1048576, so
the factor is 800 * c_lo / 4 = 52428775/131072 = 399.99980926513671875, just
below 400. -/
theorem c5_factor_eq :
    get_memory_factor 25 800 0 c5_nodes [] true = 52428775 / 131072 := by
  have he25 : exp_search c5_A 800 4 25 1 0 = exp_search c5_A 800 4 24 2 600 := by
    rw [exp_search]
    norm_num [c5_A, sum_assigned_usage, get_assigned_usage, clamp,
      sum_assigned_memory_locked, c5_nodes]
    simp
  have he24 : exp_search c5_A 800 4 24 2 600 = 2 := by
    rw [exp_search]
    norm_num [c5_A, sum_assigned_usage, get_assigned_usage, clamp,
      sum_assigned_memory_locked, c5_nodes]
    simp
  have hb25 : bin_search c5_A 800 4 25 (0) (2) =
      bin_search c5_A 800 4 24 (1) (2) := by
    rw [bin_search]
    norm_num [c5_A, sum_assigned_usage, get_assigned_usage, clamp,
      sum_assigned_memory_locked, c5_nodes]
    simp
  have hb24 : bin_search c5_A 800 4 24 (1) (2) =
      bin_search c5_A 800 4 23 (3 / 2) (2) := by
    rw [bin_search]
    norm_num [c5_A, sum_assigned_usage, get_assigned_usage, clamp,
      sum_assigned_memory_locked, c5_nodes]
    simp
  have hb23 : bin_search c5_A 800 4 23 (3 / 2) (2) =
      bin_search c5_A 800 4 22 (7 / 4) (2) := by
    rw [bin_search]
    norm_num [c5_A, sum_assigned_usage, get_assigned_usage, clamp,
      sum_assigned_memory_locked, c5_nodes]
    simp
  have hb22 : bin_search c5_A 800 4 22 (7 / 4) (2) =
      bin_search c5_A 800 4 21 (15 / 8) (2) := by
    rw [bin_search]
    norm_num [c5_A, sum_assigned_usage, get_assigned_usage, clamp,
      sum_assigned_memory_locked, c5_nodes]
    simp
  have hb21 : bin_search c5_A 800 4 21 (15 / 8) (2) =
      bin_search c5_A 800 4 20 (31 / 16) (2) := by
    rw [bin_search]
    norm_num [c5_A, sum_assigned_usage, get_assigned_usage, clamp,
      sum_assigned_memory_locked, c5_nodes]
    simp
  have hb20 : bin_search c5_A 800 4 20 (31 / 16) (2) =
      bin_search c5_A 800 4 19 (63 / 32) (2) := by
    rw [bin_search]
    norm_num [c5_A, sum_assigned_usage, get_assigned_usage, clamp,
      sum_assigned_memory_locked, c5_nodes]
    simp
  have hb19 : bin_search c5_A 800 4 19 (63 / 32) (2) =
      bin_search c5_A 800 4 18 (127 / 64) (2) := by
    rw [bin_search]
    norm_num [c5_A, sum_assigned_usage, get_assigned_usage, clamp,
      sum_assigned_memory_locked, c5_nodes]
    simp
  have hb18 : bin_search c5_A 800 4 18 (127 / 64) (2) =
      bin_search c5_A 800 4 17 (255 / 128) (2) := by
    rw [bin_search]
    norm_num [c5_A, sum_assigned_usage, get_assigned_usage, clamp,
      sum_assigned_memory_locked, c5_nodes]
    simp
  have hb17 : bin_search c5_A 800 4 17 (255 / 128) (2) =
      bin_search c5_A 800 4 16 (511 / 256) (2) := by
    rw [bin_search]
    norm_num [c5_A, sum_assigned_usage, get_assigned_usage, clamp,
      sum_assigned_memory_locked, c5_nodes]
    simp
  have hb16 : bin_search c5_A 800 4 16 (511 / 256) (2) =
      bin_search c5_A 800 4 15 (1023 / 512) (2) := by
    rw [bin_search]
    norm_num [c5_A, sum_assigned_usage, get_assigned_usage, clamp,
      sum_assigned_memory_locked, c5_nodes]
    simp
  have hb15 : bin_search c5_A 800 4 15 (1023 / 512) (2) =
      bin_search c5_A 800 4 14 (2047 / 1024) (2) := by
    rw [bin_search]
    norm_num [c5_A, sum_assigned_usage, get_assigned_usage, clamp,
      sum_assigned_memory_locked, c5_nodes]
    simp
  have hb14 : bin_search c5_A 800 4 14 (2047 / 1024) (2) =
      bin_search c5_A 800 4 13 (4095 / 2048) (2) := by
    rw [bin_search]
    norm_num [c5_A, sum_assigned_usage, get_assigned_usage, clamp,
      sum_assigned_memory_locked, c5_nodes]
    simp
  have hb13 : bin_search c5_A 800 4 13 (4095 / 2048) (2) =
      bin_search c5_A 800 4 12 (8191 / 4096) (2) := by
    rw [bin_search]
    norm_num [c5_A, sum_assigned_usage, get_assigned_usage, clamp,
      sum_assigned_memory_locked, c5_nodes]
    simp
  have hb12 : bin_search c5_A 800 4 12 (8191 / 4096) (2) =
      bin_search c5_A 800 4 11 (16383 / 8192) (2) := by
    rw [bin_search]
    norm_num [c5_A, sum_assigned_usage, get_assigned_usage, clamp,
      sum_assigned_memory_locked, c5_nodes]
    simp
  have hb11 : bin_search c5_A 800 4 11 (16383 / 8192) (2) =
      bin_search c5_A 800 4 10 (32767 / 16384) (2) := by
    rw [bin_search]
    norm_num [c5_A, sum_assigned_usage, get_assigned_usage, clamp,
      sum_assigned_memory_locked, c5_nodes]
    simp
  have hb10 : bin_search c5_A 800 4 10 (32767 / 16384) (2) =
      bin_search c5_A 800 4 9 (65535 / 32768) (2) := by
    rw [bin_search]
    norm_num [c5_A, sum_assigned_usage, get_assigned_usage, clamp,
      sum_assigned_memory_locked, c5_nodes]
    simp
  have hb9 : bin_search c5_A 800 4 9 (65535 / 32768) (2) =
      bin_search c5_A 800 4 8 (131071 / 65536) (2) := by
    rw [bin_search]
    norm_num [c5_A, sum_assigned_usage, get_assigned_usage, clamp,
      sum_assigned_memory_locked, c5_nodes]
    simp
  have hb8 : bin_search c5_A 800 4 8 (131071 / 65536) (2) =
      bin_search c5_A 800 4 7 (262143 / 131072) (2) := by
    rw [bin_search]
    norm_num [c5_A, sum_assigned_usage, get_assigned_usage, clamp,
      sum_assigned_memory_locked, c5_nodes]
    simp
  have hb7 : bin_search c5_A 800 4 7 (262143 / 131072) (2) =
      bin_search c5_A 800 4 6 (524287 / 262144) (2) := by
    rw [bin_search]
    norm_num [c5_A, sum_assigned_usage, get_assigned_usage, clamp,
      sum_assigned_memory_locked, c5_nodes]
    simp
  have hb6 : bin_search c5_A 800 4 6 (524287 / 262144) (2) =
      bin_search c5_A 800 4 5 (1048575 / 524288) (2) := by
    rw [bin_search]
    norm_num [c5_A, sum_assigned_usage, get_assigned_usage, clamp,
      sum_assigned_memory_locked, c5_nodes]
    simp
  have hb5 : bin_search c5_A 800 4 5 (1048575 / 524288) (2) =
      bin_search c5_A 800 4 4 (2097151 / 1048576) (2) := by
    rw [bin_search]
    norm_num [c5_A, sum_assigned_usage, get_assigned_usage, clamp,
      sum_assigned_memory_locked, c5_nodes]
    simp
  have hb4 : bin_search c5_A 800 4 4 (2097151 / 1048576) (2) = 2097151 / 1048576 := by
    rw [bin_search]
    norm_num
  have hF : sum_fraction c5_nodes + ds_sum_fraction [] 0 = 4 := by
    norm_num [sum_fraction, ds_sum_fraction, c5_nodes]
  show get_factor 25 c5_A (sum_minimum_usage c5_nodes + sum_minimum_memory [] 0)
      800 (sum_fraction c5_nodes + ds_sum_fraction [] 0) = 52428775 / 131072
  rw [get_factor, if_neg (by decide :
      ¬sum_minimum_usage c5_nodes + sum_minimum_memory [] 0 > 800), hF,
    if_neg (by norm_num : ¬(4 : ℚ) < 1 / 1000000000)]
  dsimp only
  rw [he25, he24, hb25, hb24, hb23, hb22, hb21, hb20, hb19, hb18, hb17, hb16, hb15, hb14, hb13, hb12, hb11, hb10, hb9, hb8, hb7, hb6, hb5, hb4]
  norm_num

/-- C5 counterexample: in the memory-split scenario (min=100, max=1000, f=1
and min=200, max=400, f=3, budget 800) the first node is assigned 399, not
the 400 the claim expects: the bisection tolerance of 1e-6 leaves the factor
at 399.9998..., and the final clamp truncates it. -/
theorem c5_counterexample :
    get_assigned_usage ⟨100, 1000, 1⟩
      (get_memory_factor 25 800 0 c5_nodes [] true) = 399 ∧
    get_assigned_usage ⟨100, 1000, 1⟩
      (get_memory_factor 25 800 0 c5_nodes [] true) ≠ 400 := by
  rw [c5_factor_eq]
  norm_num [get_assigned_usage, clamp]
  simp

/-- C5 as amended: in the memory-split scenario the second node is capped at
its maximum 400, and the first node receives 399 — the bisection stops with a
factor just below 400 (52428775/131072) and the assignment truncates the
fractional part. -/
theorem c5_memory_split :
    get_assigned_usage ⟨200, 400, 3⟩
      (get_memory_factor 25 800 0 c5_nodes [] true) = 400 ∧
    get_assigned_usage ⟨100, 1000, 1⟩
      (get_memory_factor 25 800 0 c5_nodes [] true) = 399 := by
  rw [c5_factor_eq]
  norm_num [get_assigned_usage, clamp]
  simp

end TPIE
